import Mathlib

/-!
Verification of the pattern-simulation engine of the Algorithm Learning Studio
repository (`src/lib/algorithms.ts`).

Each simulator is embedded as an executable Lean function over `List`-based
state.  A TypeScript step record `{step: steps.length, action: ..., ...}` is
embedded as a `Step` structure carrying the sequence number, the action string
and the pattern-specific payload fields (absent fields are `none`).  A
`steps.push({step: steps.length, ...})` call is embedded as
`pushStep steps (fun m => { step := m, ... })`, where `m` is the length of the
steps array at push time, exactly as in the source.
-/

namespace AlgoStudio

/-- One recorded state snapshot.  The TypeScript type is an open record
(`Record<string, unknown>`); the payload fields used by the embedded
simulators appear here as optional fields.  Four source field names cannot
be used verbatim: the `prefix` payloads are `prefixStr` (the queried prefix
string) and `prefixSums` (the prefix-sum array), `from`/`to` are
`edgeFrom`/`edgeTo` (`from` is a Lean keyword), the BFS-grid `node: [r, c]`
pair is `cell` (the graph simulators' numeric `node` keeps its name), and
the graph DFS `seen` node-set snapshot is `seenNodes` (the hash simulators'
`seen` value list keeps its name). -/
structure Step where
  step : Nat
  action : String
  index : Option Nat := none
  value : Option Int := none
  seen : Option (List Int) := none
  countAfter : Option Nat := none
  freqMap : Option (List (Int × Nat)) := none
  phase : Option String := none
  left : Option Nat := none
  right : Option Nat := none
  sum : Option Int := none
  best : Option Nat := none
  lo : Option Nat := none
  hi : Option Nat := none
  mid : Option Nat := none
  midValue : Option Int := none
  target : Option Int := none
  lowerBound : Option Nat := none
  fibN : Option Int := none
  memoSize : Option Nat := none
  resultVal : Option Int := none
  sortedIvs : Option (List (Int × Int)) := none
  current : Option (Int × Int) := none
  merged : Option (List (Int × Int)) := none
  heap : Option (List Int) := none
  removed : Option (Option Int) := none
  topKDescending : Option (List Int) := none
  inDeg : Option (List Int) := none
  queue : Option (List Nat) := none
  node : Option Nat := none
  order : Option (List Nat) := none
  edgeFrom : Option Nat := none
  edgeTo : Option Nat := none
  edgeIndex : Option Nat := none
  edge : Option (Int × Int) := none
  parent : Option (List Nat) := none
  rank : Option (List Nat) := none
  query : Option (Int × Int) := none
  connected : Option Bool := none
  idx : Option Nat := none
  path : Option (List Int) := none
  leftValue : Option Int := none
  rightValue : Option Int := none
  char : Option Char := none
  stack : Option String := none
  cell : Option (Int × Int) := none
  queueSize : Option Nat := none
  visited : Option (List String) := none
  frontier : Option (List String) := none
  depth : Option Nat := none
  seenNodes : Option (List Nat) := none
  updateIndex : Option Nat := none
  update : Option (Nat × Nat × Int) := none
  diff : Option (List Int) := none
  runningDelta : Option Int := none
  adjusted : Option (List Int) := none
  prefixSums : Option (List Int) := none
  rangeSum : Option Int := none
  removedIndex : Option Nat := none
  deque : Option (List Nat) := none
  dequeValues : Option (List Int) := none
  windowEnd : Option Nat := none
  maxValue : Option Int := none
  output : Option (List Int) := none
  wordIndex : Option Nat := none
  word : Option String := none
  prefixStr : Option String := none
  sorted : Option (List (Int × Int)) := none
  selected : Option (List (Int × Int)) := none
  lastEnd : Option Int := none
  poppedDist : Option Int := none
  currentDist : Option (Option Int) := none
  dist : Option (List (Option Int)) := none
  weight : Option Int := none
  newDist : Option Int := none

/-- `steps.push({step: steps.length, ...})`. -/
def pushStep (steps : List Step) (f : Nat → Step) : List Step :=
  steps ++ [f steps.length]

/-- The step sequence numbers are exactly the positions: `steps[i].step = i`. -/
def indexed (steps : List Step) : Prop :=
  ∀ i (h : i < steps.length), (steps.get ⟨i, h⟩).step = i

theorem indexed_nil : indexed [] := by
  intro i h; simp at h

theorem indexed_push {steps : List Step} {f : Nat → Step}
    (hs : indexed steps) (hf : (f steps.length).step = steps.length) :
    indexed (pushStep steps f) := by
  intro i h
  unfold pushStep at h ⊢
  rcases Nat.lt_or_ge i steps.length with hlt | hge
  · rw [List.get_eq_getElem, List.getElem_append_left hlt]
    exact hs i hlt
  · have hlen : i = steps.length := by
      simp [List.length_append] at h
      omega
    subst hlen
    simp [hf]

theorem pushStep_ne_nil (steps : List Step) (f : Nat → Step) :
    pushStep steps f ≠ [] := by
  unfold pushStep
  simp

theorem pushStep_append (steps : List Step) (f : Nat → Step) :
    ∃ t, pushStep steps f = steps ++ t :=
  ⟨[f steps.length], rfl⟩

/-- `{ steps, result }` as returned by every simulator.  The TypeScript
`result` field has type `unknown`; each embedded simulator instantiates `R`
with the type of the values it actually returns. -/
structure SimResult (R : Type) where
  steps : List Step
  result : R

theorem simres_steps {R : Type} (s : List Step) (r : R) :
    (SimResult.mk s r).steps = s := rfl

/-- Ascending numeric sort used for the `[...seen].sort((a, b) => a - b)`
snapshots. -/
def sortAsc (l : List Int) : List Int := List.insertionSort (· ≤ ·) l

/-- Key-ascending sort used for the frequency-map snapshots
(`[...freq.entries()].sort((a, b) => a[0] - b[0])`). -/
def sortByKey (l : List (Int × Nat)) : List (Int × Nat) :=
  List.insertionSort (fun a b => a.1 ≤ b.1) l

/-! ## simulateHashDuplicate -/

/-- The `for` loop of `simulateHashDuplicate`.  The JS `Set` is embedded as a
list in insertion order; `i` is the loop index and the list argument is the
remaining suffix `nums.drop i`. -/
def hashDupGo (seen : List Int) (i : Nat) (steps : List Step) :
    List Int → SimResult (Option Int)
  | [] =>
      ⟨pushStep steps (fun m =>
        { step := m, action := "finished: no duplicates", seen := some (sortAsc seen) }), none⟩
  | v :: rest =>
      if seen.contains v then
        ⟨pushStep steps (fun m =>
          { step := m, index := some i, value := some v,
            action := "duplicate found -> stop", seen := some (sortAsc seen) }), some v⟩
      else
        hashDupGo (seen ++ [v]) (i + 1)
          (pushStep steps (fun m =>
            { step := m, index := some i, value := some v,
              action := "insert into set", seen := some (sortAsc (seen ++ [v])) })) rest

def simulateHashDuplicate (nums : List Int) : SimResult (Option Int) :=
  hashDupGo [] 0 [] nums

/-! ## simulateHashFrequency -/

/-- `freq.set(value, nextCount)` on a JS `Map` embedded as an association
list in insertion order: an existing key is updated in place, a new key is
appended. -/
def bumpFreq (v : Int) : List (Int × Nat) → List (Int × Nat)
  | [] => [(v, 1)]
  | (k, c) :: rest => if k = v then (k, c + 1) :: rest else (k, c) :: bumpFreq v rest

/-- The `for` loop of `simulateHashFrequency`. -/
def hashFreqGo (freq : List (Int × Nat)) (i : Nat) (steps : List Step) :
    List Int → SimResult (List (Int × Nat))
  | [] => ⟨steps, freq⟩
  | v :: rest =>
      let nextCount := ((freq.lookup v).getD 0) + 1
      let freq' := bumpFreq v freq
      hashFreqGo freq' (i + 1)
        (pushStep steps (fun m =>
          { step := m, index := some i, value := some v, countAfter := some nextCount,
            freqMap := some (sortByKey freq'), action := "update frequency" })) rest

def simulateHashFrequency (nums : List Int) : SimResult (List (Int × Nat)) :=
  hashFreqGo [] 0 [] nums

/-! ## simulateSlidingWindow -/

/-- The inner `while (sum > k && left <= right)` shrink loop.  The loop runs
at most `right + 1 - left` times, so any `fuel ≥ nums.length + 1` is enough;
fuel exhaustion is unreachable at the call below. -/
def swShrink (fuel : Nat) (nums : List Int) (k : Int) (left right : Nat)
    (sum : Int) (best : Nat) (steps : List Step) : Nat × Int × List Step :=
  match fuel with
  | 0 => (left, sum, steps)
  | fuel + 1 =>
      if sum > k ∧ left ≤ right then
        let removed := nums.getD left 0
        let sum' := sum - removed
        let left' := left + 1
        swShrink fuel nums k left' right sum' best
          (pushStep steps (fun m =>
            { step := m, phase := some "shrink", left := some left', right := some right,
              sum := some sum', best := some best, action := "remove " ++ toString removed }))
      else (left, sum, steps)

/-- The outer `for (right ...)` loop of `simulateSlidingWindow`; the list
argument is the remaining suffix `nums.drop right`. -/
def swGo (nums : List Int) (k : Int) (left : Nat) (sum : Int) (best : Nat)
    (right : Nat) (steps : List Step) : List Int → SimResult Nat
  | [] => ⟨steps, best⟩
  | v :: rest =>
      let sum1 := sum + v
      let steps1 := pushStep steps (fun m =>
        { step := m, phase := some "expand", left := some left, right := some right,
          sum := some sum1, best := some best, action := "add nums[" ++ toString right ++ "]" })
      match swShrink (nums.length + 1) nums k left right sum1 best steps1 with
      | (left2, sum2, steps2) =>
        let best3 := if left2 ≤ right then max best (right - left2 + 1) else best
        let steps3 := pushStep steps2 (fun m =>
          { step := m, phase := some "update", left := some left2, right := some right,
            sum := some sum2, best := some best3, action := "update best window" })
        swGo nums k left2 sum2 best3 (right + 1) steps3 rest

def simulateSlidingWindow (nums : List Int) (k : Int) : SimResult Nat :=
  swGo nums k 0 0 0 0 [] nums

/-! ## simulateBinarySearch -/

/-- The `while (lo < hi)` loop.  Each iteration strictly shrinks `hi - lo`,
so any `fuel > hi - lo` is enough; fuel exhaustion is unreachable at the
call below. -/
def bsLoop (fuel : Nat) (nums : List Int) (target : Int) (lo hi : Nat)
    (steps : List Step) : Nat × List Step :=
  match fuel with
  | 0 => (lo, steps)
  | fuel + 1 =>
      if lo < hi then
        let mid := lo + (hi - lo) / 2
        let value := nums.getD mid 0
        if value < target then
          bsLoop fuel nums target (mid + 1) hi
            (pushStep steps (fun m =>
              { step := m, lo := some (mid + 1), hi := some hi, mid := some mid,
                midValue := some value, target := some target,
                action := "value < target -> move lo right" }))
        else
          bsLoop fuel nums target lo mid
            (pushStep steps (fun m =>
              { step := m, lo := some lo, hi := some mid, mid := some mid,
                midValue := some value, target := some target,
                action := "value >= target -> move hi left" }))
      else (lo, steps)

def simulateBinarySearch (nums : List Int) (target : Int) : SimResult Nat :=
  match bsLoop (nums.length + 1) nums target 0 nums.length [] with
  | (lo, steps) =>
    ⟨pushStep steps (fun m =>
      { step := m, action := "done", lowerBound := some lo, target := some target }), lo⟩

/-! ## simulateFibMemo -/

/-- The inner recursive `fib` of `simulateFibMemo`.  The memo `Map` is an
association list in insertion order (`Map.set` of a fresh key appends).
Both recursive calls strictly decrease `x`, so any `fuel > x` is enough;
fuel exhaustion is unreachable at the call below. -/
def fibGo (fuel : Nat) (x : Nat) (memo : List (Nat × Nat)) (steps : List Step) :
    Nat × List (Nat × Nat) × List Step :=
  match fuel with
  | 0 => (0, memo, steps)
  | fuel + 1 =>
      let steps0 := pushStep steps (fun m =>
        { step := m, fibN := some (x : Int), action := "call", memoSize := some memo.length })
      if x ≤ 1 then
        (x, memo, pushStep steps0 (fun m =>
          { step := m, fibN := some (x : Int), action := "base case",
            memoSize := some memo.length }))
      else if (memo.lookup x).isSome then
        ((memo.lookup x).getD 0, memo, pushStep steps0 (fun m =>
          { step := m, fibN := some (x : Int), action := "memo hit",
            memoSize := some memo.length }))
      else
        match fibGo fuel (x - 1) memo steps0 with
        | (v1, memo1, steps1) =>
          match fibGo fuel (x - 2) memo1 steps1 with
          | (v2, memo2, steps2) =>
            let value := v1 + v2
            let memo3 := memo2 ++ [(x, value)]
            (value, memo3, pushStep steps2 (fun m =>
              { step := m, fibN := some (x : Int),
                action := "store memo[" ++ toString x ++ "]",
                memoSize := some memo3.length, value := some (value : Int) }))

def simulateFibMemo (n : Int) : SimResult Int :=
  if n < 0 then ⟨[{ step := 0, action := "invalid n: must be >= 0" }], -1⟩
  else
    match fibGo (n.toNat + 1) n.toNat [] [] with
    | (value, memo, steps) =>
      ⟨pushStep steps (fun m =>
        { step := m, fibN := some n, action := "done", resultVal := some (value : Int),
          memoSize := some memo.length }), (value : Int)⟩

/-! ## simulateIntervalsMerge -/

/-- The comparator `(a, b) => (a[0] - b[0]) || (a[1] - b[1])`: ascending by
start, then by end. -/
def ivLex (a b : Int × Int) : Prop := a.1 < b.1 ∨ (a.1 = b.1 ∧ a.2 ≤ b.2)

instance : DecidableRel ivLex := fun a b => by
  unfold ivLex; infer_instance

instance : IsTotal (Int × Int) ivLex where
  total a b := by unfold ivLex; omega

instance : IsTrans (Int × Int) ivLex where
  trans a b c := by unfold ivLex; omega

/-- `[...intervals].sort((a, b) => (a[0] - b[0]) || (a[1] - b[1]))` (JS sort
is stable; insertion sort is stable). -/
def sortIvs (l : List (Int × Int)) : List (Int × Int) := List.insertionSort ivLex l

/-- The sweep loop of `simulateIntervalsMerge`.  The growing `merged` array
is represented as `done ++ [cur]`: `cur` is its last element (the only one
the loop ever mutates), `done` the finished ones before it. -/
def mergeSweep (done : List (Int × Int)) (cur : Int × Int) (steps : List Step) :
    List (Int × Int) → List Step × List (Int × Int)
  | [] => (steps, done ++ [cur])
  | (s, e) :: rest =>
      if cur.2 < s then
        mergeSweep (done ++ [cur]) (s, e)
          (pushStep steps (fun m =>
            { step := m, action := "start new interval", current := some (s, e),
              merged := some (done ++ [cur, (s, e)]) })) rest
      else
        let cur' := (cur.1, max cur.2 e)
        mergeSweep done cur'
          (pushStep steps (fun m =>
            { step := m, action := "merge overlap", current := some (s, e),
              merged := some (done ++ [cur']) })) rest

def simulateIntervalsMerge (intervals : List (Int × Int)) :
    SimResult (List (Int × Int)) :=
  match intervals with
  | [] => ⟨[{ step := 0, action := "empty intervals" }], []⟩
  | _ :: _ =>
    let sorted := sortIvs intervals
    let steps0 : List Step := [{ step := 0, action := "sort intervals", sortedIvs := some sorted }]
    match sorted with
    | [] => ⟨steps0, []⟩
    | c :: rest =>
      let steps1 := pushStep steps0 (fun m =>
        { step := m, action := "start new interval", current := some c,
          merged := some [c] })
      match mergeSweep [] c steps1 rest with
      | (steps2, merged) => ⟨steps2, merged⟩

/-! ## simulateHeapTopK -/

/-- `[heap[p], heap[i]] = [heap[i], heap[p]]`. -/
def swapL (h : List Int) (i j : Nat) : List Int :=
  (h.set i (h.getD j 0)).set j (h.getD i 0)

/-- The sift-up `while (i > 0)` loop of `heapPushMin`.  `i` strictly
decreases, so any `fuel > i` is enough; fuel exhaustion is unreachable at
the call below. -/
def siftUp (fuel : Nat) (h : List Int) (i : Nat) : List Int :=
  match fuel with
  | 0 => h
  | fuel + 1 =>
      if 0 < i then
        let p := (i - 1) / 2
        if h.getD p 0 ≤ h.getD i 0 then h
        else siftUp fuel (swapL h p i) p
      else h

def heapPushMin (h : List Int) (v : Int) : List Int :=
  let h' := h ++ [v]
  siftUp h'.length h' (h'.length - 1)

/-- The sift-down `while (true)` loop of `heapPopMin`.  `i` strictly
increases and stays below the (constant) length, so any
`fuel ≥ h.length` is enough; fuel exhaustion is unreachable at the call
below. -/
def siftDown (fuel : Nat) (h : List Int) (i : Nat) : List Int :=
  match fuel with
  | 0 => h
  | fuel + 1 =>
      let left := i * 2 + 1
      let right := i * 2 + 2
      let s1 := if left < h.length ∧ h.getD left 0 < h.getD i 0 then left else i
      let s2 := if right < h.length ∧ h.getD right 0 < h.getD s1 0 then right else s1
      if s2 = i then h else siftDown fuel (swapL h i s2) s2

def heapPopMin : List Int → Option Int × List Int
  | [] => (none, [])
  | x :: xs =>
      let rest := (x :: xs).dropLast
      let lastV := (x :: xs).getLast (List.cons_ne_nil x xs)
      if rest.isEmpty then (some x, rest)
      else (some x, siftDown rest.length (rest.set 0 lastV) 0)

/-- The `nums.forEach` loop of `simulateHeapTopK`. -/
def topkGo (k : Int) (heap : List Int) (i : Nat) (steps : List Step) :
    List Int → List Int × List Step
  | [] => (heap, steps)
  | v :: rest =>
      let h1 := heapPushMin heap v
      let steps1 := pushStep steps (fun m =>
        { step := m, index := some i, value := some v,
          action := "push into min-heap", heap := some h1 })
      if (h1.length : Int) > k then
        match heapPopMin h1 with
        | (removed, h2) =>
          topkGo k h2 (i + 1)
            (pushStep steps1 (fun m =>
              { step := m, index := some i, action := "heap size > k -> pop smallest",
                removed := some removed, heap := some h2 })) rest
      else topkGo k h1 (i + 1) steps1 rest

/-- `[...heap].sort((a, b) => b - a)`: descending numeric sort. -/
def sortDesc (l : List Int) : List Int := List.insertionSort (fun a b => b ≤ a) l

def simulateHeapTopK (nums : List Int) (k : Int) : SimResult (List Int) :=
  if k ≤ 0 then ⟨[{ step := 0, action := "invalid k: must be > 0" }], []⟩
  else
    match topkGo k [] 0 [] nums with
    | (heap, steps) =>
      let topKDescending := sortDesc heap
      ⟨pushStep steps (fun m =>
        { step := m, action := "done", topKDescending := some topKDescending }),
        topKDescending⟩

/-! ## simulateTopologicalSort -/

/-- The TypeScript result is `[]` for the degenerate graph and
`{ order, hasCycle }` otherwise (the field is `unknown`-typed). -/
inductive TopoRes where
  | emptySentinel : TopoRes
  | report (order : List Nat) (hasCycle : Bool) : TopoRes
  deriving DecidableEq

/-- The `edges.forEach` adjacency/indegree build of `simulateTopologicalSort`:
out-of-range endpoints are skipped. -/
def topoBuild (n : Nat) (acc : List (List Nat) × List Int) :
    List (Int × Int) → List (List Nat) × List Int
  | [] => acc
  | (u, v) :: rest =>
      if 0 ≤ u ∧ u < (n : Int) ∧ 0 ≤ v ∧ v < (n : Int) then
        let adj := acc.1
        let inDeg := acc.2
        topoBuild n
          (adj.set u.toNat (adj.getD u.toNat [] ++ [v.toNat]),
           inDeg.set v.toNat (inDeg.getD v.toNat 0 + 1)) rest
      else topoBuild n acc rest

/-- The `adj[u].forEach` neighbor loop of Kahn's algorithm.  `pending` is the
live part of the queue, `queue.slice(head)`.  Indegrees are `Int`-valued, as
in the source, so they can go negative. -/
def topoNbrs (u : Nat) (pending : List Nat) (inDeg : List Int) (steps : List Step) :
    List Nat → List Nat × List Int × List Step
  | [] => (pending, inDeg, steps)
  | v :: vs =>
      let inDeg' := inDeg.set v (inDeg.getD v 0 - 1)
      let steps1 := pushStep steps (fun m =>
        { step := m, action := "decrement indegree", edgeFrom := some u, edgeTo := some v,
          inDeg := some inDeg' })
      if inDeg'.getD v 0 = 0 then
        topoNbrs u (pending ++ [v]) inDeg'
          (pushStep steps1 (fun m =>
            { step := m, action := "enqueue new zero-indegree node", node := some v,
              queue := some (pending ++ [v]) })) vs
      else topoNbrs u pending inDeg' steps1 vs

/-- The `while (head < queue.length)` loop of Kahn's algorithm.  Each node is
enqueued at most once (indegrees only decrease, so they reach 0 at most
once), hence any `fuel ≥ nodeCount` is enough; the call below passes more. -/
def topoLoop (fuel : Nat) (adj : List (List Nat)) (pending : List Nat)
    (inDeg : List Int) (order : List Nat) (steps : List Step) : List Nat × List Step :=
  match fuel with
  | 0 => (order, steps)
  | fuel + 1 =>
      match pending with
      | [] => (order, steps)
      | u :: pend1 =>
        let order' := order ++ [u]
        let steps1 := pushStep steps (fun m =>
          { step := m, action := "pop zero-indegree node", node := some u,
            order := some order', queue := some pend1 })
        match topoNbrs u pend1 inDeg steps1 (adj.getD u []) with
        | (pend2, inDeg2, steps2) => topoLoop fuel adj pend2 inDeg2 order' steps2

/-- `nodeCount` is `Nat`-typed here, so the source's `nodeCount <= 0` guard
is `nodeCount = 0`. -/
def simulateTopologicalSort (nodeCount : Nat) (edges : List (Int × Int)) :
    SimResult TopoRes :=
  if nodeCount = 0 then ⟨[{ step := 0, action := "empty graph" }], .emptySentinel⟩
  else
    match topoBuild nodeCount
        (List.replicate nodeCount ([] : List Nat), List.replicate nodeCount (0 : Int))
        edges with
    | (adj, inDeg) =>
      let queue := (List.range nodeCount).filter (fun i => inDeg.getD i 0 = 0)
      let steps0 := pushStep [] (fun m =>
        { step := m, action := "initialize indegree and queue", inDeg := some inDeg,
          queue := some queue })
      match topoLoop (nodeCount + edges.length + 1) adj queue inDeg [] steps0 with
      | (order, steps1) =>
        if order.length ≠ nodeCount then
          ⟨pushStep steps1 (fun m =>
            { step := m, action := "cycle detected: topo order incomplete",
              order := some order }), .report order true⟩
        else ⟨steps1, .report order false⟩

/-! ## simulateUnionFind -/

/-- The `while (parent[cur] !== cur)` path-halving loop of `find`.  Under the
union-by-rank invariant every parent chain reaches its root in fewer than
`parent.length` hops, so the `fuel = parent.length` used by `ufFind` is
enough (proved below). -/
def findAux (fuel : Nat) (p : List Nat) (cur : Nat) : List Nat × Nat :=
  match fuel with
  | 0 => (p, cur)
  | fuel + 1 =>
      let pc := p.getD cur cur
      if pc = cur then (p, cur)
      else findAux fuel (p.set cur (p.getD pc pc)) (p.getD pc pc)

/-- `find(x)`: returns the mutated parent array and the root. -/
def ufFind (p : List Nat) (x : Nat) : List Nat × Nat := findAux p.length p x

/-- `union(a, b)`: returns the new parent array, the new rank array and
whether a merge happened. -/
def ufUnion (p r : List Nat) (a b : Nat) : List Nat × List Nat × Bool :=
  match ufFind p a with
  | (p1, ra) =>
    match ufFind p1 b with
    | (p2, rb) =>
      if ra = rb then (p2, r, false)
      else
        match if r.getD ra 0 < r.getD rb 0 then (rb, ra) else (ra, rb) with
        | (ra', rb') =>
          let p3 := p2.set rb' ra'
          let r3 := if r.getD ra' 0 = r.getD rb' 0 then r.set ra' (r.getD ra' 0 + 1) else r
          (p3, r3, true)

/-- The `edges.forEach` loop of `simulateUnionFind`; `i` is the forEach
index (it advances on skipped edges too). -/
def ufEdges (p r : List Nat) (n : Nat) (i : Nat) (steps : List Step) :
    List (Int × Int) → List Nat × List Nat × List Step
  | [] => (p, r, steps)
  | (u, v) :: rest =>
      if u < 0 ∨ (n : Int) ≤ u ∨ v < 0 ∨ (n : Int) ≤ v then
        ufEdges p r n (i + 1) steps rest
      else
        match ufUnion p r u.toNat v.toNat with
        | (p', r', merged) =>
          ufEdges p' r' n (i + 1)
            (pushStep steps (fun m =>
              { step := m, edgeIndex := some i, edge := some (u, v),
                action := if merged then "union components" else "already connected",
                parent := some p', rank := some r' })) rest

/-- `nodeCount` is `Nat`-typed here, so the source's `nodeCount <= 0` guard
is `nodeCount = 0`. -/
def simulateUnionFind (nodeCount : Nat) (edges : List (Int × Int))
    (queryA queryB : Int) : SimResult Bool :=
  if nodeCount = 0 then ⟨[{ step := 0, action := "empty node set" }], false⟩
  else
    match ufEdges (List.range nodeCount) (List.replicate nodeCount 0) nodeCount 0 [] edges with
    | (p, _r, steps) =>
      if queryA < 0 ∨ (nodeCount : Int) ≤ queryA ∨ queryB < 0 ∨ (nodeCount : Int) ≤ queryB then
        ⟨pushStep steps (fun m =>
          { step := m, action := "invalid query nodes", query := some (queryA, queryB) }),
          false⟩
      else
        match ufFind p queryA.toNat with
        | (p1, ra) =>
          match ufFind p1 queryB.toNat with
          | (p2, rb) =>
            let connected := decide (ra = rb)
            ⟨pushStep steps (fun m =>
              { step := m, action := "connectivity query", query := some (queryA, queryB),
                connected := some connected, parent := some p2 }), connected⟩

/-! ## simulateBacktrackingSubsetSum -/

/-- The mutable closure state of `simulateBacktrackingSubsetSum`. -/
structure BTState where
  steps : List Step
  path : List Int
  found : Option (List Int)
  abort : Bool

theorem btmk_steps (s : List Step) (p : List Int) (fd : Option (List Int)) (ab : Bool) :
    (BTState.mk s p fd ab).steps = s := rfl

/-- The recursive `dfs(idx, sum)`.  The recursion only continues while
`idx < nums.length` and each call increments `idx`, so any
`fuel > nums.length` is enough; fuel exhaustion is unreachable at the call
below.  `path.pop()` is `dropLast` (the recursive call restores `path`
before returning, as the balanced push/pop does in the source). -/
def btDfs (fuel : Nat) (nums : List Int) (target : Int) (idx : Nat) (sum : Int)
    (st : BTState) : BTState :=
  match fuel with
  | 0 => st
  | fuel + 1 =>
      if st.abort ∨ st.found.isSome then st
      else
        let st1 : BTState := { st with steps := pushStep st.steps (fun m =>
          { step := m, action := "visit state", idx := some idx, sum := some sum,
            path := some st.path }) }
        if 700 ≤ st1.steps.length then
          { st1 with
            abort := true
            steps := pushStep st1.steps (fun m =>
              { step := m, action := "step cap reached -> stop search" }) }
        else if sum = target then
          { st1 with
            found := some st1.path
            steps := pushStep st1.steps (fun m =>
              { step := m, action := "target reached", target := some target,
                path := some st1.path }) }
        else if nums.length ≤ idx ∨ target < sum then
          { st1 with steps := pushStep st1.steps (fun m =>
            { step := m, action := "dead end", idx := some idx, sum := some sum }) }
        else
          let v := nums.getD idx 0
          let st2 : BTState := { st1 with path := st1.path ++ [v] }
          let st3 : BTState := { st2 with steps := pushStep st2.steps (fun m =>
            { step := m, action := "choose value", value := some v, idx := some idx,
              path := some st2.path }) }
          let st4 := btDfs fuel nums target (idx + 1) (sum + v) st3
          let st5 : BTState := { st4 with path := st4.path.dropLast }
          if st5.found.isSome ∨ st5.abort then st5
          else
            let st6 : BTState := { st5 with steps := pushStep st5.steps (fun m =>
              { step := m, action := "skip value", value := some v, idx := some idx,
                path := some st5.path }) }
            btDfs fuel nums target (idx + 1) sum st6

def simulateBacktrackingSubsetSum (nums : List Int) (target : Int) :
    SimResult (Option (List Int)) :=
  let st := btDfs (nums.length + 1) nums target 0 0 ⟨[], [], none, false⟩
  ⟨st.steps, st.found⟩

/-! ## simulateTwoPointers -/

/-- The `while (left < right)` loop of `simulateTwoPointers`.  Each
iteration either returns or shrinks `right - left` by one, so
`nums.length + 1` units of fuel are sufficient (initially
`right - left ≤ nums.length - 1`, and the terminal check consumes one
unit). -/
def tpGo (nums : List Int) (target : Int) : Nat → Nat → Nat → List Step → SimResult Bool
  | 0, _, _, steps => ⟨steps, false⟩
  | fuel + 1, left, right, steps =>
      if left < right then
        let sum := nums.getD left 0 + nums.getD right 0
        let action :=
          if sum < target then "sum < target -> move left right"
          else if target < sum then "sum > target -> move right left"
          else "sum == target -> found"
        let steps1 := pushStep steps (fun m =>
          { step := m, left := some left, right := some right,
            leftValue := some (nums.getD left 0), rightValue := some (nums.getD right 0),
            sum := some sum, target := some target, action := action })
        if sum = target then ⟨steps1, true⟩
        else if sum < target then tpGo nums target fuel (left + 1) right steps1
        else tpGo nums target fuel left (right - 1) steps1
      else
        ⟨pushStep steps (fun m =>
          { step := m, action := "pointers crossed -> not found" }), false⟩

/-- The source initialises `right = nums.length - 1` before the empty-input
guard; the guard returns first, so the order is immaterial. -/
def simulateTwoPointers (nums : List Int) (target : Int) : SimResult Bool :=
  if nums.length = 0 then ⟨[{ step := 0, action := "empty input" }], false⟩
  else tpGo nums target (nums.length + 1) 0 (nums.length - 1) []

/-! ## simulateStackParens -/

/-- The `match` record: the opening bracket a closing bracket must pop. -/
def parenMatch (ch : Char) : Option Char :=
  if ch = ')' then some '('
  else if ch = ']' then some '['
  else if ch = '}' then some '{'
  else none

/-- The character loop of `simulateStackParens`.  The JS array `stack` is a
`List Char` with the top at the END (push = append, pop = `dropLast`), so
`stack.join('')` is `String.mk stack`; `i` is the character index. -/
def spGo : List Char → Nat → List Char → List Step → SimResult Bool
  | [], _, stack, steps =>
      let valid := stack.isEmpty
      ⟨pushStep steps (fun m =>
        { step := m, action := if valid then "valid" else "unfinished opens -> invalid",
          stack := some (String.mk stack) }), valid⟩
  | ch :: rest, i, stack, steps =>
      if ch = '(' ∨ ch = '[' ∨ ch = '{' then
        let stack1 := stack ++ [ch]
        spGo rest (i + 1) stack1 (pushStep steps (fun m =>
          { step := m, index := some i, char := some ch, stack := some (String.mk stack1),
            action := "push open bracket" }))
      else
        match parenMatch ch with
        | some want =>
            let top := stack.getLast?
            let ok : Bool := top == some want
            let stack1 := stack.dropLast
            let steps1 := pushStep steps (fun m =>
              { step := m, index := some i, char := some ch, stack := some (String.mk stack1),
                action := if ok then "pop and compare" else "mismatch -> invalid" })
            if ok then spGo rest (i + 1) stack1 steps1 else ⟨steps1, false⟩
        | none =>
            spGo rest (i + 1) stack (pushStep steps (fun m =>
              { step := m, index := some i, char := some ch, stack := some (String.mk stack),
                action := "ignore non-bracket" }))

def simulateStackParens (text : String) : SimResult Bool :=
  spGo text.data 0 [] []

/-! ## simulateBfsGrid -/

/-- `keyCell(r, c)`: the template string `` `${r},${c}` ``. -/
def keyCell (r c : Int) : String := toString r ++ "," ++ toString c

/-- The `dirs.forEach` body: try the four neighbours of `(r, c)` in the
fixed order down, up, right, left, extending `queue` and `visited` (both
JS-insertion-ordered lists) and pushing an "enqueue neighbor" step for each
newly visited cell.  `head` is the queue cursor (already past `(r, c)`). -/
def bfsNbrs (rows cols : Int) (blocked : List String) (r c : Int) (head : Nat) :
    List (Int × Int) → List (Int × Int) → List String → List Step →
    List (Int × Int) × List String × List Step
  | [], queue, visited, steps => (queue, visited, steps)
  | (dr, dc) :: ds, queue, visited, steps =>
      let nr := r + dr
      let nc := c + dc
      if nr < 0 ∨ rows ≤ nr ∨ nc < 0 ∨ cols ≤ nc then
        bfsNbrs rows cols blocked r c head ds queue visited steps
      else
        let cl := keyCell nr nc
        if blocked.contains cl ∨ visited.contains cl then
          bfsNbrs rows cols blocked r c head ds queue visited steps
        else
          let visited1 := visited ++ [cl]
          let queue1 := queue ++ [(nr, nc)]
          bfsNbrs rows cols blocked r c head ds queue1 visited1
            (pushStep steps (fun m =>
              { step := m, cell := some (nr, nc), action := "enqueue neighbor",
                queueSize := some (queue1.length - head), visited := some visited1,
                frontier := some ((queue1.drop head).map (fun x => keyCell x.1 x.2)) }))

/-- The `while (head < queue.length)` loop.  Every enqueued cell is a fresh
member of `visited`, all visited keys are distinct keys of in-grid cells,
so `queue.length ≤ rows * cols + 1` (the start cell may lie off-grid) and
the loop runs at most that many times: `rows.toNat * cols.toNat + 2` units
of fuel are sufficient. -/
def bfsGo (rows cols : Int) (blocked : List String) :
    Nat → List (Int × Int) → Nat → List String → List Step → SimResult Nat
  | 0, _, _, visited, steps => ⟨steps, visited.length⟩
  | fuel + 1, queue, head, visited, steps =>
      if head < queue.length then
        let rc := queue.getD head (0, 0)
        let head1 := head + 1
        let steps1 := pushStep steps (fun m =>
          { step := m, cell := some rc, action := "dequeue",
            queueSize := some (queue.length - head1), visited := some visited,
            frontier := some ((queue.drop head1).map (fun x => keyCell x.1 x.2)) })
        match bfsNbrs rows cols blocked rc.1 rc.2 head1
            [(1, 0), (-1, 0), (0, 1), (0, -1)] queue visited steps1 with
        | (queue1, visited1, steps2) => bfsGo rows cols blocked fuel queue1 head1 visited1 steps2
      else ⟨steps, visited.length⟩

/-- `visited` is a JS `Set`; the embedded insertion-order list has distinct
members by construction, so `visited.size` is its length. -/
def simulateBfsGrid (rows cols : Int) (blocked : List String) (start : Int × Int) :
    SimResult Nat :=
  if rows ≤ 0 ∨ cols ≤ 0 then ⟨[{ step := 0, action := "empty grid" }], 0⟩
  else if blocked.contains (keyCell start.1 start.2) then
    ⟨[{ step := 0, action := "start blocked" }], 0⟩
  else
    bfsGo rows cols blocked (rows.toNat * cols.toNat + 2) [start] 0
      [keyCell start.1 start.2] []

/-! ## simulateDfsGraph -/

/-- Ascending sort on `Nat` lists (`.sort((a, b) => a - b)` on node ids). -/
def sortAscNat (l : List Nat) : List Nat := List.insertionSort (· ≤ ·) l

/-- The `edges.forEach` adjacency build: both endpoints in range appends
`v` to `adj[u]` and `u` to `adj[v]`. -/
def dfsAdjBuild (n : Nat) : List (Int × Int) → List (List Nat) → List (List Nat)
  | [], adj => adj
  | (u, v) :: rest, adj =>
      if 0 ≤ u ∧ u < (n : Int) ∧ 0 ≤ v ∧ v < (n : Int) then
        let adj1 := adj.set u.toNat (adj.getD u.toNat [] ++ [v.toNat])
        let adj2 := adj1.set v.toNat (adj1.getD v.toNat [] ++ [u.toNat])
        dfsAdjBuild n rest adj2
      else dfsAdjBuild n rest adj

/-- The `adj[u].forEach` loop of the recursive `dfs`: `rec` is the
recursive call one level down (`dfs(v, depth + 1)` with one unit of fuel
spent). -/
def dfsNbrs (rec : Nat → Nat → List Nat → List Step → List Nat × List Step)
    (u depth : Nat) : List Nat → List Nat → List Step → List Nat × List Step
  | [], seen, steps => (seen, steps)
  | v :: vs, seen, steps =>
      if seen.contains v then dfsNbrs rec u depth vs seen steps
      else
        let steps1 := pushStep steps (fun m =>
          { step := m, node := some u, depth := some depth,
            action := "go to neighbor " ++ toString v,
            seenNodes := some (sortAscNat seen) })
        match rec v (depth + 1) seen steps1 with
        | (seen1, steps2) => dfsNbrs rec u depth vs seen1 steps2

/-- The recursive `dfs(u, depth)`.  Fuel bounds the recursion DEPTH: every
nested call adds its (previously unseen) node to `seen` before recursing,
and all reachable nodes are `< nodeCount`, so depth ≤ `nodeCount` and
`nodeCount + 1` units of fuel are sufficient. -/
def dfsGo (adj : List (List Nat)) : Nat → Nat → Nat → List Nat → List Step →
    List Nat × List Step
  | 0, _, _, seen, steps => (seen, steps)
  | fuel + 1, u, depth, seen, steps =>
      let seen1 := seen ++ [u]
      let steps1 := pushStep steps (fun m =>
        { step := m, node := some u, depth := some depth, action := "enter node",
          seenNodes := some (sortAscNat seen1) })
      match dfsNbrs (fun v d sn st => dfsGo adj fuel v d sn st) u depth
          (adj.getD u []) seen1 steps1 with
      | (seen2, steps2) =>
          (seen2, pushStep steps2 (fun m =>
            { step := m, node := some u, depth := some depth, action := "backtrack",
              seenNodes := some (sortAscNat seen2) }))

/-- The source builds the adjacency rows before the start-node guard; both
are pure, so the guard-first order here is equivalent.  `seen` is a JS
`Set` embedded as a distinct-member insertion-order list, so `seen.size`
is its length. -/
def simulateDfsGraph (nodeCount : Nat) (edges : List (Int × Int)) (start : Int) :
    SimResult Nat :=
  if start < 0 ∨ (nodeCount : Int) ≤ start then
    ⟨[{ step := 0, action := "invalid start node" }], 0⟩
  else
    let adj := (dfsAdjBuild nodeCount edges (List.replicate nodeCount [])).map
      (List.insertionSort (· ≤ ·))
    match dfsGo adj (nodeCount + 1) start.toNat 0 [] [] with
    | (seen, steps) => ⟨steps, seen.length⟩

/-! ## simulatePrefixDifference -/

/-- `clampIndex(x, n)`: `0` for `n <= 0`, else `x` clamped into
`[0, n-1]` (the result is a valid index, so it is returned as `Nat`). -/
def clampIndex (x : Int) (n : Nat) : Nat :=
  if n = 0 then 0 else (max 0 (min ((n : Int) - 1) x)).toNat

/-- The `updates.forEach` loop: apply each update to the difference array
(`diff` has length `n + 1`) and record the first `n` entries. -/
def pdUpdates (n : Nat) : List (Int × Int × Int) → Nat → List Int → List Step →
    List Int × List Step
  | [], _, diff, steps => (diff, steps)
  | (rawL, rawR, delta) :: rest, i, diff, steps =>
      let l := clampIndex rawL n
      let r := clampIndex rawR n
      let left := min l r
      let right := max l r
      let diff1 := diff.set left (diff.getD left 0 + delta)
      let diff2 :=
        if right + 1 < diff1.length then diff1.set (right + 1) (diff1.getD (right + 1) 0 - delta)
        else diff1
      pdUpdates n rest (i + 1) diff2
        (pushStep steps (fun m =>
          { step := m, action := "apply diff update", updateIndex := some i,
            update := some (left, right, delta), diff := some (diff2.take n) }))

/-- The rebuild loop (`i` ranges over `List.range n`): fold the running
delta and overwrite `adjusted[i]`. -/
def pdRebuild (nums diff : List Int) : List Nat → Int → List Int → List Step →
    List Int × List Step
  | [], _, adjusted, steps => (adjusted, steps)
  | i :: is, runningDelta, adjusted, steps =>
      let rd := runningDelta + diff.getD i 0
      let adjusted1 := adjusted.set i (nums.getD i 0 + rd)
      pdRebuild nums diff is rd adjusted1
        (pushStep steps (fun m =>
          { step := m, index := some i, action := "rebuild value from diff",
            runningDelta := some rd, adjusted := some adjusted1 }))

/-- The prefix-sum loop (`i` ranges over `List.range n`). -/
def pdPrefixSums (adjusted : List Int) : List Nat → List Int → List Step →
    List Int × List Step
  | [], pfx, steps => (pfx, steps)
  | i :: is, pfx, steps =>
      let v := adjusted.getD i 0 + (if 0 < i then pfx.getD (i - 1) 0 else 0)
      let pfx1 := pfx.set i v
      pdPrefixSums adjusted is pfx1
        (pushStep steps (fun m =>
          { step := m, index := some i, action := "build prefix",
            prefixSums := some pfx1 }))

/-- The result of `simulatePrefixDifference`: the literal `0` sentinel for
an empty input, or the `{adjusted, prefix, query, rangeSum}` record. -/
inductive PDRes where
  | emptySentinel
  | report (adjusted prefixSums : List Int) (query : Nat × Nat) (rangeSum : Int)
deriving DecidableEq

def simulatePrefixDifference (nums : List Int) (updates : List (Int × Int × Int))
    (queryL queryR : Int) : SimResult PDRes :=
  if nums.length = 0 then ⟨[{ step := 0, action := "empty input" }], .emptySentinel⟩
  else
    let n := nums.length
    match pdUpdates n updates 0 (List.replicate (n + 1) 0) [] with
    | (diff, steps1) =>
      match pdRebuild nums diff (List.range n) 0 (List.replicate n 0) steps1 with
      | (adjusted, steps2) =>
        match pdPrefixSums adjusted (List.range n) (List.replicate n 0) steps2 with
        | (pfx, steps3) =>
          let l := clampIndex (min queryL queryR) n
          let r := clampIndex (max queryL queryR) n
          let rangeSum := pfx.getD r 0 - (if 0 < l then pfx.getD (l - 1) 0 else 0)
          ⟨pushStep steps3 (fun m =>
            { step := m, action := "answer range query", query := some ((l : Int), (r : Int)),
              rangeSum := some rangeSum }),
            .report adjusted pfx (l, r) rangeSum⟩

/-! ## simulateMonotonicWindowMax -/

/-- The `while (deque.length > 0 && deque[0] <= i - k)` eviction loop
(`shift` pops the FRONT, so this is structural on the deque). -/
def mwEvict (k : Int) (i : Nat) : List Nat → List Step → List Nat × List Step
  | [], steps => ([], steps)
  | d :: ds, steps =>
      if (d : Int) ≤ (i : Int) - k then
        mwEvict k i ds (pushStep steps (fun m =>
          { step := m, index := some i, action := "evict out-of-window index",
            removedIndex := some d, deque := some ds }))
      else (d :: ds, steps)

/-- The `while (... nums[deque[last]] <= nums[i])` tail-pop loop; `pop`
removes the BACK, so fuel = the deque's length is sufficient. -/
def mwPop (nums : List Int) (i : Nat) : Nat → List Nat → List Step → List Nat × List Step
  | 0, dq, steps => (dq, steps)
  | fuel + 1, dq, steps =>
      match dq.getLast? with
      | none => (dq, steps)
      | some d =>
          if nums.getD d 0 ≤ nums.getD i 0 then
            let dq1 := dq.dropLast
            mwPop nums i fuel dq1 (pushStep steps (fun m =>
              { step := m, index := some i, action := "pop smaller tail index",
                removedIndex := some d, deque := some dq1 }))
          else (dq, steps)

/-- The main index loop (`i` ranges over `List.range nums.length`). -/
def mwGo (nums : List Int) (k : Int) : List Nat → List Nat → List Int → List Step →
    List Int × List Step
  | [], _, out, steps => (out, steps)
  | i :: is, dq, out, steps =>
      match mwEvict k i dq steps with
      | (dq1, steps1) =>
        match mwPop nums i dq1.length dq1 steps1 with
        | (dq2, steps2) =>
          let dq3 := dq2 ++ [i]
          let steps3 := pushStep steps2 (fun m =>
            { step := m, index := some i, action := "push current index",
              deque := some dq3, dequeValues := some (dq3.map (fun x => nums.getD x 0)) })
          if k - 1 ≤ (i : Int) then
            let maxValue := nums.getD (dq3.headD 0) 0
            let out1 := out ++ [maxValue]
            mwGo nums k is dq3 out1 (pushStep steps3 (fun m =>
              { step := m, index := some i, action := "emit window max",
                windowEnd := some i, maxValue := some maxValue, output := some out1 }))
          else mwGo nums k is dq3 out steps3

def simulateMonotonicWindowMax (nums : List Int) (k : Int) : SimResult (List Int) :=
  if k ≤ 0 then ⟨[{ step := 0, action := "invalid k: must be > 0" }], []⟩
  else if nums.length = 0 then ⟨[{ step := 0, action := "empty input" }], []⟩
  else
    match mwGo nums k (List.range nums.length) [] [] [] with
    | (out, steps) => ⟨steps, out⟩

/-! ## simulateTriePrefix -/

/-- A trie node.  The JS `Map<string, TrieNode>` is embedded as an
insertion-ordered association list; the source field `end` is `endFlag`
(`end` is a Lean keyword). -/
inductive TrieNode where
  | mk (children : List (Char × TrieNode)) (endFlag : Bool)

/-- `node.children.get(ch)`: first (and only) binding of `ch`. -/
def trieChild (t : TrieNode) (ch : Char) : Option TrieNode :=
  match t with
  | .mk cs _ => cs.lookup ch

/-- `node.children.set(ch, nd)`: JS `Map.set` overwrites an existing key in
place and appends a new one. -/
def setChild : List (Char × TrieNode) → Char → TrieNode → List (Char × TrieNode)
  | [], ch, nd => [(ch, nd)]
  | (c, t) :: rest, ch, nd =>
      if c = ch then (ch, nd) :: rest else (c, t) :: setChild rest ch nd

/-- The per-word insertion walk (`i` is the character index): a missing
child is created (with its "create trie node" step) and the walk continues
into the child; the final node gets `end = true`. -/
def trieInsert (wi : Nat) (word : String) : List Char → Nat → TrieNode → List Step →
    TrieNode × List Step
  | [], _, .mk cs _, steps => (.mk cs true, steps)
  | ch :: rest, i, .mk cs e, steps =>
      match cs.lookup ch with
      | some child =>
          match trieInsert wi word rest (i + 1) child steps with
          | (child1, steps1) => (.mk (setChild cs ch child1) e, steps1)
      | none =>
          let steps1 := pushStep steps (fun m =>
            { step := m, action := "create trie node", wordIndex := some wi,
              word := some word, char := some ch, depth := some (i + 1) })
          match trieInsert wi word rest (i + 1) (.mk [] false) steps1 with
          | (child1, steps1) => (.mk (setChild cs ch child1) e, steps1)

/-- The `words.forEach` build loop (`wi` is the word index); the "mark end
of word" step follows each word's insertion walk. -/
def trieBuild : List String → Nat → TrieNode → List Step → TrieNode × List Step
  | [], _, root, steps => (root, steps)
  | w :: ws, wi, root, steps =>
      match trieInsert wi w w.data 0 root steps with
      | (root1, steps1) =>
          trieBuild ws (wi + 1) root1 (pushStep steps1 (fun m =>
            { step := m, action := "mark end of word", wordIndex := some wi,
              word := some w }))

/-- The prefix query walk (`i` is the character index; `pfx` the queried
prefix, recorded in the final "prefix exists" step). -/
def trieWalk (pfx : String) : List Char → Nat → TrieNode → List Step → SimResult Bool
  | [], _, _, steps =>
      ⟨pushStep steps (fun m =>
        { step := m, action := "prefix exists", prefixStr := some pfx }), true⟩
  | ch :: rest, i, node, steps =>
      match trieChild node ch with
      | none =>
          ⟨pushStep steps (fun m =>
            { step := m, action := "prefix char missing", char := some ch,
              depth := some (i + 1) }), false⟩
      | some child =>
          trieWalk pfx rest (i + 1) child (pushStep steps (fun m =>
            { step := m, action := "prefix char matched", char := some ch,
              depth := some (i + 1) }))

def simulateTriePrefix (words : List String) (pfx : String) : SimResult Bool :=
  match trieBuild words 0 (.mk [] false) [] with
  | (root, steps) => trieWalk pfx pfx.data 0 root steps

/-! ## simulateGreedyIntervalScheduling -/

/-- The comparator `(a[1] - b[1]) || (a[0] - b[0])`: ascending end, then
ascending start.  Ties (comparator 0) only occur between equal pairs, so
sort stability cannot affect the sorted values. -/
def ivEndLex (a b : Int × Int) : Prop := a.2 < b.2 ∨ (a.2 = b.2 ∧ a.1 ≤ b.1)

instance : DecidableRel ivEndLex := fun a b => by
  unfold ivEndLex; infer_instance

/-- The `sorted.forEach` selection loop.  `lastEnd` starts at
`Number.NEGATIVE_INFINITY`, embedded as `none` (so the `s >= lastEnd` test
always passes on `none`; every recorded `lastEnd` is finite). -/
def greedyGo : List (Int × Int) → List (Int × Int) → Option Int → List Step →
    List (Int × Int) × List Step
  | [], selected, _, steps => (selected, steps)
  | (s, e) :: rest, selected, lastEnd, steps =>
      let ok : Bool := match lastEnd with | none => true | some le => decide (le ≤ s)
      if ok then
        let selected1 := selected ++ [(s, e)]
        greedyGo rest selected1 (some e)
          (pushStep steps (fun m =>
            { step := m, action := "select interval", current := some (s, e),
              selected := some selected1 }))
      else
        greedyGo rest selected lastEnd
          (pushStep steps (fun m =>
            { step := m, action := "skip overlapping interval", current := some (s, e),
              lastEnd := lastEnd }))

def simulateGreedyIntervalScheduling (intervals : List (Int × Int)) :
    SimResult (List (Int × Int)) :=
  if intervals.length = 0 then ⟨[{ step := 0, action := "empty intervals" }], []⟩
  else
    let sortedIvs := List.insertionSort ivEndLex intervals
    match greedyGo sortedIvs [] none
        (pushStep [] (fun m =>
          { step := m, action := "sort by end time", sorted := some sortedIvs })) with
    | (selected, steps) => ⟨steps, selected⟩

/-! ## simulateDijkstra -/

/-- The `edges.forEach` adjacency build of `simulateDijkstra`: both
endpoints in range and a non-negative weight appends `[v, w]` to `adj[u]`
and `[u, w]` to `adj[v]`. -/
def dijAdjBuild (n : Nat) : List (Int × Int × Int) → List (List (Nat × Int)) →
    List (List (Nat × Int))
  | [], adj => adj
  | (u, v, w) :: rest, adj =>
      if 0 ≤ u ∧ u < (n : Int) ∧ 0 ≤ v ∧ v < (n : Int) ∧ 0 ≤ w then
        let adj1 := adj.set u.toNat (adj.getD u.toNat [] ++ [(v.toNat, w)])
        let adj2 := adj1.set v.toNat (adj1.getD v.toNat [] ++ [(u.toNat, w)])
        dijAdjBuild n rest adj2
      else dijAdjBuild n rest adj

/-- `heapPushPair`: append, then sift up comparing first components
(distances); mirrors the source's `heapPushMin` shape. -/
def siftUpP : Nat → List (Int × Nat) → Nat → List (Int × Nat)
  | 0, heap, _ => heap
  | fuel + 1, heap, i =>
      if i = 0 then heap
      else
        let p := (i - 1) / 2
        if (heap.getD p (0, 0)).1 ≤ (heap.getD i (0, 0)).1 then heap
        else
          siftUpP fuel ((heap.set p (heap.getD i (0, 0))).set i (heap.getD p (0, 0))) p

def heapPushPair (heap : List (Int × Nat)) (pair : Int × Nat) : List (Int × Nat) :=
  siftUpP (heap.length + 1) (heap ++ [pair]) heap.length

/-- The sift-down of `heapPopPair` (strict `<` choosing the smaller
child, break when no child is smaller). -/
def siftDownP : Nat → List (Int × Nat) → Nat → List (Int × Nat)
  | 0, heap, _ => heap
  | fuel + 1, heap, i =>
      let left := i * 2 + 1
      let right := i * 2 + 2
      let s1 := if left < heap.length ∧ (heap.getD left (0, 0)).1 < (heap.getD i (0, 0)).1
        then left else i
      let s2 := if right < heap.length ∧ (heap.getD right (0, 0)).1 < (heap.getD s1 (0, 0)).1
        then right else s1
      if s2 = i then heap
      else siftDownP fuel ((heap.set i (heap.getD s2 (0, 0))).set s2 (heap.getD i (0, 0))) s2

/-- `heapPopPair`: `null` on an empty heap, else the root together with
the remaining heap (the source mutates `heap` and returns the root). -/
def heapPopPair (heap : List (Int × Nat)) : Option ((Int × Nat) × List (Int × Nat)) :=
  match heap with
  | [] => none
  | root :: _ =>
      let last := (heap.getLast?).getD (0, 0)
      let heap1 := heap.dropLast
      if 0 < heap1.length then
        some (root, siftDownP heap1.length (heap1.set 0 last) 0)
      else some (root, heap1)

/-- The `adj[u].forEach` relaxation loop of one finalize iteration:
`d = dist[u]` is the finalized distance; `none` in `dist` is
`Number.POSITIVE_INFINITY`. -/
def dijRelax (d : Int) (u : Nat) : List (Nat × Int) → List (Int × Nat) →
    List (Option Int) → List Step → List (Int × Nat) × List (Option Int) × List Step
  | [], heap, dist, steps => (heap, dist, steps)
  | (v, w) :: rest, heap, dist, steps =>
      let next := d + w
      let better : Bool := match dist.getD v none with
        | none => true
        | some dv => decide (next < dv)
      if better then
        let dist1 := dist.set v (some next)
        dijRelax d u rest (heapPushPair heap (next, v)) dist1
          (pushStep steps (fun m =>
            { step := m, action := "relax edge", edgeFrom := some u, edgeTo := some v,
              weight := some w, newDist := some next, dist := some dist1 }))
      else dijRelax d u rest heap dist steps

/-- The `while (heap.length > 0)` loop.  Each iteration pops one entry;
with non-negative weights every node is finalized at most once, so each
adjacency entry is examined (and can push) at most once: total pushes are
at most `1 + 2 * edges.length`, and `2 * edges.length + 2` units of fuel
are sufficient. -/
def dijGo (adj : List (List (Nat × Int))) : Nat → List (Int × Nat) →
    List (Option Int) → List Step → List (Option Int) × List Step
  | 0, _, dist, steps => (dist, steps)
  | fuel + 1, heap, dist, steps =>
      match heapPopPair heap with
      | none => (dist, steps)
      | some ((d, u), heap1) =>
          if some d ≠ dist.getD u none then
            dijGo adj fuel heap1 dist
              (pushStep steps (fun m =>
                { step := m, action := "skip stale heap entry", node := some u,
                  poppedDist := some d, currentDist := some (dist.getD u none) }))
          else
            let steps1 := pushStep steps (fun m =>
              { step := m, action := "finalize node", node := some u, dist := some dist })
            match dijRelax d u (adj.getD u []) heap1 dist steps1 with
            | (heap2, dist2, steps2) => dijGo adj fuel heap2 dist2 steps2

/-- `dist` entries are `Option Int` with `none` for
`Number.POSITIVE_INFINITY`, which is already the `null` of the source's
final `normalized` map, so the result is `dist` itself.  `nodeCount` is
`Nat`-typed here, so the source's `nodeCount <= 0` guard is
`nodeCount = 0`. -/
def simulateDijkstra (nodeCount : Nat) (edges : List (Int × Int × Int)) (start : Int) :
    SimResult (List (Option Int)) :=
  if nodeCount = 0 then ⟨[{ step := 0, action := "empty graph" }], []⟩
  else if start < 0 ∨ (nodeCount : Int) ≤ start then
    ⟨[{ step := 0, action := "invalid start node" }], []⟩
  else
    let adj := dijAdjBuild nodeCount edges (List.replicate nodeCount [])
    let dist0 := (List.replicate nodeCount (none : Option Int)).set start.toNat (some 0)
    match dijGo adj (2 * edges.length + 2) [(0, start.toNat)] dist0 [] with
    | (dist, steps) => ⟨steps, dist⟩

/-! ## Steps-shape lemmas: every simulator only appends step records, and
every appended record carries `step := steps.length`. -/

theorem ne_nil_append_of_ne_nil {α : Type} {s : List α} (t : List α) (h : s ≠ []) :
    s ++ t ≠ [] := by
  cases s with
  | nil => exact absurd rfl h
  | cons a l => simp

theorem exists_append_trans {a b c : List Step}
    (h1 : ∃ t, b = a ++ t) (h2 : ∃ t, c = b ++ t) : ∃ t, c = a ++ t := by
  obtain ⟨t1, h1⟩ := h1
  obtain ⟨t2, h2⟩ := h2
  exact ⟨t1 ++ t2, by rw [h2, h1, List.append_assoc]⟩

theorem hashDupGo_indexed (l : List Int) :
    ∀ seen i steps, indexed steps → indexed (hashDupGo seen i steps l).steps := by
  induction l with
  | nil =>
      intro seen i steps h
      unfold hashDupGo
      dsimp only
      exact indexed_push h rfl
  | cons v rest ih =>
      intro seen i steps h
      unfold hashDupGo
      by_cases hc : seen.contains v = true
      · rw [if_pos hc]
        dsimp only
        exact indexed_push h rfl
      · rw [if_neg hc]
        exact ih _ _ _ (indexed_push h rfl)

theorem hashDupGo_ne_nil (l : List Int) :
    ∀ seen i steps, (hashDupGo seen i steps l).steps ≠ [] := by
  induction l with
  | nil =>
      intro seen i steps
      unfold hashDupGo
      dsimp only
      exact pushStep_ne_nil _ _
  | cons v rest ih =>
      intro seen i steps
      unfold hashDupGo
      by_cases hc : seen.contains v = true
      · rw [if_pos hc]
        dsimp only
        exact pushStep_ne_nil _ _
      · rw [if_neg hc]
        exact ih _ _ _

theorem hashFreqGo_indexed (l : List Int) :
    ∀ freq i steps, indexed steps → indexed (hashFreqGo freq i steps l).steps := by
  induction l with
  | nil => intro freq i steps h; exact h
  | cons v rest ih =>
      intro freq i steps h
      exact ih _ _ _ (indexed_push h rfl)

theorem hashFreqGo_append (l : List Int) :
    ∀ freq i steps, ∃ t, (hashFreqGo freq i steps l).steps = steps ++ t := by
  induction l with
  | nil => intro freq i steps; exact ⟨[], by simp [hashFreqGo]⟩
  | cons v rest ih =>
      intro freq i steps
      obtain ⟨t, ht⟩ := ih (bumpFreq v freq) (i + 1)
        (pushStep steps (fun m =>
          { step := m, index := some i, value := some v,
            countAfter := some (((freq.lookup v).getD 0) + 1),
            freqMap := some (sortByKey (bumpFreq v freq)), action := "update frequency" }))
      exact ⟨_, by rw [hashFreqGo, ht, pushStep, List.append_assoc]⟩

theorem swShrink_indexed (fuel : Nat) :
    ∀ nums k left right sum best steps, indexed steps →
      indexed (swShrink fuel nums k left right sum best steps).2.2 := by
  induction fuel with
  | zero => intro _ _ _ _ _ _ _ h; exact h
  | succ fuel ih =>
      intro nums k left right sum best steps h
      unfold swShrink
      by_cases hc : sum > k ∧ left ≤ right
      · rw [if_pos hc]
        exact ih _ _ _ _ _ _ _ (indexed_push h rfl)
      · rw [if_neg hc]
        exact h

theorem swShrink_append (fuel : Nat) :
    ∀ nums k left right sum best steps,
      ∃ t, (swShrink fuel nums k left right sum best steps).2.2 = steps ++ t := by
  induction fuel with
  | zero => intro _ _ _ _ _ _ steps; exact ⟨[], by simp [swShrink]⟩
  | succ fuel ih =>
      intro nums k left right sum best steps
      unfold swShrink
      by_cases hc : sum > k ∧ left ≤ right
      · rw [if_pos hc]
        exact exists_append_trans (pushStep_append _ _) (ih _ _ _ _ _ _ _)
      · rw [if_neg hc]
        exact ⟨[], by simp⟩

theorem swGo_indexed (l : List Int) :
    ∀ nums k left sum best right steps, indexed steps →
      indexed (swGo nums k left sum best right steps l).steps := by
  induction l with
  | nil => intro _ _ _ _ _ _ _ h; exact h
  | cons v rest ih =>
      intro nums k left sum best right steps h
      unfold swGo
      rcases hs : swShrink (nums.length + 1) nums k left right (sum + v) best
        (pushStep steps (fun m =>
          { step := m, phase := some "expand", left := some left, right := some right,
            sum := some (sum + v), best := some best,
            action := "add nums[" ++ toString right ++ "]" })) with ⟨left2, sum2, steps2⟩
      simp only [hs]
      have h2 : indexed steps2 := by
        have := swShrink_indexed (nums.length + 1) nums k left right (sum + v) best
          (pushStep steps (fun m =>
            { step := m, phase := some "expand", left := some left, right := some right,
              sum := some (sum + v), best := some best,
              action := "add nums[" ++ toString right ++ "]" })) (indexed_push h rfl)
        rw [hs] at this
        exact this
      exact ih _ _ _ _ _ _ _ (indexed_push h2 rfl)

theorem swGo_append (l : List Int) :
    ∀ nums k left sum best right steps,
      ∃ t, (swGo nums k left sum best right steps l).steps = steps ++ t := by
  induction l with
  | nil => intro _ _ _ _ _ _ steps; exact ⟨[], by simp [swGo]⟩
  | cons v rest ih =>
      intro nums k left sum best right steps
      unfold swGo
      rcases hs : swShrink (nums.length + 1) nums k left right (sum + v) best
        (pushStep steps (fun m =>
          { step := m, phase := some "expand", left := some left, right := some right,
            sum := some (sum + v), best := some best,
            action := "add nums[" ++ toString right ++ "]" })) with ⟨left2, sum2, steps2⟩
      simp only [hs]
      have ht1 : ∃ t, steps2 = pushStep steps (fun m =>
          { step := m, phase := some "expand", left := some left, right := some right,
            sum := some (sum + v), best := some best,
            action := "add nums[" ++ toString right ++ "]" }) ++ t := by
        have := swShrink_append (nums.length + 1) nums k left right (sum + v) best
          (pushStep steps (fun m =>
            { step := m, phase := some "expand", left := some left, right := some right,
              sum := some (sum + v), best := some best,
              action := "add nums[" ++ toString right ++ "]" }))
        rw [hs] at this
        exact this
      exact exists_append_trans
        (exists_append_trans (exists_append_trans (pushStep_append _ _) ht1)
          (pushStep_append _ _))
        (ih _ _ _ _ _ _ _)

theorem bsLoop_indexed (fuel : Nat) :
    ∀ nums target lo hi steps, indexed steps →
      indexed (bsLoop fuel nums target lo hi steps).2 := by
  induction fuel with
  | zero => intro _ _ _ _ _ h; exact h
  | succ fuel ih =>
      intro nums target lo hi steps h
      unfold bsLoop
      by_cases hlt : lo < hi
      · simp only [hlt, if_true]
        by_cases hv : nums.getD (lo + (hi - lo) / 2) 0 < target
        · simp only [hv, if_true]
          exact ih _ _ _ _ _ (indexed_push h rfl)
        · simp only [hv, if_false]
          exact ih _ _ _ _ _ (indexed_push h rfl)
      · simp only [hlt, if_false]
        exact h

theorem fibGo_indexed (fuel : Nat) :
    ∀ x memo steps, indexed steps → indexed (fibGo fuel x memo steps).2.2 := by
  induction fuel with
  | zero => intro _ _ _ h; exact h
  | succ fuel ih =>
      intro x memo steps h
      unfold fibGo
      by_cases hb : x ≤ 1
      · rw [if_pos hb]
        dsimp only
        exact indexed_push (indexed_push h rfl) rfl
      · rw [if_neg hb]
        by_cases hm : (memo.lookup x).isSome = true
        · rw [if_pos hm]
          dsimp only
          exact indexed_push (indexed_push h rfl) rfl
        · rw [if_neg hm]
          rcases h1 : fibGo fuel (x - 1) memo
            (pushStep steps (fun m =>
              { step := m, fibN := some (x : Int), action := "call",
                memoSize := some memo.length })) with ⟨v1, memo1, steps1⟩
          rcases h2 : fibGo fuel (x - 2) memo1 steps1 with ⟨v2, memo2, steps2⟩
          simp only [h1, h2]
          have hs1 : indexed steps1 := by
            have := ih (x - 1) memo
              (pushStep steps (fun m =>
                { step := m, fibN := some (x : Int), action := "call",
                  memoSize := some memo.length })) (indexed_push h rfl)
            rw [h1] at this
            exact this
          have hs2 : indexed steps2 := by
            have := ih (x - 2) memo1 steps1 hs1
            rw [h2] at this
            exact this
          exact indexed_push hs2 rfl

theorem mergeSweep_indexed (l : List (Int × Int)) :
    ∀ done cur steps, indexed steps → indexed (mergeSweep done cur steps l).1 := by
  induction l with
  | nil => intro _ _ _ h; exact h
  | cons p rest ih =>
      intro done cur steps h
      rcases p with ⟨s, e⟩
      unfold mergeSweep
      by_cases hc : cur.2 < s
      · rw [if_pos hc]
        exact ih _ _ _ (indexed_push h rfl)
      · rw [if_neg hc]
        exact ih _ _ _ (indexed_push h rfl)

theorem mergeSweep_append (l : List (Int × Int)) :
    ∀ done cur steps, ∃ t, (mergeSweep done cur steps l).1 = steps ++ t := by
  induction l with
  | nil => intro _ _ steps; exact ⟨[], by simp [mergeSweep]⟩
  | cons p rest ih =>
      intro done cur steps
      rcases p with ⟨s, e⟩
      unfold mergeSweep
      by_cases hc : cur.2 < s
      · rw [if_pos hc]
        exact exists_append_trans (pushStep_append _ _) (ih _ _ _)
      · rw [if_neg hc]
        exact exists_append_trans (pushStep_append _ _) (ih _ _ _)

theorem topkGo_indexed (l : List Int) :
    ∀ k heap i steps, indexed steps → indexed (topkGo k heap i steps l).2 := by
  induction l with
  | nil => intro _ _ _ _ h; exact h
  | cons v rest ih =>
      intro k heap i steps h
      unfold topkGo
      by_cases hc : ((heapPushMin heap v).length : Int) > k
      · rw [if_pos hc]
        rcases hp : heapPopMin (heapPushMin heap v) with ⟨removed, h2⟩
        simp only [hp]
        exact ih _ _ _ _ (indexed_push (indexed_push h rfl) rfl)
      · rw [if_neg hc]
        exact ih _ _ _ _ (indexed_push h rfl)

theorem topoNbrs_indexed (l : List Nat) :
    ∀ u pending inDeg steps, indexed steps →
      indexed (topoNbrs u pending inDeg steps l).2.2 := by
  induction l with
  | nil => intro _ _ _ _ h; exact h
  | cons v vs ih =>
      intro u pending inDeg steps h
      unfold topoNbrs
      by_cases hc : (inDeg.set v (inDeg.getD v 0 - 1)).getD v 0 = 0
      · rw [if_pos hc]
        exact ih _ _ _ _ (indexed_push (indexed_push h rfl) rfl)
      · rw [if_neg hc]
        exact ih _ _ _ _ (indexed_push h rfl)

theorem topoNbrs_append (l : List Nat) :
    ∀ u pending inDeg steps,
      ∃ t, (topoNbrs u pending inDeg steps l).2.2 = steps ++ t := by
  induction l with
  | nil => intro _ _ _ steps; exact ⟨[], by simp [topoNbrs]⟩
  | cons v vs ih =>
      intro u pending inDeg steps
      unfold topoNbrs
      by_cases hc : (inDeg.set v (inDeg.getD v 0 - 1)).getD v 0 = 0
      · rw [if_pos hc]
        exact exists_append_trans
          (exists_append_trans (pushStep_append _ _) (pushStep_append _ _)) (ih _ _ _ _)
      · rw [if_neg hc]
        exact exists_append_trans (pushStep_append _ _) (ih _ _ _ _)

theorem topoLoop_indexed (fuel : Nat) :
    ∀ adj pending inDeg order steps, indexed steps →
      indexed (topoLoop fuel adj pending inDeg order steps).2 := by
  induction fuel with
  | zero => intro _ _ _ _ _ h; exact h
  | succ fuel ih =>
      intro adj pending inDeg order steps h
      unfold topoLoop
      match pending with
      | [] => exact h
      | u :: pend1 =>
        rcases hn : topoNbrs u pend1 inDeg
          (pushStep steps (fun m =>
            { step := m, action := "pop zero-indegree node", node := some u,
              order := some (order ++ [u]), queue := some pend1 })) (adj.getD u [])
          with ⟨pend2, inDeg2, steps2⟩
        simp only [hn]
        have hs2 : indexed steps2 := by
          have := topoNbrs_indexed (adj.getD u []) u pend1 inDeg
            (pushStep steps (fun m =>
              { step := m, action := "pop zero-indegree node", node := some u,
                order := some (order ++ [u]), queue := some pend1 }))
            (indexed_push h rfl)
          rw [hn] at this
          exact this
        exact ih _ _ _ _ _ hs2

theorem topoLoop_append (fuel : Nat) :
    ∀ adj pending inDeg order steps,
      ∃ t, (topoLoop fuel adj pending inDeg order steps).2 = steps ++ t := by
  induction fuel with
  | zero => intro _ _ _ _ steps; exact ⟨[], by simp [topoLoop]⟩
  | succ fuel ih =>
      intro adj pending inDeg order steps
      unfold topoLoop
      match pending with
      | [] => exact ⟨[], by simp⟩
      | u :: pend1 =>
        rcases hn : topoNbrs u pend1 inDeg
          (pushStep steps (fun m =>
            { step := m, action := "pop zero-indegree node", node := some u,
              order := some (order ++ [u]), queue := some pend1 })) (adj.getD u [])
          with ⟨pend2, inDeg2, steps2⟩
        simp only [hn]
        have hs2 : ∃ t, steps2 = pushStep steps (fun m =>
            { step := m, action := "pop zero-indegree node", node := some u,
              order := some (order ++ [u]), queue := some pend1 }) ++ t := by
          have := topoNbrs_append (adj.getD u []) u pend1 inDeg
            (pushStep steps (fun m =>
              { step := m, action := "pop zero-indegree node", node := some u,
                order := some (order ++ [u]), queue := some pend1 }))
          rw [hn] at this
          exact this
        exact exists_append_trans (exists_append_trans (pushStep_append _ _) hs2)
          (ih _ _ _ _ _)

theorem ufEdges_indexed (l : List (Int × Int)) :
    ∀ p r n i steps, indexed steps → indexed (ufEdges p r n i steps l).2.2 := by
  induction l with
  | nil => intro _ _ _ _ _ h; exact h
  | cons e rest ih =>
      intro p r n i steps h
      rcases e with ⟨u, v⟩
      unfold ufEdges
      by_cases hc : u < 0 ∨ (n : Int) ≤ u ∨ v < 0 ∨ (n : Int) ≤ v
      · rw [if_pos hc]
        exact ih _ _ _ _ _ h
      · rw [if_neg hc]
        rcases hu : ufUnion p r u.toNat v.toNat with ⟨p', r', merged⟩
        simp only [hu]
        exact ih _ _ _ _ _ (indexed_push h rfl)

theorem ufEdges_append (l : List (Int × Int)) :
    ∀ p r n i steps, ∃ t, (ufEdges p r n i steps l).2.2 = steps ++ t := by
  induction l with
  | nil => intro _ _ _ _ steps; exact ⟨[], by simp [ufEdges]⟩
  | cons e rest ih =>
      intro p r n i steps
      rcases e with ⟨u, v⟩
      unfold ufEdges
      by_cases hc : u < 0 ∨ (n : Int) ≤ u ∨ v < 0 ∨ (n : Int) ≤ v
      · rw [if_pos hc]
        exact ih _ _ _ _ _
      · rw [if_neg hc]
        rcases hu : ufUnion p r u.toNat v.toNat with ⟨p', r', merged⟩
        simp only [hu]
        exact exists_append_trans (pushStep_append _ _) (ih _ _ _ _ _)

theorem btDfs_indexed (fuel : Nat) :
    ∀ nums target idx sum st, indexed st.steps →
      indexed (btDfs fuel nums target idx sum st).steps := by
  induction fuel with
  | zero => intro _ _ _ _ _ h; exact h
  | succ fuel ih =>
      intro nums target idx sum st h
      unfold btDfs
      by_cases h0 : st.abort = true ∨ st.found.isSome = true
      · rw [if_pos h0]
        exact h
      · rw [if_neg h0]
        dsimp only
        by_cases hcap : 700 ≤ (pushStep st.steps (fun m =>
            { step := m, action := "visit state", idx := some idx, sum := some sum,
              path := some st.path })).length
        · rw [if_pos hcap]
          dsimp only
          exact indexed_push (indexed_push h rfl) rfl
        · rw [if_neg hcap]
          by_cases htar : sum = target
          · rw [if_pos htar]
            dsimp only
            exact indexed_push (indexed_push h rfl) rfl
          · rw [if_neg htar]
            by_cases hdead : nums.length ≤ idx ∨ target < sum
            · rw [if_pos hdead]
              dsimp only
              exact indexed_push (indexed_push h rfl) rfl
            · rw [if_neg hdead]
              by_cases hret : ((btDfs fuel nums target (idx + 1) (sum + nums.getD idx 0)
                  { st with
                    path := st.path ++ [nums.getD idx 0]
                    steps := pushStep (pushStep st.steps (fun m =>
                      { step := m, action := "visit state", idx := some idx,
                        sum := some sum, path := some st.path })) (fun m =>
                      { step := m, action := "choose value", value := some (nums.getD idx 0),
                        idx := some idx, path := some (st.path ++ [nums.getD idx 0]) }) }
                  ).found.isSome = true) ∨
                  ((btDfs fuel nums target (idx + 1) (sum + nums.getD idx 0)
                  { st with
                    path := st.path ++ [nums.getD idx 0]
                    steps := pushStep (pushStep st.steps (fun m =>
                      { step := m, action := "visit state", idx := some idx,
                        sum := some sum, path := some st.path })) (fun m =>
                      { step := m, action := "choose value", value := some (nums.getD idx 0),
                        idx := some idx, path := some (st.path ++ [nums.getD idx 0]) }) }
                  ).abort = true)
              · rw [if_pos hret]
                apply ih
                dsimp only
                exact indexed_push (indexed_push h rfl) rfl
              · rw [if_neg hret]
                apply ih
                dsimp only
                refine indexed_push ?_ ?_
                · dsimp only
                  apply ih
                  dsimp only
                  exact indexed_push (indexed_push h rfl) rfl
                · rfl

theorem btDfs_append (fuel : Nat) :
    ∀ nums target idx sum st, ∃ t, (btDfs fuel nums target idx sum st).steps = st.steps ++ t := by
  induction fuel with
  | zero => intro _ _ _ _ st; exact ⟨[], by simp [btDfs]⟩
  | succ fuel ih =>
      intro nums target idx sum st
      unfold btDfs
      by_cases h0 : st.abort = true ∨ st.found.isSome = true
      · rw [if_pos h0]
        exact ⟨[], by simp⟩
      · rw [if_neg h0]
        dsimp only
        by_cases hcap : 700 ≤ (pushStep st.steps (fun m =>
            { step := m, action := "visit state", idx := some idx, sum := some sum,
              path := some st.path })).length
        · rw [if_pos hcap]
          dsimp only
          exact exists_append_trans (pushStep_append _ _) (pushStep_append _ _)
        · rw [if_neg hcap]
          by_cases htar : sum = target
          · rw [if_pos htar]
            dsimp only
            exact exists_append_trans (pushStep_append _ _) (pushStep_append _ _)
          · rw [if_neg htar]
            by_cases hdead : nums.length ≤ idx ∨ target < sum
            · rw [if_pos hdead]
              dsimp only
              exact exists_append_trans (pushStep_append _ _) (pushStep_append _ _)
            · rw [if_neg hdead]
              by_cases hret : ((btDfs fuel nums target (idx + 1) (sum + nums.getD idx 0)
                  { st with
                    path := st.path ++ [nums.getD idx 0]
                    steps := pushStep (pushStep st.steps (fun m =>
                      { step := m, action := "visit state", idx := some idx,
                        sum := some sum, path := some st.path })) (fun m =>
                      { step := m, action := "choose value", value := some (nums.getD idx 0),
                        idx := some idx, path := some (st.path ++ [nums.getD idx 0]) }) }
                  ).found.isSome = true) ∨
                  ((btDfs fuel nums target (idx + 1) (sum + nums.getD idx 0)
                  { st with
                    path := st.path ++ [nums.getD idx 0]
                    steps := pushStep (pushStep st.steps (fun m =>
                      { step := m, action := "visit state", idx := some idx,
                        sum := some sum, path := some st.path })) (fun m =>
                      { step := m, action := "choose value", value := some (nums.getD idx 0),
                        idx := some idx, path := some (st.path ++ [nums.getD idx 0]) }) }
                  ).abort = true)
              · rw [if_pos hret]
                dsimp only
                refine exists_append_trans ?_ (ih _ _ _ _ _)
                dsimp only
                exact exists_append_trans (pushStep_append _ _) (pushStep_append _ _)
              · rw [if_neg hret]
                refine exists_append_trans ?_ (ih _ _ _ _ _)
                dsimp only
                refine exists_append_trans ?_ (pushStep_append _ _)
                dsimp only
                refine exists_append_trans ?_ (ih _ _ _ _ _)
                dsimp only
                exact exists_append_trans (pushStep_append _ _) (pushStep_append _ _)

theorem indexed_singleton (s : Step) (h : s.step = 0) : indexed [s] := by
  intro i hi
  simp only [List.length_singleton] at hi
  have : i = 0 := by omega
  subst this
  simpa using h

theorem tpGo_ne_nil_pres (nums : List Int) (target : Int) :
    ∀ fuel left right steps, steps ≠ [] →
      (tpGo nums target fuel left right steps).steps ≠ [] := by
  intro fuel
  induction fuel with
  | zero => intro _ _ steps h; exact h
  | succ fuel ih =>
      intro left right steps h
      unfold tpGo
      by_cases hc : left < right
      · rw [if_pos hc]
        dsimp only
        split
        · rw [simres_steps]
          exact pushStep_ne_nil _ _
        · split
          · exact ih _ _ _ (pushStep_ne_nil _ _)
          · exact ih _ _ _ (pushStep_ne_nil _ _)
      · rw [if_neg hc]
        rw [simres_steps]
        exact pushStep_ne_nil _ _

theorem tpGo_succ_ne_nil (nums : List Int) (target : Int) (fuel left right : Nat)
    (steps : List Step) : (tpGo nums target (fuel + 1) left right steps).steps ≠ [] := by
  unfold tpGo
  by_cases hc : left < right
  · rw [if_pos hc]
    dsimp only
    split
    · rw [simres_steps]
      exact pushStep_ne_nil _ _
    · split
      · exact tpGo_ne_nil_pres nums target _ _ _ _ (pushStep_ne_nil _ _)
      · exact tpGo_ne_nil_pres nums target _ _ _ _ (pushStep_ne_nil _ _)
  · rw [if_neg hc]
    rw [simres_steps]
    exact pushStep_ne_nil _ _

theorem tpGo_indexed (nums : List Int) (target : Int) :
    ∀ fuel left right steps, indexed steps →
      indexed (tpGo nums target fuel left right steps).steps := by
  intro fuel
  induction fuel with
  | zero => intro _ _ steps h; exact h
  | succ fuel ih =>
      intro left right steps h
      unfold tpGo
      by_cases hc : left < right
      · rw [if_pos hc]
        dsimp only
        split
        · rw [simres_steps]
          exact indexed_push h rfl
        · split
          · exact ih _ _ _ (indexed_push h rfl)
          · exact ih _ _ _ (indexed_push h rfl)
      · rw [if_neg hc]
        rw [simres_steps]
        exact indexed_push h rfl

theorem spGo_ne_nil : ∀ (l : List Char) (i : Nat) (stack : List Char) (steps : List Step),
    (spGo l i stack steps).steps ≠ [] := by
  intro l
  induction l with
  | nil =>
      intro i stack steps
      unfold spGo
      dsimp only
      exact pushStep_ne_nil _ _
  | cons ch rest ih =>
      intro i stack steps
      unfold spGo
      by_cases h1 : ch = '(' ∨ ch = '[' ∨ ch = '{'
      · rw [if_pos h1]
        exact ih _ _ _
      · rw [if_neg h1]
        cases hpm : parenMatch ch with
        | none => exact ih _ _ _
        | some want =>
            dsimp only
            split
            · exact ih _ _ _
            · rw [simres_steps]
              exact pushStep_ne_nil _ _

theorem spGo_indexed : ∀ (l : List Char) (i : Nat) (stack : List Char) (steps : List Step),
    indexed steps → indexed (spGo l i stack steps).steps := by
  intro l
  induction l with
  | nil =>
      intro i stack steps h
      unfold spGo
      dsimp only
      exact indexed_push h rfl
  | cons ch rest ih =>
      intro i stack steps h
      unfold spGo
      by_cases h1 : ch = '(' ∨ ch = '[' ∨ ch = '{'
      · rw [if_pos h1]
        exact ih _ _ _ (indexed_push h rfl)
      · rw [if_neg h1]
        cases hpm : parenMatch ch with
        | none => exact ih _ _ _ (indexed_push h rfl)
        | some want =>
            dsimp only
            split
            · exact ih _ _ _ (indexed_push h rfl)
            · rw [simres_steps]
              exact indexed_push h rfl

theorem bfsNbrs_indexed (rows cols : Int) (blocked : List String) (r c : Int) (head : Nat) :
    ∀ ds queue visited steps, indexed steps →
      indexed (bfsNbrs rows cols blocked r c head ds queue visited steps).2.2 := by
  intro ds
  induction ds with
  | nil => intro queue visited steps h; exact h
  | cons d rest ih =>
      intro queue visited steps h
      rcases d with ⟨dr, dc⟩
      unfold bfsNbrs
      dsimp only
      split
      · exact ih _ _ _ h
      · split
        · exact ih _ _ _ h
        · exact ih _ _ _ (indexed_push h rfl)

theorem bfsNbrs_append (rows cols : Int) (blocked : List String) (r c : Int) (head : Nat) :
    ∀ ds queue visited steps,
      ∃ t, (bfsNbrs rows cols blocked r c head ds queue visited steps).2.2 = steps ++ t := by
  intro ds
  induction ds with
  | nil => intro queue visited steps; exact ⟨[], by simp [bfsNbrs]⟩
  | cons d rest ih =>
      intro queue visited steps
      rcases d with ⟨dr, dc⟩
      unfold bfsNbrs
      dsimp only
      split
      · exact ih _ _ _
      · split
        · exact ih _ _ _
        · exact exists_append_trans (pushStep_append _ _) (ih _ _ _)

theorem bfsGo_indexed (rows cols : Int) (blocked : List String) :
    ∀ fuel queue head visited steps, indexed steps →
      indexed (bfsGo rows cols blocked fuel queue head visited steps).steps := by
  intro fuel
  induction fuel with
  | zero => intro _ _ _ steps h; exact h
  | succ fuel ih =>
      intro queue head visited steps h
      unfold bfsGo
      by_cases hc : head < queue.length
      · rw [if_pos hc]
        dsimp only
        rcases hb : bfsNbrs rows cols blocked (queue.getD head (0, 0)).1
            (queue.getD head (0, 0)).2 (head + 1) [(1, 0), (-1, 0), (0, 1), (0, -1)]
            queue visited
            (pushStep steps (fun m =>
              { step := m, cell := some (queue.getD head (0, 0)), action := "dequeue",
                queueSize := some (queue.length - (head + 1)), visited := some visited,
                frontier := some ((queue.drop (head + 1)).map
                  (fun x => keyCell x.1 x.2)) })) with ⟨q1, v1, s2⟩
        have h2 := bfsNbrs_indexed rows cols blocked (queue.getD head (0, 0)).1
          (queue.getD head (0, 0)).2 (head + 1) [(1, 0), (-1, 0), (0, 1), (0, -1)]
          queue visited
          (pushStep steps (fun m =>
            { step := m, cell := some (queue.getD head (0, 0)), action := "dequeue",
              queueSize := some (queue.length - (head + 1)), visited := some visited,
              frontier := some ((queue.drop (head + 1)).map
                (fun x => keyCell x.1 x.2)) })) (indexed_push h rfl)
        rw [hb] at h2
        simp only [hb]
        exact ih _ _ _ _ h2
      · rw [if_neg hc]
        exact h

theorem bfsGo_ne_nil_pres (rows cols : Int) (blocked : List String) :
    ∀ fuel queue head visited steps, steps ≠ [] →
      (bfsGo rows cols blocked fuel queue head visited steps).steps ≠ [] := by
  intro fuel
  induction fuel with
  | zero => intro _ _ _ steps h; exact h
  | succ fuel ih =>
      intro queue head visited steps h
      unfold bfsGo
      by_cases hc : head < queue.length
      · rw [if_pos hc]
        dsimp only
        rcases hb : bfsNbrs rows cols blocked (queue.getD head (0, 0)).1
            (queue.getD head (0, 0)).2 (head + 1) [(1, 0), (-1, 0), (0, 1), (0, -1)]
            queue visited
            (pushStep steps (fun m =>
              { step := m, cell := some (queue.getD head (0, 0)), action := "dequeue",
                queueSize := some (queue.length - (head + 1)), visited := some visited,
                frontier := some ((queue.drop (head + 1)).map
                  (fun x => keyCell x.1 x.2)) })) with ⟨q1, v1, s2⟩
        have h2 := bfsNbrs_append rows cols blocked (queue.getD head (0, 0)).1
          (queue.getD head (0, 0)).2 (head + 1) [(1, 0), (-1, 0), (0, 1), (0, -1)]
          queue visited
          (pushStep steps (fun m =>
            { step := m, cell := some (queue.getD head (0, 0)), action := "dequeue",
              queueSize := some (queue.length - (head + 1)), visited := some visited,
              frontier := some ((queue.drop (head + 1)).map
                (fun x => keyCell x.1 x.2)) }))
        simp only [hb] at h2
        obtain ⟨t, ht⟩ := h2
        simp only [hb]
        apply ih
        rw [ht]
        exact ne_nil_append_of_ne_nil _ (pushStep_ne_nil _ _)
      · rw [if_neg hc]
        exact h

theorem bfsGo_succ_ne_nil (rows cols : Int) (blocked : List String)
    (fuel head : Nat) (queue : List (Int × Int)) (visited : List String)
    (steps : List Step) (hc : head < queue.length) :
    (bfsGo rows cols blocked (fuel + 1) queue head visited steps).steps ≠ [] := by
  unfold bfsGo
  rw [if_pos hc]
  dsimp only
  rcases hb : bfsNbrs rows cols blocked (queue.getD head (0, 0)).1
      (queue.getD head (0, 0)).2 (head + 1) [(1, 0), (-1, 0), (0, 1), (0, -1)]
      queue visited
      (pushStep steps (fun m =>
        { step := m, cell := some (queue.getD head (0, 0)), action := "dequeue",
          queueSize := some (queue.length - (head + 1)), visited := some visited,
          frontier := some ((queue.drop (head + 1)).map
            (fun x => keyCell x.1 x.2)) })) with ⟨q1, v1, s2⟩
  have h2 := bfsNbrs_append rows cols blocked (queue.getD head (0, 0)).1
    (queue.getD head (0, 0)).2 (head + 1) [(1, 0), (-1, 0), (0, 1), (0, -1)]
    queue visited
    (pushStep steps (fun m =>
      { step := m, cell := some (queue.getD head (0, 0)), action := "dequeue",
        queueSize := some (queue.length - (head + 1)), visited := some visited,
        frontier := some ((queue.drop (head + 1)).map
          (fun x => keyCell x.1 x.2)) }))
  simp only [hb] at h2
  obtain ⟨t, ht⟩ := h2
  simp only [hb]
  apply bfsGo_ne_nil_pres
  rw [ht]
  exact ne_nil_append_of_ne_nil _ (pushStep_ne_nil _ _)

theorem dfsNbrs_indexed (rec : Nat → Nat → List Nat → List Step → List Nat × List Step)
    (hrec : ∀ v d sn st, indexed st → indexed (rec v d sn st).2) (u depth : Nat) :
    ∀ vs seen steps, indexed steps → indexed (dfsNbrs rec u depth vs seen steps).2 := by
  intro vs
  induction vs with
  | nil => intro seen steps h; exact h
  | cons v rest ih =>
      intro seen steps h
      unfold dfsNbrs
      by_cases hc : seen.contains v = true
      · rw [if_pos hc]
        exact ih _ _ h
      · rw [if_neg hc]
        dsimp only
        rcases hr : rec v (depth + 1) seen
            (pushStep steps (fun m =>
              { step := m, node := some u, depth := some depth,
                action := "go to neighbor " ++ toString v,
                seenNodes := some (sortAscNat seen) })) with ⟨sn1, st2⟩
        have h2 := hrec v (depth + 1) seen
          (pushStep steps (fun m =>
            { step := m, node := some u, depth := some depth,
              action := "go to neighbor " ++ toString v,
              seenNodes := some (sortAscNat seen) })) (indexed_push h rfl)
        rw [hr] at h2
        simp only [hr]
        exact ih _ _ h2

theorem dfsNbrs_append (rec : Nat → Nat → List Nat → List Step → List Nat × List Step)
    (hrec : ∀ v d sn st, ∃ t, (rec v d sn st).2 = st ++ t) (u depth : Nat) :
    ∀ vs seen steps, ∃ t, (dfsNbrs rec u depth vs seen steps).2 = steps ++ t := by
  intro vs
  induction vs with
  | nil => intro seen steps; exact ⟨[], by simp [dfsNbrs]⟩
  | cons v rest ih =>
      intro seen steps
      unfold dfsNbrs
      by_cases hc : seen.contains v = true
      · rw [if_pos hc]
        exact ih _ _
      · rw [if_neg hc]
        dsimp only
        rcases hr : rec v (depth + 1) seen
            (pushStep steps (fun m =>
              { step := m, node := some u, depth := some depth,
                action := "go to neighbor " ++ toString v,
                seenNodes := some (sortAscNat seen) })) with ⟨sn1, st2⟩
        have h2 := hrec v (depth + 1) seen
          (pushStep steps (fun m =>
            { step := m, node := some u, depth := some depth,
              action := "go to neighbor " ++ toString v,
              seenNodes := some (sortAscNat seen) }))
        rw [hr] at h2
        simp only [hr]
        exact exists_append_trans (exists_append_trans (pushStep_append _ _) h2) (ih _ _)

theorem dfsGo_indexed (adj : List (List Nat)) :
    ∀ fuel u depth seen steps, indexed steps →
      indexed (dfsGo adj fuel u depth seen steps).2 := by
  intro fuel
  induction fuel with
  | zero => intro _ _ _ steps h; exact h
  | succ fuel ih =>
      intro u depth seen steps h
      unfold dfsGo
      dsimp only
      rcases hn : dfsNbrs (fun v d sn st => dfsGo adj fuel v d sn st) u depth
          (adj.getD u []) (seen ++ [u])
          (pushStep steps (fun m =>
            { step := m, node := some u, depth := some depth, action := "enter node",
              seenNodes := some (sortAscNat (seen ++ [u])) })) with ⟨seen2, steps2⟩
      have h2 := dfsNbrs_indexed (fun v d sn st => dfsGo adj fuel v d sn st)
        (fun v d sn st hst => ih v d sn st hst) u depth (adj.getD u []) (seen ++ [u])
        (pushStep steps (fun m =>
          { step := m, node := some u, depth := some depth, action := "enter node",
            seenNodes := some (sortAscNat (seen ++ [u])) })) (indexed_push h rfl)
      rw [hn] at h2
      simp only [hn]
      exact indexed_push h2 rfl

theorem dfsGo_append (adj : List (List Nat)) :
    ∀ fuel u depth seen steps, ∃ t, (dfsGo adj fuel u depth seen steps).2 = steps ++ t := by
  intro fuel
  induction fuel with
  | zero => intro _ _ _ steps; exact ⟨[], by simp [dfsGo]⟩
  | succ fuel ih =>
      intro u depth seen steps
      unfold dfsGo
      dsimp only
      rcases hn : dfsNbrs (fun v d sn st => dfsGo adj fuel v d sn st) u depth
          (adj.getD u []) (seen ++ [u])
          (pushStep steps (fun m =>
            { step := m, node := some u, depth := some depth, action := "enter node",
              seenNodes := some (sortAscNat (seen ++ [u])) })) with ⟨seen2, steps2⟩
      have h2 := dfsNbrs_append (fun v d sn st => dfsGo adj fuel v d sn st)
        (fun v d sn st => ih v d sn st) u depth (adj.getD u []) (seen ++ [u])
        (pushStep steps (fun m =>
          { step := m, node := some u, depth := some depth, action := "enter node",
            seenNodes := some (sortAscNat (seen ++ [u])) }))
      rw [hn] at h2
      simp only [hn]
      exact exists_append_trans (exists_append_trans (pushStep_append _ _) h2)
        (pushStep_append _ _)

theorem pdUpdates_indexed (n : Nat) :
    ∀ l i diff steps, indexed steps → indexed (pdUpdates n l i diff steps).2 := by
  intro l
  induction l with
  | nil => intro i diff steps h; exact h
  | cons e rest ih =>
      intro i diff steps h
      rcases e with ⟨rawL, rawR, delta⟩
      unfold pdUpdates
      exact ih _ _ _ (indexed_push h rfl)

theorem pdUpdates_append (n : Nat) :
    ∀ l i diff steps, ∃ t, (pdUpdates n l i diff steps).2 = steps ++ t := by
  intro l
  induction l with
  | nil => intro i diff steps; exact ⟨[], by simp [pdUpdates]⟩
  | cons e rest ih =>
      intro i diff steps
      rcases e with ⟨rawL, rawR, delta⟩
      unfold pdUpdates
      exact exists_append_trans (pushStep_append _ _) (ih _ _ _)

theorem pdRebuild_indexed (nums diff : List Int) :
    ∀ l rd adjusted steps, indexed steps → indexed (pdRebuild nums diff l rd adjusted steps).2 := by
  intro l
  induction l with
  | nil => intro rd adjusted steps h; exact h
  | cons i rest ih =>
      intro rd adjusted steps h
      unfold pdRebuild
      exact ih _ _ _ (indexed_push h rfl)

theorem pdRebuild_append (nums diff : List Int) :
    ∀ l rd adjusted steps, ∃ t, (pdRebuild nums diff l rd adjusted steps).2 = steps ++ t := by
  intro l
  induction l with
  | nil => intro rd adjusted steps; exact ⟨[], by simp [pdRebuild]⟩
  | cons i rest ih =>
      intro rd adjusted steps
      unfold pdRebuild
      exact exists_append_trans (pushStep_append _ _) (ih _ _ _)

theorem pdPrefixSums_indexed (adjusted : List Int) :
    ∀ l pfx steps, indexed steps → indexed (pdPrefixSums adjusted l pfx steps).2 := by
  intro l
  induction l with
  | nil => intro pfx steps h; exact h
  | cons i rest ih =>
      intro pfx steps h
      unfold pdPrefixSums
      exact ih _ _ (indexed_push h rfl)

theorem pdPrefixSums_append (adjusted : List Int) :
    ∀ l pfx steps, ∃ t, (pdPrefixSums adjusted l pfx steps).2 = steps ++ t := by
  intro l
  induction l with
  | nil => intro pfx steps; exact ⟨[], by simp [pdPrefixSums]⟩
  | cons i rest ih =>
      intro pfx steps
      unfold pdPrefixSums
      exact exists_append_trans (pushStep_append _ _) (ih _ _)

theorem mwEvict_indexed (k : Int) (i : Nat) :
    ∀ dq steps, indexed steps → indexed (mwEvict k i dq steps).2 := by
  intro dq
  induction dq with
  | nil => intro steps h; exact h
  | cons d ds ih =>
      intro steps h
      unfold mwEvict
      by_cases hc : (d : Int) ≤ (i : Int) - k
      · rw [if_pos hc]
        exact ih _ (indexed_push h rfl)
      · rw [if_neg hc]
        exact h

theorem mwEvict_append (k : Int) (i : Nat) :
    ∀ dq steps, ∃ t, (mwEvict k i dq steps).2 = steps ++ t := by
  intro dq
  induction dq with
  | nil => intro steps; exact ⟨[], by simp [mwEvict]⟩
  | cons d ds ih =>
      intro steps
      unfold mwEvict
      by_cases hc : (d : Int) ≤ (i : Int) - k
      · rw [if_pos hc]
        exact exists_append_trans (pushStep_append _ _) (ih _)
      · rw [if_neg hc]
        exact ⟨[], by simp⟩

theorem mwPop_indexed (nums : List Int) (i : Nat) :
    ∀ fuel dq steps, indexed steps → indexed (mwPop nums i fuel dq steps).2 := by
  intro fuel
  induction fuel with
  | zero => intro _ steps h; exact h
  | succ fuel ih =>
      intro dq steps h
      unfold mwPop
      rcases hgl : dq.getLast? with _ | d
      · simp only [hgl]
        exact h
      · simp only [hgl]
        by_cases hc : nums.getD d 0 ≤ nums.getD i 0
        · rw [if_pos hc]
          exact ih _ _ (indexed_push h rfl)
        · rw [if_neg hc]
          exact h

theorem mwPop_append (nums : List Int) (i : Nat) :
    ∀ fuel dq steps, ∃ t, (mwPop nums i fuel dq steps).2 = steps ++ t := by
  intro fuel
  induction fuel with
  | zero => intro _ steps; exact ⟨[], by simp [mwPop]⟩
  | succ fuel ih =>
      intro dq steps
      unfold mwPop
      rcases hgl : dq.getLast? with _ | d
      · simp only [hgl]
        exact ⟨[], by simp⟩
      · simp only [hgl]
        by_cases hc : nums.getD d 0 ≤ nums.getD i 0
        · rw [if_pos hc]
          exact exists_append_trans (pushStep_append _ _) (ih _ _)
        · rw [if_neg hc]
          exact ⟨[], by simp⟩

theorem mwGo_indexed (nums : List Int) (k : Int) :
    ∀ l dq out steps, indexed steps → indexed (mwGo nums k l dq out steps).2 := by
  intro l
  induction l with
  | nil => intro _ _ steps h; exact h
  | cons i rest ih =>
      intro dq out steps h
      unfold mwGo
      rcases he : mwEvict k i dq steps with ⟨dq1, steps1⟩
      have h1 := mwEvict_indexed k i dq steps h
      rw [he] at h1
      simp only [he]
      rcases hp : mwPop nums i dq1.length dq1 steps1 with ⟨dq2, steps2⟩
      have h2 := mwPop_indexed nums i dq1.length dq1 steps1 h1
      rw [hp] at h2
      simp only [hp]
      split
      · exact ih _ _ _ (indexed_push (indexed_push h2 rfl) rfl)
      · exact ih _ _ _ (indexed_push h2 rfl)

theorem mwGo_ne_nil_pres (nums : List Int) (k : Int) :
    ∀ l dq out steps, steps ≠ [] → (mwGo nums k l dq out steps).2 ≠ [] := by
  intro l
  induction l with
  | nil => intro _ _ steps h; exact h
  | cons i rest ih =>
      intro dq out steps h
      unfold mwGo
      rcases he : mwEvict k i dq steps with ⟨dq1, steps1⟩
      rcases hp : mwPop nums i dq1.length dq1 steps1 with ⟨dq2, steps2⟩
      simp only [he, hp]
      split
      · exact ih _ _ _ (pushStep_ne_nil _ _)
      · exact ih _ _ _ (pushStep_ne_nil _ _)

theorem trieInsert_indexed (wi : Nat) (word : String) :
    ∀ l i node steps, indexed steps → indexed (trieInsert wi word l i node steps).2 := by
  intro l
  induction l with
  | nil =>
      intro i node steps h
      rcases node with ⟨cs, e⟩
      exact h
  | cons ch rest ih =>
      intro i node steps h
      rcases node with ⟨cs, e⟩
      unfold trieInsert
      cases hl : cs.lookup ch with
      | some child =>
          rcases ht : trieInsert wi word rest (i + 1) child steps with ⟨child1, steps1⟩
          have h1 := ih (i + 1) child steps h
          rw [ht] at h1
          simp only [ht]
          exact h1
      | none =>
          dsimp only
          rcases ht : trieInsert wi word rest (i + 1) (.mk [] false)
              (pushStep steps (fun m =>
                { step := m, action := "create trie node", wordIndex := some wi,
                  word := some word, char := some ch, depth := some (i + 1) })) with
            ⟨child1, steps1⟩
          have h1 := ih (i + 1) (.mk [] false)
            (pushStep steps (fun m =>
              { step := m, action := "create trie node", wordIndex := some wi,
                word := some word, char := some ch, depth := some (i + 1) }))
            (indexed_push h rfl)
          rw [ht] at h1
          simp only [ht]
          exact h1

theorem trieInsert_append (wi : Nat) (word : String) :
    ∀ l i node steps, ∃ t, (trieInsert wi word l i node steps).2 = steps ++ t := by
  intro l
  induction l with
  | nil =>
      intro i node steps
      rcases node with ⟨cs, e⟩
      exact ⟨[], by simp [trieInsert]⟩
  | cons ch rest ih =>
      intro i node steps
      rcases node with ⟨cs, e⟩
      unfold trieInsert
      cases hl : cs.lookup ch with
      | some child =>
          rcases ht : trieInsert wi word rest (i + 1) child steps with ⟨child1, steps1⟩
          have h1 := ih (i + 1) child steps
          rw [ht] at h1
          simp only [ht]
          exact h1
      | none =>
          dsimp only
          rcases ht : trieInsert wi word rest (i + 1) (.mk [] false)
              (pushStep steps (fun m =>
                { step := m, action := "create trie node", wordIndex := some wi,
                  word := some word, char := some ch, depth := some (i + 1) })) with
            ⟨child1, steps1⟩
          have h1 := ih (i + 1) (.mk [] false)
            (pushStep steps (fun m =>
              { step := m, action := "create trie node", wordIndex := some wi,
                word := some word, char := some ch, depth := some (i + 1) }))
          rw [ht] at h1
          simp only [ht]
          exact exists_append_trans (pushStep_append _ _) h1

theorem trieBuild_indexed :
    ∀ ws wi root steps, indexed steps → indexed (trieBuild ws wi root steps).2 := by
  intro ws
  induction ws with
  | nil => intro wi root steps h; exact h
  | cons w rest ih =>
      intro wi root steps h
      unfold trieBuild
      rcases ht : trieInsert wi w w.data 0 root steps with ⟨root1, steps1⟩
      have h1 := trieInsert_indexed wi w w.data 0 root steps h
      rw [ht] at h1
      simp only [ht]
      exact ih _ _ _ (indexed_push h1 rfl)

theorem trieBuild_append :
    ∀ ws wi root steps, ∃ t, (trieBuild ws wi root steps).2 = steps ++ t := by
  intro ws
  induction ws with
  | nil => intro wi root steps; exact ⟨[], by simp [trieBuild]⟩
  | cons w rest ih =>
      intro wi root steps
      unfold trieBuild
      rcases ht : trieInsert wi w w.data 0 root steps with ⟨root1, steps1⟩
      have h1 := trieInsert_append wi w w.data 0 root steps
      rw [ht] at h1
      simp only [ht]
      exact exists_append_trans (exists_append_trans h1 (pushStep_append _ _)) (ih _ _ _)

theorem trieWalk_ne_nil (pfx : String) :
    ∀ l i node steps, (trieWalk pfx l i node steps).steps ≠ [] := by
  intro l
  induction l with
  | nil =>
      intro i node steps
      unfold trieWalk
      rw [simres_steps]
      exact pushStep_ne_nil _ _
  | cons ch rest ih =>
      intro i node steps
      unfold trieWalk
      cases hc : trieChild node ch with
      | none =>
          dsimp only
          exact pushStep_ne_nil _ _
      | some child => exact ih _ _ _

theorem trieWalk_indexed (pfx : String) :
    ∀ l i node steps, indexed steps → indexed (trieWalk pfx l i node steps).steps := by
  intro l
  induction l with
  | nil =>
      intro i node steps h
      unfold trieWalk
      rw [simres_steps]
      exact indexed_push h rfl
  | cons ch rest ih =>
      intro i node steps h
      unfold trieWalk
      cases hc : trieChild node ch with
      | none =>
          dsimp only
          exact indexed_push h rfl
      | some child => exact ih _ _ _ (indexed_push h rfl)

theorem greedyGo_indexed :
    ∀ l selected lastEnd steps, indexed steps →
      indexed (greedyGo l selected lastEnd steps).2 := by
  intro l
  induction l with
  | nil => intro _ _ steps h; exact h
  | cons iv rest ih =>
      intro selected lastEnd steps h
      rcases iv with ⟨s, e⟩
      unfold greedyGo
      dsimp only
      split
      · exact ih _ _ _ (indexed_push h rfl)
      · exact ih _ _ _ (indexed_push h rfl)

theorem greedyGo_ne_nil_pres :
    ∀ l selected lastEnd steps, steps ≠ [] → (greedyGo l selected lastEnd steps).2 ≠ [] := by
  intro l
  induction l with
  | nil => intro _ _ steps h; exact h
  | cons iv rest ih =>
      intro selected lastEnd steps h
      rcases iv with ⟨s, e⟩
      unfold greedyGo
      dsimp only
      split
      · exact ih _ _ _ (pushStep_ne_nil _ _)
      · exact ih _ _ _ (pushStep_ne_nil _ _)

theorem dijRelax_indexed (d : Int) (u : Nat) :
    ∀ l heap dist steps, indexed steps → indexed (dijRelax d u l heap dist steps).2.2 := by
  intro l
  induction l with
  | nil => intro _ _ steps h; exact h
  | cons vw rest ih =>
      intro heap dist steps h
      rcases vw with ⟨v, w⟩
      unfold dijRelax
      dsimp only
      split
      · exact ih _ _ _ (indexed_push h rfl)
      · exact ih _ _ _ h

theorem dijRelax_append (d : Int) (u : Nat) :
    ∀ l heap dist steps, ∃ t, (dijRelax d u l heap dist steps).2.2 = steps ++ t := by
  intro l
  induction l with
  | nil => intro _ _ steps; exact ⟨[], by simp [dijRelax]⟩
  | cons vw rest ih =>
      intro heap dist steps
      rcases vw with ⟨v, w⟩
      unfold dijRelax
      dsimp only
      split
      · exact exists_append_trans (pushStep_append _ _) (ih _ _ _)
      · exact ih _ _ _

theorem dijGo_indexed (adj : List (List (Nat × Int))) :
    ∀ fuel heap dist steps, indexed steps →
      indexed (dijGo adj fuel heap dist steps).2 := by
  intro fuel
  induction fuel with
  | zero => intro _ _ steps h; exact h
  | succ fuel ih =>
      intro heap dist steps h
      unfold dijGo
      cases hp : heapPopPair heap with
      | none => exact h
      | some pr =>
          rcases pr with ⟨⟨d, u⟩, heap1⟩
          dsimp only
          split
          · exact ih _ _ _ (indexed_push h rfl)
          · rcases hr : dijRelax d u (adj.getD u []) heap1 dist
                (pushStep steps (fun m =>
                  { step := m, action := "finalize node", node := some u,
                    dist := some dist })) with ⟨heap2, dist2, steps2⟩
            have h2 := dijRelax_indexed d u (adj.getD u []) heap1 dist
              (pushStep steps (fun m =>
                { step := m, action := "finalize node", node := some u,
                  dist := some dist })) (indexed_push h rfl)
            rw [hr] at h2
            simp only [hr]
            exact ih _ _ _ h2

theorem dijGo_ne_nil_pres (adj : List (List (Nat × Int))) :
    ∀ fuel heap dist steps, steps ≠ [] → (dijGo adj fuel heap dist steps).2 ≠ [] := by
  intro fuel
  induction fuel with
  | zero => intro _ _ steps h; exact h
  | succ fuel ih =>
      intro heap dist steps h
      unfold dijGo
      cases hp : heapPopPair heap with
      | none => exact h
      | some pr =>
          rcases pr with ⟨⟨d, u⟩, heap1⟩
          dsimp only
          split
          · exact ih _ _ _ (pushStep_ne_nil _ _)
          · rcases hr : dijRelax d u (adj.getD u []) heap1 dist
                (pushStep steps (fun m =>
                  { step := m, action := "finalize node", node := some u,
                    dist := some dist })) with ⟨heap2, dist2, steps2⟩
            have h2 := dijRelax_append d u (adj.getD u []) heap1 dist
              (pushStep steps (fun m =>
                { step := m, action := "finalize node", node := some u,
                  dist := some dist }))
            simp only [hr] at h2
            obtain ⟨t, ht⟩ := h2
            simp only [hr]
            apply ih
            rw [ht]
            exact ne_nil_append_of_ne_nil _ (pushStep_ne_nil _ _)

/-! ## Top-level step-trace theorems, one per embedded simulator. -/

theorem simulateHashDuplicate_indexed (nums : List Int) :
    indexed (simulateHashDuplicate nums).steps :=
  hashDupGo_indexed nums [] 0 [] indexed_nil

theorem simulateHashDuplicate_ne_nil (nums : List Int) :
    (simulateHashDuplicate nums).steps ≠ [] :=
  hashDupGo_ne_nil nums [] 0 []

theorem simulateHashFrequency_indexed (nums : List Int) :
    indexed (simulateHashFrequency nums).steps :=
  hashFreqGo_indexed nums [] 0 [] indexed_nil

theorem simulateHashFrequency_ne_nil {nums : List Int} (h : nums ≠ []) :
    (simulateHashFrequency nums).steps ≠ [] := by
  match nums, h with
  | v :: rest, _ =>
    show (hashFreqGo [] 0 [] (v :: rest)).steps ≠ []
    unfold hashFreqGo
    obtain ⟨t, ht⟩ := hashFreqGo_append rest (bumpFreq v []) 1
      (pushStep [] (fun m =>
        { step := m, index := some 0, value := some v,
          countAfter := some ((([] : List (Int × Nat)).lookup v).getD 0 + 1),
          freqMap := some (sortByKey (bumpFreq v [])), action := "update frequency" }))
    rw [ht]
    exact ne_nil_append_of_ne_nil _ (pushStep_ne_nil _ _)

theorem simulateSlidingWindow_indexed (nums : List Int) (k : Int) :
    indexed (simulateSlidingWindow nums k).steps :=
  swGo_indexed nums nums k 0 0 0 0 [] indexed_nil

theorem simulateSlidingWindow_ne_nil {nums : List Int} (k : Int) (h : nums ≠ []) :
    (simulateSlidingWindow nums k).steps ≠ [] := by
  match nums, h with
  | v :: rest, _ =>
    show (swGo (v :: rest) k 0 0 0 0 [] (v :: rest)).steps ≠ []
    unfold swGo
    rcases hs : swShrink ((v :: rest).length + 1) (v :: rest) k 0 0 (0 + v) 0
      (pushStep [] (fun m =>
        { step := m, phase := some "expand", left := some 0, right := some 0,
          sum := some (0 + v), best := some 0,
          action := "add nums[" ++ toString 0 ++ "]" })) with ⟨left2, sum2, steps2⟩
    simp only [hs]
    obtain ⟨t, ht⟩ := swGo_append rest (v :: rest) k left2 sum2
      (if left2 ≤ 0 then max 0 (0 - left2 + 1) else 0) 1
      (pushStep steps2 (fun m =>
        { step := m, phase := some "update", left := some left2, right := some 0,
          sum := some sum2,
          best := some (if left2 ≤ 0 then max 0 (0 - left2 + 1) else 0),
          action := "update best window" }))
    rw [ht]
    exact ne_nil_append_of_ne_nil _ (pushStep_ne_nil _ _)

theorem simulateBinarySearch_indexed (nums : List Int) (target : Int) :
    indexed (simulateBinarySearch nums target).steps := by
  unfold simulateBinarySearch
  rcases hb : bsLoop (nums.length + 1) nums target 0 nums.length [] with ⟨lo, steps⟩
  simp only [hb]
  refine indexed_push ?_ rfl
  have := bsLoop_indexed (nums.length + 1) nums target 0 nums.length [] indexed_nil
  rw [hb] at this
  exact this

theorem simulateBinarySearch_ne_nil (nums : List Int) (target : Int) :
    (simulateBinarySearch nums target).steps ≠ [] := by
  unfold simulateBinarySearch
  rcases hb : bsLoop (nums.length + 1) nums target 0 nums.length [] with ⟨lo, steps⟩
  simp only [hb]
  apply pushStep_ne_nil

theorem simulateFibMemo_indexed (n : Int) : indexed (simulateFibMemo n).steps := by
  unfold simulateFibMemo
  by_cases hn : n < 0
  · rw [if_pos hn]
    exact indexed_singleton _ rfl
  · rw [if_neg hn]
    rcases hf : fibGo (n.toNat + 1) n.toNat [] [] with ⟨value, memo, steps⟩
    simp only [hf]
    refine indexed_push ?_ rfl
    have := fibGo_indexed (n.toNat + 1) n.toNat [] [] indexed_nil
    rw [hf] at this
    exact this

theorem simulateFibMemo_ne_nil (n : Int) : (simulateFibMemo n).steps ≠ [] := by
  unfold simulateFibMemo
  by_cases hn : n < 0
  · rw [if_pos hn]
    simp
  · rw [if_neg hn]
    rcases hf : fibGo (n.toNat + 1) n.toNat [] [] with ⟨value, memo, steps⟩
    simp only [hf]
    apply pushStep_ne_nil

theorem simulateIntervalsMerge_indexed (intervals : List (Int × Int)) :
    indexed (simulateIntervalsMerge intervals).steps := by
  unfold simulateIntervalsMerge
  match intervals with
  | [] => exact indexed_singleton _ rfl
  | iv :: ivs =>
    match hs : sortIvs (iv :: ivs) with
    | [] => exact indexed_singleton _ rfl
    | c :: rest =>
      rcases hm : mergeSweep [] c
          (pushStep [{ step := 0, action := "sort intervals",
                       sortedIvs := some (c :: rest) }] (fun m =>
            { step := m, action := "start new interval", current := some c,
              merged := some [c] })) rest with ⟨steps2, merged⟩
      simp only [hm]
      have := mergeSweep_indexed rest [] c
        (pushStep [{ step := 0, action := "sort intervals",
                     sortedIvs := some (c :: rest) }] (fun m =>
          { step := m, action := "start new interval", current := some c,
            merged := some [c] }))
        (indexed_push (indexed_singleton _ rfl) rfl)
      simp only [hm] at this
      exact this

theorem simulateIntervalsMerge_ne_nil (intervals : List (Int × Int)) :
    (simulateIntervalsMerge intervals).steps ≠ [] := by
  unfold simulateIntervalsMerge
  match intervals with
  | [] => simp
  | iv :: ivs =>
    match hs : sortIvs (iv :: ivs) with
    | [] => simp
    | c :: rest =>
      rcases hm : mergeSweep [] c
          (pushStep [{ step := 0, action := "sort intervals",
                       sortedIvs := some (c :: rest) }] (fun m =>
            { step := m, action := "start new interval", current := some c,
              merged := some [c] })) rest with ⟨steps2, merged⟩
      simp only [hm]
      have ha := mergeSweep_append rest [] c
        (pushStep [{ step := 0, action := "sort intervals",
                     sortedIvs := some (c :: rest) }] (fun m =>
          { step := m, action := "start new interval", current := some c,
            merged := some [c] }))
      simp only [hm] at ha
      obtain ⟨t, ht⟩ := ha
      rw [ht]
      exact ne_nil_append_of_ne_nil _ (pushStep_ne_nil _ _)

theorem simulateHeapTopK_indexed (nums : List Int) (k : Int) :
    indexed (simulateHeapTopK nums k).steps := by
  unfold simulateHeapTopK
  by_cases hk : k ≤ 0
  · rw [if_pos hk]
    exact indexed_singleton _ rfl
  · rw [if_neg hk]
    rcases ht : topkGo k [] 0 [] nums with ⟨heap, steps⟩
    simp only [ht]
    refine indexed_push ?_ rfl
    have := topkGo_indexed nums k [] 0 [] indexed_nil
    rw [ht] at this
    exact this

theorem simulateHeapTopK_ne_nil (nums : List Int) (k : Int) :
    (simulateHeapTopK nums k).steps ≠ [] := by
  unfold simulateHeapTopK
  by_cases hk : k ≤ 0
  · rw [if_pos hk]
    simp
  · rw [if_neg hk]
    rcases ht : topkGo k [] 0 [] nums with ⟨heap, steps⟩
    simp only [ht]
    apply pushStep_ne_nil

theorem simulateTopologicalSort_indexed (nodeCount : Nat) (edges : List (Int × Int)) :
    indexed (simulateTopologicalSort nodeCount edges).steps := by
  unfold simulateTopologicalSort
  by_cases hn : nodeCount = 0
  · rw [if_pos hn]
    exact indexed_singleton _ rfl
  · rw [if_neg hn]
    rcases hb : topoBuild nodeCount
      (List.replicate nodeCount ([] : List Nat), List.replicate nodeCount (0 : Int))
      edges with ⟨adj, inDeg⟩
    simp only [hb]
    rcases hl : topoLoop (nodeCount + edges.length + 1) adj
      ((List.range nodeCount).filter (fun i => inDeg.getD i 0 = 0)) inDeg []
      (pushStep [] (fun m =>
        { step := m, action := "initialize indegree and queue", inDeg := some inDeg,
          queue := some ((List.range nodeCount).filter (fun i => inDeg.getD i 0 = 0)) }))
      with ⟨order, steps1⟩
    simp only [hl]
    have h1 : indexed steps1 := by
      have := topoLoop_indexed (nodeCount + edges.length + 1) adj
        ((List.range nodeCount).filter (fun i => inDeg.getD i 0 = 0)) inDeg []
        (pushStep [] (fun m =>
          { step := m, action := "initialize indegree and queue", inDeg := some inDeg,
            queue := some ((List.range nodeCount).filter (fun i => inDeg.getD i 0 = 0)) }))
        (indexed_push indexed_nil rfl)
      rw [hl] at this
      exact this
    by_cases ho : order.length ≠ nodeCount
    · rw [if_pos ho, simres_steps]
      exact indexed_push h1 rfl
    · rw [if_neg ho, simres_steps]
      exact h1

theorem simulateTopologicalSort_ne_nil (nodeCount : Nat) (edges : List (Int × Int)) :
    (simulateTopologicalSort nodeCount edges).steps ≠ [] := by
  unfold simulateTopologicalSort
  by_cases hn : nodeCount = 0
  · rw [if_pos hn]
    simp
  · rw [if_neg hn]
    rcases hb : topoBuild nodeCount
      (List.replicate nodeCount ([] : List Nat), List.replicate nodeCount (0 : Int))
      edges with ⟨adj, inDeg⟩
    simp only [hb]
    rcases hl : topoLoop (nodeCount + edges.length + 1) adj
      ((List.range nodeCount).filter (fun i => inDeg.getD i 0 = 0)) inDeg []
      (pushStep [] (fun m =>
        { step := m, action := "initialize indegree and queue", inDeg := some inDeg,
          queue := some ((List.range nodeCount).filter (fun i => inDeg.getD i 0 = 0)) }))
      with ⟨order, steps1⟩
    simp only [hl]
    have h1 : steps1 ≠ [] := by
      have := topoLoop_append (nodeCount + edges.length + 1) adj
        ((List.range nodeCount).filter (fun i => inDeg.getD i 0 = 0)) inDeg []
        (pushStep [] (fun m =>
          { step := m, action := "initialize indegree and queue", inDeg := some inDeg,
            queue := some ((List.range nodeCount).filter (fun i => inDeg.getD i 0 = 0)) }))
      simp only [hl] at this
      obtain ⟨t, ht⟩ := this
      rw [ht]
      exact ne_nil_append_of_ne_nil _ (pushStep_ne_nil _ _)
    by_cases ho : order.length ≠ nodeCount
    · rw [if_pos ho, simres_steps]
      exact pushStep_ne_nil _ _
    · rw [if_neg ho, simres_steps]
      exact h1

theorem simulateUnionFind_indexed (nodeCount : Nat) (edges : List (Int × Int))
    (queryA queryB : Int) : indexed (simulateUnionFind nodeCount edges queryA queryB).steps := by
  unfold simulateUnionFind
  by_cases hn : nodeCount = 0
  · rw [if_pos hn]
    exact indexed_singleton _ rfl
  · rw [if_neg hn]
    rcases he : ufEdges (List.range nodeCount) (List.replicate nodeCount 0) nodeCount 0 [] edges
      with ⟨p, r, steps⟩
    simp only [he]
    have h1 : indexed steps := by
      have := ufEdges_indexed edges (List.range nodeCount) (List.replicate nodeCount 0)
        nodeCount 0 [] indexed_nil
      rw [he] at this
      exact this
    by_cases hq : queryA < 0 ∨ (nodeCount : Int) ≤ queryA ∨ queryB < 0 ∨ (nodeCount : Int) ≤ queryB
    · rw [if_pos hq, simres_steps]
      exact indexed_push h1 rfl
    · rw [if_neg hq]
      rcases hf1 : ufFind p queryA.toNat with ⟨p1, ra⟩
      rcases hf2 : ufFind p1 queryB.toNat with ⟨p2, rb⟩
      simp only [hf1, hf2, simres_steps]
      exact indexed_push h1 rfl

theorem simulateUnionFind_ne_nil (nodeCount : Nat) (edges : List (Int × Int))
    (queryA queryB : Int) : (simulateUnionFind nodeCount edges queryA queryB).steps ≠ [] := by
  unfold simulateUnionFind
  by_cases hn : nodeCount = 0
  · rw [if_pos hn]
    simp
  · rw [if_neg hn]
    rcases he : ufEdges (List.range nodeCount) (List.replicate nodeCount 0) nodeCount 0 [] edges
      with ⟨p, r, steps⟩
    simp only [he]
    by_cases hq : queryA < 0 ∨ (nodeCount : Int) ≤ queryA ∨ queryB < 0 ∨ (nodeCount : Int) ≤ queryB
    · rw [if_pos hq, simres_steps]
      exact pushStep_ne_nil _ _
    · rw [if_neg hq]
      rcases hf1 : ufFind p queryA.toNat with ⟨p1, ra⟩
      rcases hf2 : ufFind p1 queryB.toNat with ⟨p2, rb⟩
      simp only [hf1, hf2, simres_steps]
      exact pushStep_ne_nil _ _

theorem simulateBacktrackingSubsetSum_indexed (nums : List Int) (target : Int) :
    indexed (simulateBacktrackingSubsetSum nums target).steps :=
  btDfs_indexed (nums.length + 1) nums target 0 0 ⟨[], [], none, false⟩ indexed_nil

theorem btDfs_steps_ne_nil_of_ne_nil {fuel : Nat} {nums : List Int} {target : Int}
    {idx : Nat} {sum : Int} {st : BTState} (h : st.steps ≠ []) :
    (btDfs fuel nums target idx sum st).steps ≠ [] := by
  obtain ⟨t, ht⟩ := btDfs_append fuel nums target idx sum st
  rw [ht]
  exact ne_nil_append_of_ne_nil _ h

theorem simulateBacktrackingSubsetSum_ne_nil (nums : List Int) (target : Int) :
    (simulateBacktrackingSubsetSum nums target).steps ≠ [] := by
  show (btDfs (nums.length + 1) nums target 0 0 ⟨[], [], none, false⟩).steps ≠ []
  unfold btDfs
  rw [if_neg (by simp)]
  dsimp only
  split
  · rw [btmk_steps]
    exact pushStep_ne_nil _ _
  · split
    · rw [btmk_steps]
      exact pushStep_ne_nil _ _
    · split
      · rw [btmk_steps]
        exact pushStep_ne_nil _ _
      · split
        · rw [btmk_steps]
          apply btDfs_steps_ne_nil_of_ne_nil
          rw [btmk_steps]
          exact pushStep_ne_nil _ _
        · apply btDfs_steps_ne_nil_of_ne_nil
          rw [btmk_steps]
          exact pushStep_ne_nil _ _

theorem simulateTwoPointers_indexed (nums : List Int) (target : Int) :
    indexed (simulateTwoPointers nums target).steps := by
  unfold simulateTwoPointers
  by_cases h : nums.length = 0
  · rw [if_pos h, simres_steps]
    exact indexed_singleton _ rfl
  · rw [if_neg h]
    exact tpGo_indexed nums target _ _ _ _ indexed_nil

theorem simulateTwoPointers_ne_nil (nums : List Int) (target : Int) :
    (simulateTwoPointers nums target).steps ≠ [] := by
  unfold simulateTwoPointers
  by_cases h : nums.length = 0
  · rw [if_pos h, simres_steps]
    simp
  · rw [if_neg h]
    exact tpGo_succ_ne_nil nums target nums.length 0 (nums.length - 1) []

theorem simulateStackParens_indexed (text : String) :
    indexed (simulateStackParens text).steps :=
  spGo_indexed text.data 0 [] [] indexed_nil

theorem simulateStackParens_ne_nil (text : String) :
    (simulateStackParens text).steps ≠ [] :=
  spGo_ne_nil text.data 0 [] []

theorem simulateBfsGrid_indexed (rows cols : Int) (blocked : List String)
    (start : Int × Int) : indexed (simulateBfsGrid rows cols blocked start).steps := by
  unfold simulateBfsGrid
  by_cases h1 : rows ≤ 0 ∨ cols ≤ 0
  · rw [if_pos h1, simres_steps]
    exact indexed_singleton _ rfl
  · rw [if_neg h1]
    by_cases h2 : blocked.contains (keyCell start.1 start.2) = true
    · rw [if_pos h2, simres_steps]
      exact indexed_singleton _ rfl
    · rw [if_neg h2]
      exact bfsGo_indexed rows cols blocked _ _ _ _ _ indexed_nil

theorem simulateBfsGrid_ne_nil (rows cols : Int) (blocked : List String)
    (start : Int × Int) : (simulateBfsGrid rows cols blocked start).steps ≠ [] := by
  unfold simulateBfsGrid
  by_cases h1 : rows ≤ 0 ∨ cols ≤ 0
  · rw [if_pos h1, simres_steps]
    simp
  · rw [if_neg h1]
    by_cases h2 : blocked.contains (keyCell start.1 start.2) = true
    · rw [if_pos h2, simres_steps]
      simp
    · rw [if_neg h2]
      exact bfsGo_succ_ne_nil rows cols blocked (rows.toNat * cols.toNat + 1) 0 [start]
        [keyCell start.1 start.2] [] (by simp)

theorem dfsGo_succ_ne_nil (adj : List (List Nat)) (fuel u depth : Nat)
    (seen : List Nat) (steps : List Step) :
    (dfsGo adj (fuel + 1) u depth seen steps).2 ≠ [] := by
  unfold dfsGo
  dsimp only
  rcases hn : dfsNbrs (fun v d sn st => dfsGo adj fuel v d sn st) u depth
      (adj.getD u []) (seen ++ [u])
      (pushStep steps (fun m =>
        { step := m, node := some u, depth := some depth, action := "enter node",
          seenNodes := some (sortAscNat (seen ++ [u])) })) with ⟨seen2, steps2⟩
  simp only [hn]
  exact pushStep_ne_nil _ _

theorem simulateDfsGraph_indexed (nodeCount : Nat) (edges : List (Int × Int))
    (start : Int) : indexed (simulateDfsGraph nodeCount edges start).steps := by
  unfold simulateDfsGraph
  by_cases h : start < 0 ∨ (nodeCount : Int) ≤ start
  · rw [if_pos h, simres_steps]
    exact indexed_singleton _ rfl
  · rw [if_neg h]
    dsimp only
    rcases hd : dfsGo ((dfsAdjBuild nodeCount edges (List.replicate nodeCount [])).map
        (List.insertionSort (· ≤ ·))) (nodeCount + 1) start.toNat 0 [] []
      with ⟨seen, steps⟩
    have hi := dfsGo_indexed ((dfsAdjBuild nodeCount edges
      (List.replicate nodeCount [])).map (List.insertionSort (· ≤ ·)))
      (nodeCount + 1) start.toNat 0 [] [] indexed_nil
    rw [hd] at hi
    simp only [hd]
    exact hi

theorem simulateDfsGraph_ne_nil (nodeCount : Nat) (edges : List (Int × Int))
    (start : Int) : (simulateDfsGraph nodeCount edges start).steps ≠ [] := by
  unfold simulateDfsGraph
  by_cases h : start < 0 ∨ (nodeCount : Int) ≤ start
  · rw [if_pos h, simres_steps]
    simp
  · rw [if_neg h]
    dsimp only
    rcases hd : dfsGo ((dfsAdjBuild nodeCount edges (List.replicate nodeCount [])).map
        (List.insertionSort (· ≤ ·))) (nodeCount + 1) start.toNat 0 [] []
      with ⟨seen, steps⟩
    have hne := dfsGo_succ_ne_nil ((dfsAdjBuild nodeCount edges
      (List.replicate nodeCount [])).map (List.insertionSort (· ≤ ·)))
      nodeCount start.toNat 0 [] []
    rw [hd] at hne
    simp only [hd]
    exact hne

theorem simulatePrefixDifference_indexed (nums : List Int)
    (updates : List (Int × Int × Int)) (queryL queryR : Int) :
    indexed (simulatePrefixDifference nums updates queryL queryR).steps := by
  unfold simulatePrefixDifference
  by_cases h : nums.length = 0
  · rw [if_pos h, simres_steps]
    exact indexed_singleton _ rfl
  · rw [if_neg h]
    dsimp only
    rcases h1 : pdUpdates nums.length updates 0 (List.replicate (nums.length + 1) 0) []
      with ⟨diff, steps1⟩
    have hi1 := pdUpdates_indexed nums.length updates 0
      (List.replicate (nums.length + 1) 0) [] indexed_nil
    rw [h1] at hi1
    simp only [h1]
    rcases h2 : pdRebuild nums diff (List.range nums.length) 0
        (List.replicate nums.length 0) steps1 with ⟨adjusted, steps2⟩
    have hi2 := pdRebuild_indexed nums diff (List.range nums.length) 0
      (List.replicate nums.length 0) steps1 hi1
    rw [h2] at hi2
    simp only [h2]
    rcases h3 : pdPrefixSums adjusted (List.range nums.length)
        (List.replicate nums.length 0) steps2 with ⟨pfx, steps3⟩
    have hi3 := pdPrefixSums_indexed adjusted (List.range nums.length)
      (List.replicate nums.length 0) steps2 hi2
    rw [h3] at hi3
    simp only [h3]
    exact indexed_push hi3 rfl

theorem simulatePrefixDifference_ne_nil (nums : List Int)
    (updates : List (Int × Int × Int)) (queryL queryR : Int) :
    (simulatePrefixDifference nums updates queryL queryR).steps ≠ [] := by
  unfold simulatePrefixDifference
  by_cases h : nums.length = 0
  · rw [if_pos h, simres_steps]
    simp
  · rw [if_neg h]
    dsimp only
    rcases h1 : pdUpdates nums.length updates 0 (List.replicate (nums.length + 1) 0) []
      with ⟨diff, steps1⟩
    simp only [h1]
    rcases h2 : pdRebuild nums diff (List.range nums.length) 0
        (List.replicate nums.length 0) steps1 with ⟨adjusted, steps2⟩
    simp only [h2]
    rcases h3 : pdPrefixSums adjusted (List.range nums.length)
        (List.replicate nums.length 0) steps2 with ⟨pfx, steps3⟩
    simp only [h3]
    exact pushStep_ne_nil _ _

theorem mwGo_cons_ne_nil (nums : List Int) (k : Int) (i : Nat) (rest : List Nat)
    (dq : List Nat) (out : List Int) (steps : List Step) :
    (mwGo nums k (i :: rest) dq out steps).2 ≠ [] := by
  unfold mwGo
  rcases he : mwEvict k i dq steps with ⟨dq1, steps1⟩
  rcases hp : mwPop nums i dq1.length dq1 steps1 with ⟨dq2, steps2⟩
  simp only [he, hp]
  split
  · exact mwGo_ne_nil_pres nums k _ _ _ _ (pushStep_ne_nil _ _)
  · exact mwGo_ne_nil_pres nums k _ _ _ _ (pushStep_ne_nil _ _)

theorem simulateMonotonicWindowMax_indexed (nums : List Int) (k : Int) :
    indexed (simulateMonotonicWindowMax nums k).steps := by
  unfold simulateMonotonicWindowMax
  by_cases h1 : k ≤ 0
  · rw [if_pos h1, simres_steps]
    exact indexed_singleton _ rfl
  · rw [if_neg h1]
    by_cases h2 : nums.length = 0
    · rw [if_pos h2, simres_steps]
      exact indexed_singleton _ rfl
    · rw [if_neg h2]
      rcases hg : mwGo nums k (List.range nums.length) [] [] [] with ⟨out, steps⟩
      have hi := mwGo_indexed nums k (List.range nums.length) [] [] [] indexed_nil
      rw [hg] at hi
      simp only [hg]
      exact hi

theorem simulateMonotonicWindowMax_ne_nil (nums : List Int) (k : Int) :
    (simulateMonotonicWindowMax nums k).steps ≠ [] := by
  unfold simulateMonotonicWindowMax
  by_cases h1 : k ≤ 0
  · rw [if_pos h1, simres_steps]
    simp
  · rw [if_neg h1]
    by_cases h2 : nums.length = 0
    · rw [if_pos h2, simres_steps]
      simp
    · rw [if_neg h2]
      obtain ⟨m, hm⟩ : ∃ m, nums.length = m + 1 := ⟨nums.length - 1, by omega⟩
      rw [hm, List.range_succ_eq_map]
      rcases hg : mwGo nums k (0 :: List.map Nat.succ (List.range m)) [] [] []
        with ⟨out, steps⟩
      have hne := mwGo_cons_ne_nil nums k 0 (List.map Nat.succ (List.range m)) [] [] []
      rw [hg] at hne
      simp only [hg]
      exact hne

theorem simulateTriePrefix_indexed (words : List String) (pfx : String) :
    indexed (simulateTriePrefix words pfx).steps := by
  unfold simulateTriePrefix
  rcases hb : trieBuild words 0 (.mk [] false) [] with ⟨root, steps⟩
  have h1 := trieBuild_indexed words 0 (.mk [] false) [] indexed_nil
  rw [hb] at h1
  simp only [hb]
  exact trieWalk_indexed pfx pfx.data 0 root steps h1

theorem simulateTriePrefix_ne_nil (words : List String) (pfx : String) :
    (simulateTriePrefix words pfx).steps ≠ [] := by
  unfold simulateTriePrefix
  rcases hb : trieBuild words 0 (.mk [] false) [] with ⟨root, steps⟩
  simp only [hb]
  exact trieWalk_ne_nil pfx pfx.data 0 root steps

theorem simulateGreedyIntervalScheduling_indexed (intervals : List (Int × Int)) :
    indexed (simulateGreedyIntervalScheduling intervals).steps := by
  unfold simulateGreedyIntervalScheduling
  by_cases h : intervals.length = 0
  · rw [if_pos h, simres_steps]
    exact indexed_singleton _ rfl
  · rw [if_neg h]
    dsimp only
    rcases hg : greedyGo (List.insertionSort ivEndLex intervals) [] none
        (pushStep [] (fun m =>
          { step := m, action := "sort by end time",
            sorted := some (List.insertionSort ivEndLex intervals) })) with ⟨selected, steps⟩
    have hi := greedyGo_indexed (List.insertionSort ivEndLex intervals) [] none
      (pushStep [] (fun m =>
        { step := m, action := "sort by end time",
          sorted := some (List.insertionSort ivEndLex intervals) }))
      (indexed_push indexed_nil rfl)
    rw [hg] at hi
    simp only [hg]
    exact hi

theorem simulateGreedyIntervalScheduling_ne_nil (intervals : List (Int × Int)) :
    (simulateGreedyIntervalScheduling intervals).steps ≠ [] := by
  unfold simulateGreedyIntervalScheduling
  by_cases h : intervals.length = 0
  · rw [if_pos h, simres_steps]
    simp
  · rw [if_neg h]
    dsimp only
    rcases hg : greedyGo (List.insertionSort ivEndLex intervals) [] none
        (pushStep [] (fun m =>
          { step := m, action := "sort by end time",
            sorted := some (List.insertionSort ivEndLex intervals) })) with ⟨selected, steps⟩
    have hne := greedyGo_ne_nil_pres (List.insertionSort ivEndLex intervals) [] none
      (pushStep [] (fun m =>
        { step := m, action := "sort by end time",
          sorted := some (List.insertionSort ivEndLex intervals) }))
      (pushStep_ne_nil _ _)
    rw [hg] at hne
    simp only [hg]
    exact hne

theorem getD_set_eq_gen {α : Type} (l : List α) (i : Nat) (v d : α) (h : i < l.length) :
    (l.set i v).getD i d = v := by
  rw [List.getD_eq_getElem _ _ (by simpa using h)]
  simp [List.getElem_set]

theorem dijGo_start_ne_nil (adj : List (List (Nat × Int))) (fuel s : Nat)
    (dist : List (Option Int)) (steps : List Step) (hfuel : fuel ≠ 0)
    (hs : dist.getD s none = some 0) :
    (dijGo adj fuel [(0, s)] dist steps).2 ≠ [] := by
  obtain ⟨f, rfl⟩ : ∃ f, fuel = f + 1 := ⟨fuel - 1, by omega⟩
  unfold dijGo
  have hpop : heapPopPair [(0, s)] = some ((0, s), []) := rfl
  simp only [hpop]
  rw [if_neg (show ¬(some (0 : Int) ≠ dist.getD s none) by rw [hs]; simp)]
  rcases hr : dijRelax 0 s (adj.getD s []) [] dist
      (pushStep steps (fun m =>
        { step := m, action := "finalize node", node := some s,
          dist := some dist })) with ⟨heap2, dist2, steps2⟩
  have h2 := dijRelax_append 0 s (adj.getD s []) [] dist
    (pushStep steps (fun m =>
      { step := m, action := "finalize node", node := some s,
        dist := some dist }))
  simp only [hr] at h2
  obtain ⟨t, ht⟩ := h2
  simp only [hr]
  apply dijGo_ne_nil_pres
  rw [ht]
  exact ne_nil_append_of_ne_nil _ (pushStep_ne_nil _ _)

theorem simulateDijkstra_indexed (nodeCount : Nat) (edges : List (Int × Int × Int))
    (start : Int) : indexed (simulateDijkstra nodeCount edges start).steps := by
  unfold simulateDijkstra
  by_cases h1 : nodeCount = 0
  · rw [if_pos h1, simres_steps]
    exact indexed_singleton _ rfl
  · rw [if_neg h1]
    by_cases h2 : start < 0 ∨ (nodeCount : Int) ≤ start
    · rw [if_pos h2, simres_steps]
      exact indexed_singleton _ rfl
    · rw [if_neg h2]
      dsimp only
      rcases hd : dijGo (dijAdjBuild nodeCount edges (List.replicate nodeCount []))
          (2 * edges.length + 2) [(0, start.toNat)]
          ((List.replicate nodeCount (none : Option Int)).set start.toNat (some 0)) []
        with ⟨dist, steps⟩
      have hi := dijGo_indexed (dijAdjBuild nodeCount edges (List.replicate nodeCount []))
        (2 * edges.length + 2) [(0, start.toNat)]
        ((List.replicate nodeCount (none : Option Int)).set start.toNat (some 0)) []
        indexed_nil
      rw [hd] at hi
      simp only [hd]
      exact hi

theorem simulateDijkstra_ne_nil (nodeCount : Nat) (edges : List (Int × Int × Int))
    (start : Int) : (simulateDijkstra nodeCount edges start).steps ≠ [] := by
  unfold simulateDijkstra
  by_cases h1 : nodeCount = 0
  · rw [if_pos h1, simres_steps]
    simp
  · rw [if_neg h1]
    by_cases h2 : start < 0 ∨ (nodeCount : Int) ≤ start
    · rw [if_pos h2, simres_steps]
      simp
    · rw [if_neg h2]
      dsimp only
      rcases not_or.mp h2 with ⟨h2a, h2b⟩
      rcases hd : dijGo (dijAdjBuild nodeCount edges (List.replicate nodeCount []))
          (2 * edges.length + 2) [(0, start.toNat)]
          ((List.replicate nodeCount (none : Option Int)).set start.toNat (some 0)) []
        with ⟨dist, steps⟩
      have hne := dijGo_start_ne_nil
        (dijAdjBuild nodeCount edges (List.replicate nodeCount []))
        (2 * edges.length + 2) start.toNat
        ((List.replicate nodeCount (none : Option Int)).set start.toNat (some 0)) []
        (by omega)
        (getD_set_eq_gen _ _ _ _ (by simp only [List.length_replicate]; omega))
      rw [hd] at hne
      simp only [hd]
      exact hne

/-! ## Binary search: lower-bound correctness (C1) -/

/-- The spec's characterisation of the binary-search result: "the smallest
index `i` such that `nums[i] >= target`, or `nums.length` when no such index
exists".  (`List.findIdx` returns the length when no element matches.)
This definition follows the spec's words; it is the comparison point for the
refinement claim about `simulateBinarySearch`. -/
def lowerBoundSpec (nums : List Int) (target : Int) : Nat :=
  nums.findIdx (fun x => target ≤ x)

theorem lowerBoundSpec_le_length (nums : List Int) (target : Int) :
    lowerBoundSpec nums target ≤ nums.length := by
  induction nums with
  | nil => simp [lowerBoundSpec]
  | cons a l ih =>
      unfold lowerBoundSpec at ih ⊢
      rw [List.findIdx_cons]
      by_cases h : target ≤ a
      · simp [h]
      · simp only [h, decide_False, cond_false, List.length_cons]
        omega

theorem lowerBoundSpec_lt (nums : List Int) (target : Int) :
    ∀ j, j < lowerBoundSpec nums target → j < nums.length → nums.getD j 0 < target := by
  induction nums with
  | nil => intro j hj hl; simp at hl
  | cons a l ih =>
      intro j hj hl
      unfold lowerBoundSpec at hj
      rw [List.findIdx_cons] at hj
      by_cases h : target ≤ a
      · simp [h] at hj
      · simp only [h, decide_False, cond_false] at hj
        match j with
        | 0 => simpa using not_le.mp h
        | j + 1 =>
            simp only [List.getD_cons_succ]
            refine ih j ?_ ?_
            · unfold lowerBoundSpec
              omega
            · simp only [List.length_cons] at hl
              omega

theorem lowerBoundSpec_ge (nums : List Int) (target : Int) :
    lowerBoundSpec nums target < nums.length →
      target ≤ nums.getD (lowerBoundSpec nums target) 0 := by
  induction nums with
  | nil => intro h; simp [lowerBoundSpec] at h
  | cons a l ih =>
      intro hlt
      unfold lowerBoundSpec at hlt ⊢
      rw [List.findIdx_cons] at hlt ⊢
      by_cases h : target ≤ a
      · simp [h]
      · simp only [h, decide_False, cond_false] at hlt ⊢
        simp only [List.getD_cons_succ]
        refine ih ?_
        unfold lowerBoundSpec
        simp only [List.length_cons] at hlt
        omega

/-- Any index with the three boundary properties is the lower bound. -/
theorem lowerBound_unique (nums : List Int) (target : Int) (r : Nat)
    (h1 : r ≤ nums.length)
    (h2 : ∀ j, j < r → j < nums.length → nums.getD j 0 < target)
    (h3 : r < nums.length → target ≤ nums.getD r 0) :
    r = lowerBoundSpec nums target := by
  rcases Nat.lt_trichotomy r (lowerBoundSpec nums target) with h | h | h
  · have hr : r < nums.length :=
      Nat.lt_of_lt_of_le h (lowerBoundSpec_le_length nums target)
    have := lowerBoundSpec_lt nums target r h hr
    have := h3 hr
    omega
  · exact h
  · have hl : lowerBoundSpec nums target < nums.length := Nat.lt_of_lt_of_le h h1
    have := h2 (lowerBoundSpec nums target) h hl
    have := lowerBoundSpec_ge nums target hl
    omega

theorem pairwise_getD_mono {nums : List Int} (h : List.Pairwise (· ≤ ·) nums)
    (i j : Nat) (hij : i ≤ j) (hj : j < nums.length) :
    nums.getD i 0 ≤ nums.getD j 0 := by
  rcases Nat.eq_or_lt_of_le hij with heq | hlt
  · subst heq; exact le_refl _
  · have hi : i < nums.length := Nat.lt_trans hlt hj
    rw [List.getD_eq_getElem _ _ hi, List.getD_eq_getElem _ _ hj]
    exact List.pairwise_iff_getElem.mp h i j hi hj hlt

theorem bsLoop_correct (nums : List Int) (target : Int)
    (hs : List.Pairwise (· ≤ ·) nums) :
    ∀ fuel lo hi steps, hi ≤ nums.length → lo ≤ hi → hi - lo < fuel →
      (∀ j, j < lo → j < nums.length → nums.getD j 0 < target) →
      (∀ j, hi ≤ j → j < nums.length → target ≤ nums.getD j 0) →
      ((bsLoop fuel nums target lo hi steps).1 ≤ nums.length ∧
       (∀ j, j < (bsLoop fuel nums target lo hi steps).1 → j < nums.length →
          nums.getD j 0 < target) ∧
       ((bsLoop fuel nums target lo hi steps).1 < nums.length →
          target ≤ nums.getD (bsLoop fuel nums target lo hi steps).1 0)) := by
  intro fuel
  induction fuel with
  | zero => intro lo hi steps _ _ hf; omega
  | succ fuel ih =>
      intro lo hi steps hhi hlohi hf h2 h3
      unfold bsLoop
      by_cases hlt : lo < hi
      · rw [if_pos hlt]
        by_cases hv : nums.getD (lo + (hi - lo) / 2) 0 < target
        · rw [if_pos hv]
          refine ih (lo + (hi - lo) / 2 + 1) hi _ hhi (by omega) (by omega) ?_ h3
          intro j hj hjl
          have hmono : nums.getD j 0 ≤ nums.getD (lo + (hi - lo) / 2) 0 :=
            pairwise_getD_mono hs j (lo + (hi - lo) / 2) (by omega) (by omega)
          omega
        · rw [if_neg hv]
          refine ih lo (lo + (hi - lo) / 2) _ (by omega) (by omega) (by omega) h2 ?_
          intro j hj hjl
          have hmono : nums.getD (lo + (hi - lo) / 2) 0 ≤ nums.getD j 0 :=
            pairwise_getD_mono hs (lo + (hi - lo) / 2) j (by omega) hjl
          omega
      · rw [if_neg hlt]
        refine ⟨by omega, fun j hj hjl => h2 j hj hjl, fun hr => h3 _ (by omega) hr⟩

/-! ## Topological sort: order-length / hasCycle relationship (C6) -/

/-- The `order` component of a topological-sort result (`[]` for the
degenerate sentinel). -/
def TopoRes.orderOf : TopoRes → List Nat
  | .emptySentinel => []
  | .report o _ => o

/-- The `hasCycle` component of a topological-sort result (`false` for the
degenerate sentinel). -/
def TopoRes.hasCycleOf : TopoRes → Bool
  | .emptySentinel => false
  | .report _ c => c

theorem simulateTopologicalSort_report (nodeCount : Nat) (edges : List (Int × Int))
    (h : nodeCount ≠ 0) :
    ∃ order steps,
      (simulateTopologicalSort nodeCount edges =
          ⟨steps, .report order true⟩ ∧ order.length ≠ nodeCount) ∨
      (simulateTopologicalSort nodeCount edges =
          ⟨steps, .report order false⟩ ∧ order.length = nodeCount) := by
  unfold simulateTopologicalSort
  rw [if_neg h]
  rcases hb : topoBuild nodeCount
    (List.replicate nodeCount ([] : List Nat), List.replicate nodeCount (0 : Int))
    edges with ⟨adj, inDeg⟩
  rcases hl : topoLoop (nodeCount + edges.length + 1) adj
    ((List.range nodeCount).filter (fun i => inDeg.getD i 0 = 0)) inDeg []
    (pushStep [] (fun m =>
      { step := m, action := "initialize indegree and queue", inDeg := some inDeg,
        queue := some ((List.range nodeCount).filter (fun i => inDeg.getD i 0 = 0)) }))
    with ⟨order, steps1⟩
  simp only [hb, hl]
  by_cases ho : order.length ≠ nodeCount
  · rw [if_pos ho]
    exact ⟨order, _, Or.inl ⟨rfl, ho⟩⟩
  · rw [if_neg ho]
    exact ⟨order, steps1, Or.inr ⟨rfl, not_ne_iff.mp ho⟩⟩

/-! ## Heap top-k: result length and descending order (C8) -/

instance : IsTotal Int (fun a b => b ≤ a) := ⟨fun a b => le_total b a⟩

instance : IsTrans Int (fun a b => b ≤ a) := ⟨fun _ _ _ hab hbc => le_trans hbc hab⟩

theorem swapL_length (h : List Int) (i j : Nat) : (swapL h i j).length = h.length := by
  simp [swapL]

theorem siftUp_length (fuel : Nat) : ∀ (h : List Int) (i : Nat),
    (siftUp fuel h i).length = h.length := by
  induction fuel with
  | zero => intro h i; rfl
  | succ fuel ih =>
      intro h i
      unfold siftUp
      by_cases h0 : 0 < i
      · rw [if_pos h0]
        by_cases hle : h.getD ((i - 1) / 2) 0 ≤ h.getD i 0
        · rw [if_pos hle]
        · rw [if_neg hle]
          rw [ih, swapL_length]
      · rw [if_neg h0]

theorem heapPushMin_length (h : List Int) (v : Int) :
    (heapPushMin h v).length = h.length + 1 := by
  unfold heapPushMin
  rw [siftUp_length]
  simp

theorem siftDown_length (fuel : Nat) : ∀ (h : List Int) (i : Nat),
    (siftDown fuel h i).length = h.length := by
  induction fuel with
  | zero => intro h i; rfl
  | succ fuel ih =>
      intro h i
      unfold siftDown
      dsimp only
      repeat' split
      all_goals first | rfl | rw [ih, swapL_length]

theorem heapPopMin_length (h : List Int) (hne : h ≠ []) :
    (heapPopMin h).2.length = h.length - 1 := by
  match h, hne with
  | x :: xs, _ =>
    unfold heapPopMin
    dsimp only
    by_cases he : ((x :: xs).dropLast).isEmpty = true
    · rw [if_pos he]
      simp
    · rw [if_neg he]
      dsimp only
      rw [siftDown_length, List.length_set]
      simp

theorem topkGo_length (l : List Int) : ∀ (k : Int) (heap : List Int) (i : Nat)
    (steps : List Step), 0 < k → (heap.length : Int) ≤ k →
      (((topkGo k heap i steps l).1.length : Int) = min k (heap.length + l.length)) := by
  induction l with
  | nil =>
      intro k heap i steps hk hle
      unfold topkGo
      simp only [List.length_nil, Nat.cast_zero, add_zero]
      omega
  | cons v rest ih =>
      intro k heap i steps hk hle
      unfold topkGo
      by_cases hgt : ((heapPushMin heap v).length : Int) > k
      · rw [if_pos hgt]
        rcases hp : heapPopMin (heapPushMin heap v) with ⟨removed, h2⟩
        simp only [hp]
        have hlen1 : (heapPushMin heap v).length = heap.length + 1 := heapPushMin_length _ _
        have hne : heapPushMin heap v ≠ [] := by
          intro hc
          rw [hc] at hlen1
          simp at hlen1
        have hlen2 : h2.length = heap.length := by
          have := heapPopMin_length (heapPushMin heap v) hne
          rw [hp] at this
          simpa [hlen1] using this
        rw [ih k h2 (i + 1) _ hk (by omega)]
        simp only [List.length_cons, hlen2]
        push_cast
        omega
      · rw [if_neg hgt]
        have hlen1 : (heapPushMin heap v).length = heap.length + 1 := heapPushMin_length _ _
        rw [ih k (heapPushMin heap v) (i + 1) _ hk (by omega)]
        simp only [List.length_cons, hlen1]
        push_cast
        omega

theorem simulateHeapTopK_spec (nums : List Int) (k : Int) (hk : 0 < k) :
    ((simulateHeapTopK nums k).result.length : Int) = min k nums.length ∧
      List.Sorted (fun a b => b ≤ a) (simulateHeapTopK nums k).result := by
  unfold simulateHeapTopK
  rw [if_neg (by omega)]
  rcases ht : topkGo k [] 0 [] nums with ⟨heap, steps⟩
  simp only [ht, simres_steps]
  constructor
  · have h0 := topkGo_length nums k [] 0 [] hk
      (by simp only [List.length_nil, Nat.cast_zero]; omega)
    rw [ht] at h0
    simp only [List.length_nil, Nat.cast_zero, zero_add] at h0
    show ((sortDesc heap).length : Int) = min k nums.length
    unfold sortDesc
    rw [List.length_insertionSort]
    exact h0
  · exact List.sorted_insertionSort _ heap

/-! ## Interval merge: output invariants (C10) and idempotence (C7) -/

/-- Consecutive output intervals are disjoint and non-touching. -/
def Chain2 (l : List (Int × Int)) : Prop := List.Chain' (fun a b => a.2 < b.1) l

theorem ivLex_trans' {a b c : Int × Int} (h1 : ivLex a b) (h2 : ivLex b c) : ivLex a c := by
  unfold ivLex at h1 h2 ⊢
  omega

theorem mergeSweep_invariant (l : List (Int × Int)) :
    ∀ done cur steps,
      List.Pairwise ivLex (done ++ [cur]) →
      Chain2 (done ++ [cur]) →
      List.Pairwise ivLex (cur :: l) →
      List.Pairwise ivLex (mergeSweep done cur steps l).2 ∧
        Chain2 (mergeSweep done cur steps l).2 := by
  induction l with
  | nil =>
      intro done cur steps h1 h2 _
      exact ⟨h1, h2⟩
  | cons p rest ih =>
      intro done cur steps h1 h2 h3
      rcases p with ⟨s, e⟩
      unfold mergeSweep
      by_cases hc : cur.2 < s
      · rw [if_pos hc]
        have hcur_se : ivLex cur (s, e) := List.rel_of_pairwise_cons h3 (List.mem_cons_self _ _)
        refine ih _ _ _ ?_ ?_ ?_
        · rw [List.pairwise_append]
          refine ⟨h1, List.pairwise_singleton _ _, ?_⟩
          intro a ha b hb
          simp only [List.mem_singleton] at hb
          subst hb
          rcases List.mem_append.mp ha with had | hac
          · have : ivLex a cur := by
              rw [List.pairwise_append] at h1
              exact h1.2.2 a had cur (List.mem_singleton_self _)
            exact ivLex_trans' this hcur_se
          · simp only [List.mem_singleton] at hac
            subst hac
            exact hcur_se
        · unfold Chain2
          rw [List.chain'_append]
          refine ⟨h2, List.chain'_singleton _, ?_⟩
          intro x hx y hy
          simp only [List.head?_cons, Option.mem_def, Option.some.injEq] at hy
          subst hy
          have hx' : cur = x := by
            rw [List.getLast?_append, List.getLast?_singleton] at hx
            simpa using hx
          subst hx'
          exact hc
        · exact h3.of_cons
      · rw [if_neg hc]
        have hcur_se : ivLex cur (s, e) := List.rel_of_pairwise_cons h3 (List.mem_cons_self _ _)
        refine ih _ _ _ ?_ ?_ ?_
        · rw [List.pairwise_append] at h1 ⊢
          refine ⟨h1.1, List.pairwise_singleton _ _, ?_⟩
          intro a ha b hb
          simp only [List.mem_singleton] at hb
          subst hb
          have : ivLex a cur := h1.2.2 a ha cur (List.mem_singleton_self _)
          unfold ivLex at this ⊢
          simp only at this ⊢
          omega
        · unfold Chain2 at h2 ⊢
          rw [List.chain'_append] at h2 ⊢
          refine ⟨h2.1, List.chain'_singleton _, ?_⟩
          intro x hx y hy
          simp only [List.head?_cons, Option.mem_def, Option.some.injEq] at hy
          subst hy
          have := h2.2.2 x hx cur (by simp)
          simpa using this
        · constructor
          · intro p hp
            have hcp : ivLex cur p := List.rel_of_pairwise_cons h3 (List.mem_cons_of_mem _ hp)
            have hsp : ivLex (s, e) p := List.rel_of_pairwise_cons h3.of_cons hp
            unfold ivLex at hcur_se hcp hsp ⊢
            simp only at hcur_se hcp hsp ⊢
            omega
          · exact h3.of_cons.of_cons

theorem mergeSweep_ok (l : List (Int × Int)) :
    ∀ done cur steps,
      (∀ p ∈ done, p.1 ≤ p.2) → cur.1 ≤ cur.2 → (∀ p ∈ l, p.1 ≤ p.2) →
      ∀ p ∈ (mergeSweep done cur steps l).2, p.1 ≤ p.2 := by
  induction l with
  | nil =>
      intro done cur steps hd hcur _
      intro p hp
      unfold mergeSweep at hp
      rcases List.mem_append.mp hp with h | h
      · exact hd p h
      · simp only [List.mem_singleton] at h
        subst h
        exact hcur
  | cons q rest ih =>
      intro done cur steps hd hcur hl
      rcases q with ⟨s, e⟩
      unfold mergeSweep
      by_cases hc : cur.2 < s
      · rw [if_pos hc]
        refine ih _ _ _ ?_ ?_ ?_
        · intro p hp
          rcases List.mem_append.mp hp with h | h
          · exact hd p h
          · simp only [List.mem_singleton] at h
            subst h
            exact hcur
        · exact hl (s, e) (List.mem_cons_self _ _)
        · intro p hp
          exact hl p (List.mem_cons_of_mem _ hp)
      · rw [if_neg hc]
        refine ih _ _ _ hd ?_ ?_
        · show cur.1 ≤ max cur.2 e
          omega
        · intro p hp
          exact hl p (List.mem_cons_of_mem _ hp)

theorem mergeSweep_fixed (l : List (Int × Int)) :
    ∀ done cur steps, Chain2 (cur :: l) →
      (mergeSweep done cur steps l).2 = done ++ cur :: l := by
  induction l with
  | nil => intro done cur steps _; rfl
  | cons q rest ih =>
      intro done cur steps hch
      rcases q with ⟨s, e⟩
      unfold mergeSweep
      have hc : cur.2 < s := by
        unfold Chain2 at hch
        exact (List.chain'_cons.mp hch).1
      rw [if_pos hc]
      rw [ih (done ++ [cur]) (s, e) _ (by
        unfold Chain2 at hch ⊢
        exact (List.chain'_cons.mp hch).2)]
      simp

/-- The merge result is pairwise-lex-sorted and chain-disjoint. -/
theorem simulateIntervalsMerge_result_invariant (intervals : List (Int × Int)) :
    List.Pairwise ivLex (simulateIntervalsMerge intervals).result ∧
      Chain2 (simulateIntervalsMerge intervals).result := by
  unfold simulateIntervalsMerge
  match intervals with
  | [] => exact ⟨List.Pairwise.nil, List.chain'_nil⟩
  | iv :: ivs =>
    have hsorted : List.Pairwise ivLex (sortIvs (iv :: ivs)) :=
      List.sorted_insertionSort ivLex (iv :: ivs)
    match hs : sortIvs (iv :: ivs) with
    | [] => exact ⟨List.Pairwise.nil, List.chain'_nil⟩
    | c :: rest =>
      rw [hs] at hsorted
      rcases hm : mergeSweep [] c
          (pushStep [{ step := 0, action := "sort intervals",
                       sortedIvs := some (c :: rest) }] (fun m =>
            { step := m, action := "start new interval", current := some c,
              merged := some [c] })) rest with ⟨steps2, merged⟩
      simp only [hm]
      have := mergeSweep_invariant rest [] c
        (pushStep [{ step := 0, action := "sort intervals",
                     sortedIvs := some (c :: rest) }] (fun m =>
          { step := m, action := "start new interval", current := some c,
            merged := some [c] }))
        (List.pairwise_singleton _ _) (List.chain'_singleton _) hsorted
      rw [hm] at this
      exact this

/-- Element bound preservation: every output interval has start ≤ end when
every input interval does. -/
theorem simulateIntervalsMerge_result_ok (intervals : List (Int × Int))
    (h : ∀ p ∈ intervals, p.1 ≤ p.2) :
    ∀ p ∈ (simulateIntervalsMerge intervals).result, p.1 ≤ p.2 := by
  unfold simulateIntervalsMerge
  match intervals, h with
  | [], _ => intro p hp; simp at hp
  | iv :: ivs, h =>
    have hmem : ∀ p ∈ sortIvs (iv :: ivs), p.1 ≤ p.2 := by
      intro p hp
      refine h p ?_
      unfold sortIvs at hp
      exact (List.perm_insertionSort ivLex (iv :: ivs)).mem_iff.mp hp
    match hs : sortIvs (iv :: ivs) with
    | [] => intro p hp; simp at hp
    | c :: rest =>
      rw [hs] at hmem
      rcases hm : mergeSweep [] c
          (pushStep [{ step := 0, action := "sort intervals",
                       sortedIvs := some (c :: rest) }] (fun m =>
            { step := m, action := "start new interval", current := some c,
              merged := some [c] })) rest with ⟨steps2, merged⟩
      simp only [hm]
      have := mergeSweep_ok rest [] c
        (pushStep [{ step := 0, action := "sort intervals",
                     sortedIvs := some (c :: rest) }] (fun m =>
          { step := m, action := "start new interval", current := some c,
            merged := some [c] }))
        (by intro p hp; simp at hp)
        (hmem c (List.mem_cons_self _ _))
        (by intro p hp; exact hmem p (List.mem_cons_of_mem _ hp))
      rw [hm] at this
      exact this

/-- Merging a list that is already lex-sorted and chain-disjoint returns it
unchanged. -/
theorem simulateIntervalsMerge_of_chain (R : List (Int × Int))
    (hpw : List.Pairwise ivLex R) (hch : Chain2 R) :
    (simulateIntervalsMerge R).result = R := by
  match R, hpw, hch with
  | [], _, _ => rfl
  | c :: rest, hpw, hch =>
    unfold simulateIntervalsMerge
    have hsid : sortIvs (c :: rest) = c :: rest :=
      List.Sorted.insertionSort_eq hpw
    rw [hsid]
    rcases hm : mergeSweep [] c
        (pushStep [{ step := 0, action := "sort intervals",
                     sortedIvs := some (c :: rest) }] (fun m =>
          { step := m, action := "start new interval", current := some c,
            merged := some [c] })) rest with ⟨steps2, merged⟩
    simp only [hm]
    have := mergeSweep_fixed rest [] c
      (pushStep [{ step := 0, action := "sort intervals",
                   sortedIvs := some (c :: rest) }] (fun m =>
        { step := m, action := "start new interval", current := some c,
          merged := some [c] })) hch
    rw [hm] at this
    simpa using this

/-! ## Union-find theory (C5, C9)

`findAux` mutates the parent array while walking, so its correctness is
proved against the pure chain-walk `rootAux`/`rootD`, under the
union-by-rank invariant `UFInv`: parents are in range and the rank strictly
increases from a non-root to its parent.  The measure `ufMeasure` (number of
nodes of strictly larger rank) strictly decreases along any parent chain,
which bounds every chain by `n` and justifies the `fuel = parent.length`
used by `ufFind`. -/

/-- Pure parent-chain walk (no path compression). -/
def rootAux : Nat → List Nat → Nat → Nat
  | 0, _, cur => cur
  | fuel + 1, p, cur =>
      if p.getD cur cur = cur then cur else rootAux fuel p (p.getD cur cur)

/-- The root of `x` in parent array `p`. -/
def rootD (p : List Nat) (x : Nat) : Nat := rootAux p.length p x

/-- The union-by-rank invariant tying a parent array to a rank array. -/
def UFInv (p r : List Nat) : Prop :=
  p.length = r.length ∧
  (∀ x, x < p.length → p.getD x x < p.length) ∧
  (∀ x, x < p.length → p.getD x x ≠ x → r.getD x 0 < r.getD (p.getD x x) 0)

/-- Number of nodes (below `n`) of strictly larger rank than `x`. -/
def ufMeasure (r : List Nat) (n : Nat) (x : Nat) : Nat :=
  ((Finset.range n).filter (fun y => r.getD x 0 < r.getD y 0)).card

theorem ufMeasure_lt (r : List Nat) (n : Nat) (x : Nat) (hx : x < n) :
    ufMeasure r n x < n := by
  unfold ufMeasure
  have hsub : (Finset.range n).filter (fun y => r.getD x 0 < r.getD y 0) ⊂ Finset.range n := by
    refine Finset.ssubset_iff_of_subset (Finset.filter_subset _ _) |>.mpr ?_
    exact ⟨x, Finset.mem_range.mpr hx, by simp⟩
  simpa using Finset.card_lt_card hsub

theorem ufMeasure_mono (r : List Nat) (n : Nat) {x y : Nat} (hy : y < n)
    (hr : r.getD x 0 < r.getD y 0) :
    ufMeasure r n y < ufMeasure r n x := by
  unfold ufMeasure
  refine Finset.card_lt_card ?_
  rw [Finset.ssubset_iff_of_subset]
  · exact ⟨y, by simp only [Finset.mem_filter, Finset.mem_range]; exact ⟨hy, hr⟩, by simp⟩
  · intro z hz
    simp only [Finset.mem_filter, Finset.mem_range] at hz ⊢
    exact ⟨hz.1, lt_trans hr hz.2⟩

/-- Fuel irrelevance for `rootAux`: any fuel above the measure computes the
same value. -/
theorem rootAux_fuel {p r : List Nat} (hinv : UFInv p r) :
    ∀ k x f1 f2, x < p.length → ufMeasure r p.length x ≤ k →
      ufMeasure r p.length x < f1 → ufMeasure r p.length x < f2 →
      rootAux f1 p x = rootAux f2 p x := by
  intro k
  induction k with
  | zero =>
      intro x f1 f2 hx hk h1 h2
      match f1, f2, h1, h2 with
      | f1 + 1, f2 + 1, _, _ =>
        simp only [rootAux]
        by_cases hroot : p.getD x x = x
        · rw [if_pos hroot, if_pos hroot]
        · exfalso
          have := ufMeasure_mono r p.length (hinv.2.1 x hx) (hinv.2.2 x hx hroot)
          omega
  | succ k ih =>
      intro x f1 f2 hx hk h1 h2
      match f1, f2, h1, h2 with
      | f1 + 1, f2 + 1, _, _ =>
        simp only [rootAux]
        by_cases hroot : p.getD x x = x
        · rw [if_pos hroot, if_pos hroot]
        · rw [if_neg hroot, if_neg hroot]
          have hpx : p.getD x x < p.length := hinv.2.1 x hx
          have hdec : ufMeasure r p.length (p.getD x x) < ufMeasure r p.length x :=
            ufMeasure_mono r p.length hpx (hinv.2.2 x hx hroot)
          exact ih (p.getD x x) f1 f2 hpx (by omega) (by omega) (by omega)

/-- One unfolding of `rootD`. -/
theorem rootD_step {p r : List Nat} (hinv : UFInv p r) {x : Nat} (hx : x < p.length) :
    rootD p x = if p.getD x x = x then x else rootD p (p.getD x x) := by
  by_cases hroot : p.getD x x = x
  · rw [if_pos hroot]
    unfold rootD
    have hm := ufMeasure_lt r p.length x hx
    match hl : p.length, hm with
    | n + 1, _ =>
      simp only [rootAux]
      rw [if_pos hroot]
  · rw [if_neg hroot]
    have hpx : p.getD x x < p.length := hinv.2.1 x hx
    have hmx := ufMeasure_lt r p.length x hx
    have hmpx := ufMeasure_lt r p.length (p.getD x x) hpx
    have hdec : ufMeasure r p.length (p.getD x x) < ufMeasure r p.length x :=
      ufMeasure_mono r p.length hpx (hinv.2.2 x hx hroot)
    have h1 : rootD p x = rootAux (ufMeasure r p.length x + 1) p x := by
      unfold rootD
      exact rootAux_fuel hinv (ufMeasure r p.length x) x _ _ hx (le_refl _)
        (by omega) (by omega)
    rw [h1]
    simp only [rootAux]
    rw [if_neg hroot]
    unfold rootD
    exact rootAux_fuel hinv (ufMeasure r p.length x) (p.getD x x) _ _ hpx
      (by omega) (by omega) (by omega)

/-- The root is a fixpoint, and in range. -/
theorem rootD_spec {p r : List Nat} (hinv : UFInv p r) :
    ∀ k x, x < p.length → ufMeasure r p.length x ≤ k →
      p.getD (rootD p x) (rootD p x) = rootD p x ∧ rootD p x < p.length := by
  intro k
  induction k with
  | zero =>
      intro x hx hk
      by_cases hroot : p.getD x x = x
      · rw [rootD_step hinv hx, if_pos hroot]
        exact ⟨hroot, hx⟩
      · exfalso
        have := ufMeasure_mono r p.length (hinv.2.1 x hx) (hinv.2.2 x hx hroot)
        omega
  | succ k ih =>
      intro x hx hk
      by_cases hroot : p.getD x x = x
      · rw [rootD_step hinv hx, if_pos hroot]
        exact ⟨hroot, hx⟩
      · rw [rootD_step hinv hx, if_neg hroot]
        have hpx : p.getD x x < p.length := hinv.2.1 x hx
        have hdec : ufMeasure r p.length (p.getD x x) < ufMeasure r p.length x :=
          ufMeasure_mono r p.length hpx (hinv.2.2 x hx hroot)
        exact ih (p.getD x x) hpx (by omega)

theorem rootD_of_root {p r : List Nat} (hinv : UFInv p r) {x : Nat} (hx : x < p.length)
    (hroot : p.getD x x = x) : rootD p x = x := by
  rw [rootD_step hinv hx, if_pos hroot]

theorem getD_set_eq (l : List Nat) (i v d : Nat) (h : i < l.length) :
    (l.set i v).getD i d = v := by
  rw [List.getD_eq_getElem _ _ (by simpa using h)]
  simp [List.getElem_set]

theorem getD_set_ne (l : List Nat) (i j v d : Nat) (h : i ≠ j) :
    (l.set i v).getD j d = l.getD j d := by
  by_cases hj : j < l.length
  · rw [List.getD_eq_getElem _ _ (by simpa using hj), List.getD_eq_getElem _ _ hj]
    simp [List.getElem_set, h]
  · rw [List.getD_eq_default _ _ (by simpa using Nat.le_of_not_lt hj),
      List.getD_eq_default _ _ (Nat.le_of_not_lt hj)]

/-- One path-halving write preserves the union-by-rank invariant. -/
theorem halve_inv {p r : List Nat} (hinv : UFInv p r) {cur : Nat}
    (hcur : cur < p.length) (hnr : p.getD cur cur ≠ cur) :
    UFInv (p.set cur (p.getD (p.getD cur cur) (p.getD cur cur))) r := by
  set pc := p.getD cur cur with hpc
  set gp := p.getD pc pc with hgp
  have hpcn : pc < p.length := hinv.2.1 cur hcur
  have hgpn : gp < p.length := hinv.2.1 pc hpcn
  have hrank1 : r.getD cur 0 < r.getD pc 0 := hinv.2.2 cur hcur hnr
  have hrankgp : r.getD cur 0 < r.getD gp 0 := by
    by_cases hroot : p.getD pc pc = pc
    · rw [hgp, hroot]
      exact hrank1
    · exact lt_trans hrank1 (hinv.2.2 pc hpcn hroot)
  refine ⟨by simpa using hinv.1, ?_, ?_⟩
  · intro x hx
    simp only [List.length_set] at hx
    by_cases hxc : cur = x
    · subst hxc
      rw [getD_set_eq _ _ _ _ hcur]
      simpa using hgpn
    · rw [getD_set_ne _ _ _ _ _ hxc]
      simpa using hinv.2.1 x hx
  · intro x hx hne
    simp only [List.length_set] at hx
    by_cases hxc : cur = x
    · subst hxc
      rw [getD_set_eq _ _ _ _ hcur] at hne ⊢
      exact hrankgp
    · rw [getD_set_ne _ _ _ _ _ hxc] at hne ⊢
      exact hinv.2.2 x hx hne

/-- One path-halving write preserves every node's root. -/
theorem halve_roots {p r : List Nat} (hinv : UFInv p r) {cur : Nat}
    (hcur : cur < p.length) (hnr : p.getD cur cur ≠ cur) :
    ∀ k y, y < p.length → ufMeasure r p.length y ≤ k →
      rootD (p.set cur (p.getD (p.getD cur cur) (p.getD cur cur))) y = rootD p y := by
  set pc := p.getD cur cur with hpc
  set gp := p.getD pc pc with hgp
  set p1 := p.set cur gp with hp1
  have hpcn : pc < p.length := hinv.2.1 cur hcur
  have hgpn : gp < p.length := hinv.2.1 pc hpcn
  have hinv1 : UFInv p1 r := halve_inv hinv hcur hnr
  have hlen : p1.length = p.length := by simp [hp1]
  have hrank1 : r.getD cur 0 < r.getD pc 0 := hinv.2.2 cur hcur hnr
  have hrankgp : r.getD cur 0 < r.getD gp 0 := by
    by_cases hroot : p.getD pc pc = pc
    · rw [hgp, hroot]
      exact hrank1
    · exact lt_trans hrank1 (hinv.2.2 pc hpcn hroot)
  have hgc : gp ≠ cur := by
    intro hc
    rw [hc] at hrankgp
    omega
  have hrcur : rootD p cur = rootD p gp := by
    rw [rootD_step hinv hcur, if_neg hnr, ← hpc]
    by_cases hroot : p.getD pc pc = pc
    · rw [hgp, hroot]
    · rw [rootD_step hinv hpcn, if_neg hroot, ← hgp]
  intro k
  induction k with
  | zero =>
      intro y hy hk
      by_cases hroot : p.getD y y = y
      · have hyc : cur ≠ y := by
          intro hc
          subst hc
          exact hnr hroot
        have hr1 : p1.getD y y = y := by
          rw [hp1, getD_set_ne _ _ _ _ _ hyc]
          exact hroot
        rw [rootD_of_root hinv1 (by omega) hr1, rootD_of_root hinv hy hroot]
      · exfalso
        have := ufMeasure_mono r p.length (hinv.2.1 y hy) (hinv.2.2 y hy hroot)
        omega
  | succ k ih =>
      intro y hy hk
      by_cases hroot : p.getD y y = y
      · have hyc : cur ≠ y := by
          intro hc
          subst hc
          exact hnr hroot
        have hr1 : p1.getD y y = y := by
          rw [hp1, getD_set_ne _ _ _ _ _ hyc]
          exact hroot
        rw [rootD_of_root hinv1 (by omega) hr1, rootD_of_root hinv hy hroot]
      · by_cases hyc : cur = y
        · subst hyc
          have h1 : p1.getD cur cur = gp := by
            rw [hp1]
            exact getD_set_eq _ _ _ _ hcur
          have hstep1 : rootD p1 cur = rootD p1 gp := by
            rw [rootD_step hinv1 (by omega), h1, if_neg hgc]
          have hmgp : ufMeasure r p.length gp < ufMeasure r p.length cur :=
            ufMeasure_mono r p.length hgpn hrankgp
          rw [hstep1, ih gp hgpn (by omega), hrcur]
        · have h1 : p1.getD y y = p.getD y y := by
            rw [hp1]
            exact getD_set_ne _ _ _ _ _ hyc
          have hpyn : p.getD y y < p.length := hinv.2.1 y hy
          have hstep1 : rootD p1 y = rootD p1 (p.getD y y) := by
            rw [rootD_step hinv1 (by omega), h1, if_neg hroot]
          have hstep2 : rootD p y = rootD p (p.getD y y) := by
            rw [rootD_step hinv hy, if_neg hroot]
          have hm : ufMeasure r p.length (p.getD y y) < ufMeasure r p.length y :=
            ufMeasure_mono r p.length hpyn (hinv.2.2 y hy hroot)
          rw [hstep1, hstep2, ih (p.getD y y) hpyn (by omega)]

/-- Full correctness of the mutating `findAux`: with enough fuel it returns
the root, preserves the invariant, the length, and every node's root. -/
theorem findAux_spec {r : List Nat} (n : Nat) :
    ∀ fuel p x, p.length = n → UFInv p r → x < n → ufMeasure r n x < fuel →
      (findAux fuel p x).2 = rootD p x ∧
      (findAux fuel p x).1.length = n ∧
      UFInv (findAux fuel p x).1 r ∧
      (∀ y, y < n → rootD (findAux fuel p x).1 y = rootD p y) := by
  intro fuel
  induction fuel with
  | zero => intro p x hlen hinv hx hm; omega
  | succ fuel ih =>
      intro p x hlen hinv hx hm
      simp only [findAux]
      by_cases hroot : p.getD x x = x
      · rw [if_pos hroot]
        subst hlen
        refine ⟨(rootD_of_root hinv hx hroot).symm, rfl, hinv, fun y _ => rfl⟩
      · rw [if_neg hroot]
        subst hlen
        set pc := p.getD x x with hpc
        set gp := p.getD pc pc with hgp
        set p1 := p.set x gp with hp1
        have hpcn : pc < p.length := hinv.2.1 x hx
        have hgpn : gp < p.length := hinv.2.1 pc hpcn
        have hinv1 : UFInv p1 r := halve_inv hinv hx hroot
        have hlen1 : p1.length = p.length := by simp [hp1]
        have hrankgp : r.getD x 0 < r.getD gp 0 := by
          by_cases hr2 : p.getD pc pc = pc
          · rw [hgp, hr2]
            exact hinv.2.2 x hx hroot
          · exact lt_trans (hinv.2.2 x hx hroot) (hinv.2.2 pc hpcn hr2)
        have hmgp : ufMeasure r p.length gp < ufMeasure r p.length x :=
          ufMeasure_mono r p.length hgpn hrankgp
        have hroots1 : ∀ y, y < p.length → rootD p1 y = rootD p y := by
          intro y hy
          exact halve_roots hinv hx hroot (ufMeasure r p.length y) y hy (le_refl _)
        obtain ⟨hret, hlen2, hinv2, hroots2⟩ :=
          ih p1 gp (by omega) hinv1 (by omega) (by omega)
        refine ⟨?_, hlen2, hinv2, ?_⟩
        · rw [hret, hroots1 gp hgpn]
          have : rootD p x = rootD p gp := by
            rw [rootD_step hinv hx, if_neg hroot, ← hpc]
            by_cases hr2 : p.getD pc pc = pc
            · rw [hgp, hr2]
            · rw [rootD_step hinv hpcn, if_neg hr2, ← hgp]
          rw [this]
        · intro y hy
          rw [hroots2 y hy, hroots1 y hy]

/-- `ufFind` (fuel = `parent.length`) computes the root and preserves the
invariant and all roots. -/
theorem ufFind_spec {p r : List Nat} (hinv : UFInv p r) {x : Nat} (hx : x < p.length) :
    (ufFind p x).2 = rootD p x ∧
      (ufFind p x).1.length = p.length ∧
      UFInv (ufFind p x).1 r ∧
      (∀ y, y < p.length → rootD (ufFind p x).1 y = rootD p y) :=
  findAux_spec p.length p.length p x rfl hinv hx (ufMeasure_lt r p.length x hx)

/-- Linking root `rb` under root `ra` (with `rank rb ≤ rank ra`, and the
equal-rank increment) preserves the invariant. -/
theorem link_inv {p2 r : List Nat} (hinv : UFInv p2 r) {ra rb : Nat}
    (hra : ra < p2.length) (hrb : rb < p2.length) (hne : ra ≠ rb)
    (hrootA : p2.getD ra ra = ra) (_hrootB : p2.getD rb rb = rb)
    (hrk : r.getD rb 0 ≤ r.getD ra 0) :
    UFInv (p2.set rb ra)
      (if r.getD ra 0 = r.getD rb 0 then r.set ra (r.getD ra 0 + 1) else r) := by
  have hral : ra < r.length := by
    rw [← hinv.1]
    exact hra
  have hr3 : ∀ y, (if r.getD ra 0 = r.getD rb 0 then r.set ra (r.getD ra 0 + 1)
      else r).getD y 0 =
      if (r.getD ra 0 = r.getD rb 0) ∧ y = ra then r.getD y 0 + 1 else r.getD y 0 := by
    intro y
    by_cases hinc : r.getD ra 0 = r.getD rb 0
    · rw [if_pos hinc]
      by_cases hy : y = ra
      · subst hy
        rw [if_pos ⟨hinc, rfl⟩]
        exact getD_set_eq _ _ _ _ hral
      · rw [if_neg (by tauto)]
        exact getD_set_ne _ _ _ _ _ (fun hc => hy hc.symm)
    · rw [if_neg hinc, if_neg (by tauto)]
  refine ⟨?_, ?_, ?_⟩
  · by_cases hinc : r.getD ra 0 = r.getD rb 0
    · rw [if_pos hinc]
      simp [hinv.1]
    · rw [if_neg hinc]
      simp [hinv.1]
  · intro x hx
    simp only [List.length_set] at hx ⊢
    by_cases hxb : rb = x
    · subst hxb
      rw [getD_set_eq _ _ _ _ hrb]
      exact hra
    · rw [getD_set_ne _ _ _ _ _ hxb]
      exact hinv.2.1 x hx
  · intro x hx hne'
    simp only [List.length_set] at hx
    rw [hr3, hr3]
    by_cases hxb : rb = x
    · subst hxb
      rw [getD_set_eq _ _ _ _ hrb] at hne' ⊢
      by_cases hinc : r.getD ra 0 = r.getD rb 0
      · rw [if_neg (by rintro ⟨_, h⟩; exact hne h.symm), if_pos ⟨hinc, rfl⟩]
        omega
      · rw [if_neg (by rintro ⟨_, h⟩; exact hne h.symm), if_neg (by tauto)]
        omega
    · rw [getD_set_ne _ _ _ _ _ hxb] at hne' ⊢
      have hxa : x ≠ ra := by
        intro hc
        subst hc
        exact hne' hrootA
      have h0 := hinv.2.2 x hx hne'
      rw [if_neg (by tauto)]
      by_cases hpa : (r.getD ra 0 = r.getD rb 0) ∧ p2.getD x x = ra
      · rw [if_pos hpa]
        omega
      · rw [if_neg hpa]
        exact h0

/-- Linking root `rb` under root `ra` maps every root through the
substitution `rb ↦ ra` and changes no other root. -/
theorem link_roots {p2 r r3 : List Nat} (hinv2 : UFInv p2 r) {ra rb : Nat}
    (hinv3 : UFInv (p2.set rb ra) r3)
    (hra : ra < p2.length) (hrb : rb < p2.length) (hne : ra ≠ rb)
    (_hrootA : p2.getD ra ra = ra) (hrootB : p2.getD rb rb = rb) :
    ∀ k y, y < p2.length → ufMeasure r3 p2.length y ≤ k →
      rootD (p2.set rb ra) y = if rootD p2 y = rb then ra else rootD p2 y := by
  have hlen3 : (p2.set rb ra).length = p2.length := by simp
  have hcore : ∀ k, (∀ y, y < p2.length → ufMeasure r3 p2.length y ≤ k →
      rootD (p2.set rb ra) y = if rootD p2 y = rb then ra else rootD p2 y) := by
    intro k
    induction k with
    | zero =>
        intro y hy hk
        by_cases hyb : y = rb
        · rw [hyb] at hk
          exfalso
          have h3 : (p2.set rb ra).getD rb rb = ra := getD_set_eq _ _ _ _ hrb
          have hnr3 : (p2.set rb ra).getD rb rb ≠ rb := by
            rw [h3]
            exact hne
          have := @ufMeasure_mono r3 p2.length rb ((p2.set rb ra).getD rb rb)
            (by rw [h3]; exact hra)
            (hinv3.2.2 rb (by omega) hnr3)
          omega
        · by_cases hroot : p2.getD y y = y
          · have h3 : (p2.set rb ra).getD y y = y := by
              rw [getD_set_ne _ _ _ _ _ (fun hc => hyb hc.symm)]
              exact hroot
            rw [rootD_of_root hinv3 (by omega) h3, rootD_of_root hinv2 hy hroot,
              if_neg hyb]
          · exfalso
            have hnr3 : (p2.set rb ra).getD y y ≠ y := by
              rw [getD_set_ne _ _ _ _ _ (fun hc => hyb hc.symm)]
              exact hroot
            have := @ufMeasure_mono r3 p2.length y ((p2.set rb ra).getD y y)
              (by
                have := hinv3.2.1 y (by omega)
                simpa using this)
              (hinv3.2.2 y (by omega) hnr3)
            omega
    | succ k ih =>
        intro y hy hk
        by_cases hyb : y = rb
        · rw [hyb]
          have h3 : (p2.set rb ra).getD rb rb = ra := getD_set_eq _ _ _ _ hrb
          have hstep : rootD (p2.set rb ra) rb = rootD (p2.set rb ra) ra := by
            rw [@rootD_step _ _ hinv3 rb (by omega), h3, if_neg hne]
          have hra3 : (p2.set rb ra).getD ra ra = ra := by
            rw [getD_set_ne _ _ _ _ _ (fun hc => hne hc.symm)]
            exact _hrootA
          rw [hstep, rootD_of_root hinv3 (by omega) hra3,
            rootD_of_root hinv2 hrb hrootB, if_pos rfl]
        · by_cases hroot : p2.getD y y = y
          · have h3 : (p2.set rb ra).getD y y = y := by
              rw [getD_set_ne _ _ _ _ _ (fun hc => hyb hc.symm)]
              exact hroot
            rw [rootD_of_root hinv3 (by omega) h3, rootD_of_root hinv2 hy hroot,
              if_neg hyb]
          · have h3 : (p2.set rb ra).getD y y = p2.getD y y := by
              rw [getD_set_ne _ _ _ _ _ (fun hc => hyb hc.symm)]
            have hpyn : p2.getD y y < p2.length := hinv2.2.1 y hy
            have hnr3 : (p2.set rb ra).getD y y ≠ y := by
              rw [h3]
              exact hroot
            have hm : ufMeasure r3 p2.length (p2.getD y y) < ufMeasure r3 p2.length y := by
              have := hinv3.2.2 y (by omega) hnr3
              rw [h3] at this
              exact ufMeasure_mono r3 p2.length hpyn this
            have hstep3 : rootD (p2.set rb ra) y = rootD (p2.set rb ra) (p2.getD y y) := by
              rw [@rootD_step _ _ hinv3 y (by omega), h3, if_neg hroot]
            have hstep2 : rootD p2 y = rootD p2 (p2.getD y y) := by
              rw [rootD_step hinv2 hy, if_neg hroot]
            rw [hstep3, hstep2, ih (p2.getD y y) hpyn (by omega)]
  exact hcore

/-- Correctness of `union(a, b)`: the invariant is preserved; a same-root
union returns `false` and changes neither the rank array nor any root
(parent pointers may move by path halving); a merging union returns `true`
and makes the roots of `a` and `b` equal. -/
theorem ufUnion_spec {p r : List Nat} (hinv : UFInv p r) {a b : Nat}
    (ha : a < p.length) (hb : b < p.length) :
    (ufUnion p r a b).1.length = p.length ∧
      UFInv (ufUnion p r a b).1 (ufUnion p r a b).2.1 ∧
      (rootD p a = rootD p b →
        (ufUnion p r a b).2.2 = false ∧ (ufUnion p r a b).2.1 = r ∧
        (∀ y, y < p.length → rootD (ufUnion p r a b).1 y = rootD p y)) ∧
      (rootD p a ≠ rootD p b →
        (ufUnion p r a b).2.2 = true ∧
        rootD (ufUnion p r a b).1 a = rootD (ufUnion p r a b).1 b) := by
  unfold ufUnion
  rcases hf1 : ufFind p a with ⟨p1, ra⟩
  have hs1 := ufFind_spec hinv ha
  simp only [hf1] at hs1
  obtain ⟨hra, hlen1, hinv1, hroots1⟩ := hs1
  rcases hf2 : ufFind p1 b with ⟨p2, rb⟩
  have hs2 := @ufFind_spec _ _ hinv1 b (by omega)
  simp only [hf2] at hs2
  obtain ⟨hrb, hlen2, hinv2, hroots2⟩ := hs2
  simp only [hf1, hf2]
  have hrb' : rb = rootD p b := by
    rw [hrb, hroots1 b (by omega)]
  have hr2a : rootD p2 a = ra := by
    rw [hroots2 a (by omega), hroots1 a (by omega), hra]
  have hr2b : rootD p2 b = rb := by
    rw [hroots2 b (by omega), hrb]
  have hran : ra < p.length := by
    have := (rootD_spec hinv (ufMeasure r p.length a) a ha (le_refl _)).2
    omega
  have hrbn : rb < p.length := by
    have := (rootD_spec hinv (ufMeasure r p.length b) b hb (le_refl _)).2
    rw [hrb', ← hra] at *
    rw [hrb']
    omega
  have hfixa : p2.getD ra ra = ra := by
    have := (rootD_spec hinv2 (ufMeasure r p2.length a) a (by omega) (le_refl _)).1
    rw [hr2a] at this
    exact this
  have hfixb : p2.getD rb rb = rb := by
    have := (rootD_spec hinv2 (ufMeasure r p2.length b) b (by omega) (le_refl _)).1
    rw [hr2b] at this
    exact this
  by_cases hrr : ra = rb
  · rw [if_pos hrr]
    dsimp only
    refine ⟨by omega, hinv2, ?_, ?_⟩
    · intro _
      refine ⟨rfl, rfl, ?_⟩
      intro y hy
      show rootD p2 y = rootD p y
      rw [hroots2 y (by omega), hroots1 y (by omega)]
    · intro hne
      exfalso
      exact hne (by rw [← hra, ← hrb', hrr])
  · rw [if_neg hrr]
    by_cases hsw : r.getD ra 0 < r.getD rb 0
    · rw [if_pos hsw]
      dsimp only
      have hinv3 := @link_inv _ _ hinv2 rb ra (by omega) (by omega)
        (fun hc => hrr hc.symm) hfixb hfixa (le_of_lt hsw)
      have hmaps := @link_roots _ _ _ hinv2 rb ra hinv3 (by omega) (by omega)
        (fun hc => hrr hc.symm) hfixb hfixa
      refine ⟨by simpa using hlen2.trans hlen1, hinv3, ?_, ?_⟩
      · intro hsame
        exfalso
        exact hrr (by rw [hra, hrb', hsame])
      · intro _
        refine ⟨rfl, ?_⟩
        have h3a := hmaps (ufMeasure (if r.getD rb 0 = r.getD ra 0 then
            r.set rb (r.getD rb 0 + 1) else r) p2.length a) a (by omega) (le_refl _)
        have h3b := hmaps (ufMeasure (if r.getD rb 0 = r.getD ra 0 then
            r.set rb (r.getD rb 0 + 1) else r) p2.length b) b (by omega) (le_refl _)
        rw [hr2a] at h3a
        rw [hr2b] at h3b
        rw [h3a, h3b, if_pos rfl, if_neg (fun hc => hrr hc.symm)]
    · rw [if_neg hsw]
      dsimp only
      have hrk : r.getD rb 0 ≤ r.getD ra 0 := le_of_not_lt hsw
      have hinv3 := @link_inv _ _ hinv2 ra rb (by omega) (by omega)
        hrr hfixa hfixb hrk
      have hmaps := @link_roots _ _ _ hinv2 ra rb hinv3 (by omega) (by omega)
        hrr hfixa hfixb
      refine ⟨by simpa using hlen2.trans hlen1, hinv3, ?_, ?_⟩
      · intro hsame
        exfalso
        exact hrr (by rw [hra, hrb', hsame])
      · intro _
        refine ⟨rfl, ?_⟩
        have h3a := hmaps (ufMeasure (if r.getD ra 0 = r.getD rb 0 then
            r.set ra (r.getD ra 0 + 1) else r) p2.length a) a (by omega) (le_refl _)
        have h3b := hmaps (ufMeasure (if r.getD ra 0 = r.getD rb 0 then
            r.set ra (r.getD ra 0 + 1) else r) p2.length b) b (by omega) (le_refl _)
        rw [hr2a] at h3a
        rw [hr2b] at h3b
        rw [h3a, h3b, if_pos rfl, if_neg hrr]

/-- The initial state (`parent = identity`, `rank = 0`) satisfies the
invariant. -/
theorem ufInit_inv (n : Nat) : UFInv (List.range n) (List.replicate n 0) := by
  have hget : ∀ x, x < n → (List.range n).getD x x = x := by
    intro x hx
    rw [List.getD_eq_getElem _ _ (by simpa using hx)]
    simp
  refine ⟨by simp, ?_, ?_⟩
  · intro x hx
    simp only [List.length_range] at hx
    rw [hget x hx]
    simpa using hx
  · intro x hx hne
    simp only [List.length_range] at hx
    exact absurd (hget x hx) hne

/-- Processing an edge list preserves the length and the invariant. -/
theorem ufEdges_inv (l : List (Int × Int)) :
    ∀ p r n i steps, p.length = n → UFInv p r →
      (ufEdges p r n i steps l).1.length = n ∧
        UFInv (ufEdges p r n i steps l).1 (ufEdges p r n i steps l).2.1 := by
  induction l with
  | nil => intro p r n i steps hlen hinv; exact ⟨hlen, hinv⟩
  | cons e rest ih =>
      intro p r n i steps hlen hinv
      rcases e with ⟨u, v⟩
      unfold ufEdges
      by_cases hc : u < 0 ∨ (n : Int) ≤ u ∨ v < 0 ∨ (n : Int) ≤ v
      · rw [if_pos hc]
        exact ih _ _ _ _ _ hlen hinv
      · rw [if_neg hc]
        push_neg at hc
        have hun : u.toNat < p.length := by omega
        have hvn : v.toNat < p.length := by omega
        rcases hu : ufUnion p r u.toNat v.toNat with ⟨p', r', merged⟩
        have hspec := ufUnion_spec hinv hun hvn
        simp only [hu] at hspec
        simp only [hu]
        exact ih _ _ _ _ _ (by omega) hspec.2.1

/-- Definitional unfoldings of `ufEdges`. -/
theorem ufEdges_nil (p r : List Nat) (n i : Nat) (steps : List Step) :
    ufEdges p r n i steps [] = (p, r, steps) := rfl

theorem ufEdges_cons (p r : List Nat) (n i : Nat) (steps : List Step)
    (u v : Int) (rest : List (Int × Int)) :
    ufEdges p r n i steps ((u, v) :: rest) =
      if u < 0 ∨ (n : Int) ≤ u ∨ v < 0 ∨ (n : Int) ≤ v then
        ufEdges p r n (i + 1) steps rest
      else
        match ufUnion p r u.toNat v.toNat with
        | (p', r', merged) =>
          ufEdges p' r' n (i + 1)
            (pushStep steps (fun m =>
              { step := m, edgeIndex := some i, edge := some (u, v),
                action := if merged then "union components" else "already connected",
                parent := some p', rank := some r' })) rest := rfl

/-- Splitting an edge list splits the fold. -/
theorem ufEdges_append_edges (l1 l2 : List (Int × Int)) :
    ∀ p r n i steps,
      ufEdges p r n i steps (l1 ++ l2) =
        ufEdges (ufEdges p r n i steps l1).1 (ufEdges p r n i steps l1).2.1 n
          (i + l1.length) (ufEdges p r n i steps l1).2.2 l2 := by
  induction l1 with
  | nil => intro p r n i steps; simp [ufEdges]
  | cons e rest ih =>
      intro p r n i steps
      rcases e with ⟨u, v⟩
      rw [List.cons_append, ufEdges_cons, ufEdges_cons]
      by_cases hc : u < 0 ∨ (n : Int) ≤ u ∨ v < 0 ∨ (n : Int) ≤ v
      · rw [if_pos hc, if_pos hc]
        rw [ih]
        simp only [List.length_cons,
          show i + 1 + rest.length = i + (rest.length + 1) from by omega]
      · rw [if_neg hc, if_neg hc]
        rcases hu : ufUnion p r u.toNat v.toNat with ⟨p', r', merged⟩
        simp only [hu]
        rw [ih]
        simp only [List.length_cons,
          show i + 1 + rest.length = i + (rest.length + 1) from by omega]

theorem pushStep_getLast (steps : List Step) (f : Nat → Step) :
    (pushStep steps f).getLast? = some (f steps.length) := by
  unfold pushStep
  exact List.getLast?_concat _

/-- Every step pushed while processing edges carries one of the two edge
actions, never the connectivity-query action. -/
theorem ufEdges_actions (l : List (Int × Int)) :
    ∀ p r n i steps,
      (∀ s ∈ steps, s.action ≠ "connectivity query") →
      ∀ s ∈ (ufEdges p r n i steps l).2.2, s.action ≠ "connectivity query" := by
  induction l with
  | nil => intro p r n i steps h; exact h
  | cons e rest ih =>
      intro p r n i steps h
      rcases e with ⟨u, v⟩
      unfold ufEdges
      by_cases hc : u < 0 ∨ (n : Int) ≤ u ∨ v < 0 ∨ (n : Int) ≤ v
      · rw [if_pos hc]
        exact ih _ _ _ _ _ h
      · rw [if_neg hc]
        rcases hu : ufUnion p r u.toNat v.toNat with ⟨p', r', merged⟩
        simp only [hu]
        refine ih _ _ _ _ _ ?_
        intro s hs
        unfold pushStep at hs
        rcases List.mem_append.mp hs with h1 | h1
        · exact h s h1
        · simp only [List.mem_singleton] at h1
          subst h1
          show (if merged = true then "union components" else "already connected") ≠ _
          by_cases hm : merged = true
          · rw [if_pos hm]
            decide
          · rw [if_neg hm]
            decide

/-! ## Remaining small helpers -/

theorem simres_result {R : Type} (s : List Step) (r : R) :
    (SimResult.mk s r).result = r := rfl

theorem simulateBinarySearch_result (nums : List Int) (target : Int) :
    (simulateBinarySearch nums target).result =
      (bsLoop (nums.length + 1) nums target 0 nums.length []).1 := by
  unfold simulateBinarySearch
  rcases hb : bsLoop (nums.length + 1) nums target 0 nums.length [] with ⟨lo, steps⟩
  simp [hb]

/-- Disjoint non-touching intervals with start ≤ end have strictly
increasing starts. -/
theorem chainLT_of_chain2 : ∀ (R : List (Int × Int)),
    (∀ p ∈ R, p.1 ≤ p.2) → Chain2 R → List.Chain' (fun a b => a.1 < b.1) R
  | [] => fun _ _ => List.chain'_nil
  | [a] => fun _ _ => List.chain'_singleton a
  | a :: b :: rest => fun hok hch => by
      unfold Chain2 at hch
      rw [List.chain'_cons] at hch ⊢
      refine ⟨?_, ?_⟩
      · have ha := hok a (List.mem_cons_self _ _)
        omega
      · exact chainLT_of_chain2 (b :: rest)
          (fun p hp => hok p (List.mem_cons_of_mem _ hp)) hch.2

namespace Claims

/-! # The frozen claims

Each claim of the specification is settled by exactly one theorem below
(with its witness or counterexample where applicable). -/

/-- C1: for every array `nums` sorted in non-decreasing order and every
integer `target`, `simulateBinarySearch(nums, target).result` equals the
smallest index `i` such that `nums[i] >= target`, or `nums.length` when no
such index exists (lower-bound semantics). -/
theorem C1_binary_search_lower_bound (nums : List Int) (target : Int)
    (hs : List.Chain' (· ≤ ·) nums) :
    (simulateBinarySearch nums target).result = lowerBoundSpec nums target := by
  have hp : List.Pairwise (· ≤ ·) nums := List.chain'_iff_pairwise.mp hs
  rw [simulateBinarySearch_result]
  have h := bsLoop_correct nums target hp (nums.length + 1) 0 nums.length []
    (le_refl _) (Nat.zero_le _) (by omega)
    (by intro j hj _; omega)
    (by intro j hj hjl; omega)
  exact lowerBound_unique nums target _ h.1 h.2.1 h.2.2

theorem C1_witness :
    List.Chain' (· ≤ ·) ([1, 2, 2, 2, 4, 5] : List Int) ∧
      (simulateBinarySearch [1, 2, 2, 2, 4, 5] 2).result = 1 :=
  ⟨by norm_num [List.chain'_cons],
    by
      rw [C1_binary_search_lower_bound [1, 2, 2, 2, 4, 5] 2
        (by norm_num [List.chain'_cons])]
      decide⟩

/-- C2: for every simulator in the library (all nineteen) and every input,
the returned trace satisfies `steps[i].step = i` for every index `i` of the
steps array: the recorded sequence numbers are exactly 0, 1, 2, ... in
order with no gaps or repeats. -/
theorem C2_step_numbers_contiguous :
    (∀ nums, indexed (simulateHashDuplicate nums).steps) ∧
    (∀ nums, indexed (simulateHashFrequency nums).steps) ∧
    (∀ nums k, indexed (simulateSlidingWindow nums k).steps) ∧
    (∀ nums target, indexed (simulateBinarySearch nums target).steps) ∧
    (∀ n, indexed (simulateFibMemo n).steps) ∧
    (∀ intervals, indexed (simulateIntervalsMerge intervals).steps) ∧
    (∀ nums k, indexed (simulateHeapTopK nums k).steps) ∧
    (∀ nodeCount edges, indexed (simulateTopologicalSort nodeCount edges).steps) ∧
    (∀ nodeCount edges queryA queryB,
      indexed (simulateUnionFind nodeCount edges queryA queryB).steps) ∧
    (∀ nums target, indexed (simulateBacktrackingSubsetSum nums target).steps) ∧
    (∀ nums target, indexed (simulateTwoPointers nums target).steps) ∧
    (∀ text, indexed (simulateStackParens text).steps) ∧
    (∀ rows cols blocked start, indexed (simulateBfsGrid rows cols blocked start).steps) ∧
    (∀ nodeCount edges start, indexed (simulateDfsGraph nodeCount edges start).steps) ∧
    (∀ nums updates queryL queryR,
      indexed (simulatePrefixDifference nums updates queryL queryR).steps) ∧
    (∀ nums k, indexed (simulateMonotonicWindowMax nums k).steps) ∧
    (∀ words pfx, indexed (simulateTriePrefix words pfx).steps) ∧
    (∀ intervals, indexed (simulateGreedyIntervalScheduling intervals).steps) ∧
    (∀ nodeCount edges start, indexed (simulateDijkstra nodeCount edges start).steps) :=
  ⟨simulateHashDuplicate_indexed, simulateHashFrequency_indexed,
    simulateSlidingWindow_indexed, simulateBinarySearch_indexed,
    simulateFibMemo_indexed, simulateIntervalsMerge_indexed,
    simulateHeapTopK_indexed, simulateTopologicalSort_indexed,
    simulateUnionFind_indexed, simulateBacktrackingSubsetSum_indexed,
    simulateTwoPointers_indexed, simulateStackParens_indexed,
    simulateBfsGrid_indexed, simulateDfsGraph_indexed,
    simulatePrefixDifference_indexed, simulateMonotonicWindowMax_indexed,
    simulateTriePrefix_indexed, simulateGreedyIntervalScheduling_indexed,
    simulateDijkstra_indexed⟩

theorem C2_witness :
    indexed (simulateHashDuplicate [2, 7, 11, 7, 3, 11]).steps ∧
      indexed (simulateBacktrackingSubsetSum [3, 34, 4, 12, 5, 2] 9).steps :=
  ⟨C2_step_numbers_contiguous.1 _,
    C2_step_numbers_contiguous.2.2.2.2.2.2.2.2.2.1 _ _⟩

/-- C3 (counterexample): as stated, the claim is false — both
`simulateHashFrequency` and `simulateSlidingWindow` return an empty trace
on an empty input array instead of at least one explanatory step. -/
theorem C3_counterexample :
    (simulateHashFrequency []).steps = [] ∧ (simulateSlidingWindow [] 5).steps = [] :=
  ⟨rfl, rfl⟩

/-- C3 (amended): every simulator in the library (all nineteen) returns a
finite steps list, and it is non-empty — except `simulateHashFrequency` and
`simulateSlidingWindow` on an empty `nums` array, which return an empty
trace (they have no degenerate-input guard); the other seventeen return at
least one step on every input. -/
theorem C3_steps_nonempty :
    (∀ nums, nums ≠ [] → (simulateHashFrequency nums).steps ≠ []) ∧
    (∀ nums k, nums ≠ [] → (simulateSlidingWindow nums k).steps ≠ []) ∧
    (∀ nums, (simulateHashDuplicate nums).steps ≠ []) ∧
    (∀ nums target, (simulateBinarySearch nums target).steps ≠ []) ∧
    (∀ n, (simulateFibMemo n).steps ≠ []) ∧
    (∀ intervals, (simulateIntervalsMerge intervals).steps ≠ []) ∧
    (∀ nums k, (simulateHeapTopK nums k).steps ≠ []) ∧
    (∀ nodeCount edges, (simulateTopologicalSort nodeCount edges).steps ≠ []) ∧
    (∀ nodeCount edges queryA queryB,
      (simulateUnionFind nodeCount edges queryA queryB).steps ≠ []) ∧
    (∀ nums target, (simulateBacktrackingSubsetSum nums target).steps ≠ []) ∧
    (∀ nums target, (simulateTwoPointers nums target).steps ≠ []) ∧
    (∀ text, (simulateStackParens text).steps ≠ []) ∧
    (∀ rows cols blocked start, (simulateBfsGrid rows cols blocked start).steps ≠ []) ∧
    (∀ nodeCount edges start, (simulateDfsGraph nodeCount edges start).steps ≠ []) ∧
    (∀ nums updates queryL queryR,
      (simulatePrefixDifference nums updates queryL queryR).steps ≠ []) ∧
    (∀ nums k, (simulateMonotonicWindowMax nums k).steps ≠ []) ∧
    (∀ words pfx, (simulateTriePrefix words pfx).steps ≠ []) ∧
    (∀ intervals, (simulateGreedyIntervalScheduling intervals).steps ≠ []) ∧
    (∀ nodeCount edges start, (simulateDijkstra nodeCount edges start).steps ≠ []) :=
  ⟨fun _ h => simulateHashFrequency_ne_nil h,
    fun _ k h => simulateSlidingWindow_ne_nil k h,
    simulateHashDuplicate_ne_nil, simulateBinarySearch_ne_nil,
    simulateFibMemo_ne_nil, simulateIntervalsMerge_ne_nil,
    simulateHeapTopK_ne_nil, simulateTopologicalSort_ne_nil,
    simulateUnionFind_ne_nil, simulateBacktrackingSubsetSum_ne_nil,
    simulateTwoPointers_ne_nil, simulateStackParens_ne_nil,
    simulateBfsGrid_ne_nil, simulateDfsGraph_ne_nil,
    simulatePrefixDifference_ne_nil, simulateMonotonicWindowMax_ne_nil,
    simulateTriePrefix_ne_nil, simulateGreedyIntervalScheduling_ne_nil,
    simulateDijkstra_ne_nil⟩

theorem C3_witness :
    ([1, 2] : List Int) ≠ [] ∧ (simulateHashFrequency [1, 2]).steps ≠ [] :=
  ⟨by decide, C3_steps_nonempty.1 [1, 2] (by decide)⟩

/-- C4 (counterexample): as stated, the claim is false — `simulateSlidingWindow`
has no degenerate-input guard, so an empty input array yields zero steps,
not exactly one; and `simulateFibMemo`'s sentinel for negative `n` is `-1`,
which is not among null, false, 0, []. -/
theorem C4_counterexample :
    (simulateSlidingWindow [] 5).steps.length = 0 ∧ (simulateFibMemo (-1)).result = -1 :=
  ⟨rfl, rfl⟩

/-- C4 (amended): no simulator throws on a degenerate input, and every
simulator with an explicit degenerate-input guard returns a trace of
exactly one explanatory step together with a sentinel result: fibonacci
`n < 0` → sentinel `-1` (NOT among null/false/0/[]); heap-top-k `k ≤ 0` and
monotonic-window-max `k ≤ 0` or empty array → `[]`; zero-node topological
sort → the bare array `[]` (the raw `[]` literal of
`algorithms.ts` line 506, not an `{order, hasCycle}` record); zero-node
union-find → `false`; zero-size grid or blocked-start BFS → `0`;
out-of-range start for graph DFS → `0` and for Dijkstra (and zero-node
Dijkstra) → `[]`; empty arrays for two-pointers → `false`,
prefix-difference → the literal `0`, interval merge → `[]` and greedy
scheduling → `[]`.  `simulateSlidingWindow` has no guard and returns an
EMPTY trace with result `0` on an empty input array. -/
theorem C4_degenerate_guards :
    (∀ n : Int, n < 0 →
      simulateFibMemo n = ⟨[{ step := 0, action := "invalid n: must be >= 0" }], -1⟩) ∧
    (∀ nums k, k ≤ 0 →
      simulateHeapTopK nums k = ⟨[{ step := 0, action := "invalid k: must be > 0" }], []⟩) ∧
    (∀ edges, simulateTopologicalSort 0 edges =
      ⟨[{ step := 0, action := "empty graph" }], .emptySentinel⟩) ∧
    (∀ edges queryA queryB, simulateUnionFind 0 edges queryA queryB =
      ⟨[{ step := 0, action := "empty node set" }], false⟩) ∧
    (simulateIntervalsMerge [] = ⟨[{ step := 0, action := "empty intervals" }], []⟩) ∧
    (∀ k, simulateSlidingWindow [] k = ⟨[], 0⟩) ∧
    (∀ target, simulateTwoPointers [] target =
      ⟨[{ step := 0, action := "empty input" }], false⟩) ∧
    (∀ rows cols blocked start, rows ≤ 0 ∨ cols ≤ 0 →
      simulateBfsGrid rows cols blocked start =
        ⟨[{ step := 0, action := "empty grid" }], 0⟩) ∧
    (∀ rows cols (blocked : List String) start, ¬(rows ≤ 0 ∨ cols ≤ 0) →
      blocked.contains (keyCell start.1 start.2) = true →
      simulateBfsGrid rows cols blocked start =
        ⟨[{ step := 0, action := "start blocked" }], 0⟩) ∧
    (∀ (nodeCount : Nat) edges start, start < 0 ∨ (nodeCount : Int) ≤ start →
      simulateDfsGraph nodeCount edges start =
        ⟨[{ step := 0, action := "invalid start node" }], 0⟩) ∧
    (∀ updates queryL queryR, simulatePrefixDifference [] updates queryL queryR =
      ⟨[{ step := 0, action := "empty input" }], .emptySentinel⟩) ∧
    (∀ nums k, k ≤ 0 → simulateMonotonicWindowMax nums k =
      ⟨[{ step := 0, action := "invalid k: must be > 0" }], []⟩) ∧
    (∀ k, 0 < k → simulateMonotonicWindowMax [] k =
      ⟨[{ step := 0, action := "empty input" }], []⟩) ∧
    (simulateGreedyIntervalScheduling [] =
      ⟨[{ step := 0, action := "empty intervals" }], []⟩) ∧
    (∀ edges start, simulateDijkstra 0 edges start =
      ⟨[{ step := 0, action := "empty graph" }], []⟩) ∧
    (∀ (nodeCount : Nat) edges start, nodeCount ≠ 0 →
      start < 0 ∨ (nodeCount : Int) ≤ start →
      simulateDijkstra nodeCount edges start =
        ⟨[{ step := 0, action := "invalid start node" }], []⟩) := by
  refine ⟨?_, ?_, ?_, ?_, rfl, ?_, ?_, ?_, ?_, ?_, ?_, ?_, ?_, rfl, ?_, ?_⟩
  · intro n hn
    unfold simulateFibMemo
    rw [if_pos hn]
  · intro nums k hk
    unfold simulateHeapTopK
    rw [if_pos hk]
  · intro edges
    unfold simulateTopologicalSort
    rw [if_pos rfl]
  · intro edges queryA queryB
    unfold simulateUnionFind
    rw [if_pos rfl]
  · intro k
    rfl
  · intro target
    rfl
  · intro rows cols blocked start h
    unfold simulateBfsGrid
    rw [if_pos h]
  · intro rows cols blocked start h1 h2
    unfold simulateBfsGrid
    rw [if_neg h1, if_pos h2]
  · intro nodeCount edges start h
    unfold simulateDfsGraph
    rw [if_pos h]
  · intro updates queryL queryR
    rfl
  · intro nums k hk
    unfold simulateMonotonicWindowMax
    rw [if_pos hk]
  · intro k hk
    unfold simulateMonotonicWindowMax
    rw [if_neg (by omega)]
    rfl
  · intro edges start
    unfold simulateDijkstra
    rw [if_pos rfl]
  · intro nodeCount edges start hn hs
    unfold simulateDijkstra
    rw [if_neg hn, if_pos hs]

theorem C4_witness :
    (-3 : Int) < 0 ∧
      simulateFibMemo (-3) = ⟨[{ step := 0, action := "invalid n: must be >= 0" }], -1⟩ :=
  ⟨by decide, C4_degenerate_guards.1 (-3) (by decide)⟩

/-- C5 (counterexample): as stated, the claim is false — processing an
edge whose endpoints already share a root is recorded as "already
connected", but path halving inside `find` can still rewrite the parent
array: with nodeCount 4 and edges (0,1), (2,3), (0,2), (1,3), the step for
edge (1,3) changes the recorded parent snapshot from the previous step's. -/
theorem C5_counterexample :
    ((simulateUnionFind 4 [(0, 1), (2, 3), (0, 2), (1, 3)] 0 1).steps.getD 3
        { step := 0, action := "" }).action = "already connected" ∧
      ((simulateUnionFind 4 [(0, 1), (2, 3), (0, 2), (1, 3)] 0 1).steps.getD 3
          { step := 0, action := "" }).parent ≠
        ((simulateUnionFind 4 [(0, 1), (2, 3), (0, 2), (1, 3)] 0 1).steps.getD 2
          { step := 0, action := "" }).parent := by
  constructor
  · rfl
  · decide

/-- C5 (amended): in `simulateUnionFind`, for every `nodeCount > 0` and
edge prefix, processing a further in-range edge `(u, v)` whose endpoints
already have the same root leaves the rank array unchanged and preserves
the root of every node (the parent array may still be rewritten by path
halving inside `find`), and the step for that edge is recorded with action
"already connected"; after any successful union of `(u, v)`,
`find(u) = find(v)` in the resulting state. -/
theorem C5_redundant_union_noop (n : Nat) (pre : List (Int × Int)) (u v : Int)
    (hn : 0 < n) (hu0 : 0 ≤ u) (hun : u < (n : Int)) (hv0 : 0 ≤ v) (hvn : v < (n : Int)) :
    (rootD (ufEdges (List.range n) (List.replicate n 0) n 0 [] pre).1 u.toNat =
        rootD (ufEdges (List.range n) (List.replicate n 0) n 0 [] pre).1 v.toNat →
      (ufEdges (List.range n) (List.replicate n 0) n 0 [] (pre ++ [(u, v)])).2.1 =
        (ufEdges (List.range n) (List.replicate n 0) n 0 [] pre).2.1 ∧
      (∀ y, y < n →
        rootD (ufEdges (List.range n) (List.replicate n 0) n 0 [] (pre ++ [(u, v)])).1 y =
          rootD (ufEdges (List.range n) (List.replicate n 0) n 0 [] pre).1 y) ∧
      ((ufEdges (List.range n) (List.replicate n 0) n 0 [] (pre ++ [(u, v)])).2.2.getLast?).map
          (fun s => s.action) = some "already connected") ∧
    (rootD (ufEdges (List.range n) (List.replicate n 0) n 0 [] pre).1 u.toNat ≠
        rootD (ufEdges (List.range n) (List.replicate n 0) n 0 [] pre).1 v.toNat →
      ((ufEdges (List.range n) (List.replicate n 0) n 0 [] (pre ++ [(u, v)])).2.2.getLast?).map
          (fun s => s.action) = some "union components" ∧
      (ufFind (ufEdges (List.range n) (List.replicate n 0) n 0 [] (pre ++ [(u, v)])).1
          u.toNat).2 =
        (ufFind (ufFind (ufEdges (List.range n) (List.replicate n 0) n 0 []
            (pre ++ [(u, v)])).1 u.toNat).1 v.toNat).2) := by
  obtain ⟨hlen, hinv⟩ :=
    ufEdges_inv pre (List.range n) (List.replicate n 0) n 0 [] (by simp) (ufInit_inv n)
  rw [ufEdges_append_edges pre [(u, v)], ufEdges_cons, if_neg (by omega)]
  rcases hu : ufUnion (ufEdges (List.range n) (List.replicate n 0) n 0 [] pre).1
    (ufEdges (List.range n) (List.replicate n 0) n 0 [] pre).2.1 u.toNat v.toNat
    with ⟨p', r', merged⟩
  have hspec := @ufUnion_spec _ _ hinv u.toNat v.toNat (by omega) (by omega)
  simp only [hu] at hspec ⊢
  rw [ufEdges_nil]
  dsimp only
  constructor
  · intro hsame
    obtain ⟨hm, hr, hroots⟩ := hspec.2.2.1 hsame
    subst hm
    refine ⟨hr, ?_, ?_⟩
    · intro y hy
      exact hroots y (by omega)
    · rw [pushStep_getLast]
      rfl
  · intro hdiff
    obtain ⟨hm, hroots_eq⟩ := hspec.2.2.2 hdiff
    subst hm
    refine ⟨by rw [pushStep_getLast]; rfl, ?_⟩
    have hlen' : p'.length = n := by
      have := hspec.1
      omega
    have hinv' := hspec.2.1
    have hFa := @ufFind_spec p' r' hinv' u.toNat (by omega)
    rcases hf1 : ufFind p' u.toNat with ⟨q1, ra⟩
    simp only [hf1] at hFa
    obtain ⟨hra, hlq, hinvq, hrootsq⟩ := hFa
    have hFb := @ufFind_spec q1 r' hinvq v.toNat (by omega)
    rcases hf2 : ufFind q1 v.toNat with ⟨q2, rb⟩
    simp only [hf2] at hFb
    obtain ⟨hrb, _, _, _⟩ := hFb
    simp only [hf1, hf2]
    rw [hra, hrb, hrootsq v.toNat (by omega)]
    exact hroots_eq

theorem C5_witness :
    (ufEdges (List.range 4) (List.replicate 4 0) 4 0 []
        ([(0, 1), (2, 3), (0, 2)] ++ [(1, 3)])).2.1 =
      (ufEdges (List.range 4) (List.replicate 4 0) 4 0 [] [(0, 1), (2, 3), (0, 2)]).2.1 ∧
    ((ufEdges (List.range 4) (List.replicate 4 0) 4 0 []
        ([(0, 1), (2, 3), (0, 2)] ++ [(1, 3)])).2.2.getLast?).map (fun s => s.action) =
      some "already connected" := by
  have h := (C5_redundant_union_noop 4 [(0, 1), (2, 3), (0, 2)] 1 3 (by decide) (by decide)
    (by decide) (by decide) (by decide)).1 (by decide)
  exact ⟨h.1, h.2.2⟩

/-- C6: for every `nodeCount ≥ 1` and edge list, `simulateTopologicalSort`
returns `{order, hasCycle}` with `order.length = nodeCount` exactly when
`hasCycle = false`; the 4-node cycle example reports `hasCycle = true` with
`order.length < 4`, in the result rather than by throwing. -/
theorem C6_topo_order_iff_no_cycle :
    (∀ (nodeCount : Nat) (edges : List (Int × Int)), 1 ≤ nodeCount →
      ((simulateTopologicalSort nodeCount edges).result.orderOf.length = nodeCount ↔
        (simulateTopologicalSort nodeCount edges).result.hasCycleOf = false)) ∧
    (simulateTopologicalSort 4 [(0, 1), (1, 2), (2, 0), (2, 3)]).result.hasCycleOf = true ∧
    (simulateTopologicalSort 4 [(0, 1), (1, 2), (2, 0), (2, 3)]).result.orderOf.length < 4 := by
  refine ⟨?_, by decide, by decide⟩
  intro nodeCount edges hn
  obtain ⟨order, steps, hcase⟩ := simulateTopologicalSort_report nodeCount edges (by omega)
  rcases hcase with ⟨heq, hne⟩ | ⟨heq, he⟩
  · rw [heq, simres_result]
    simp only [TopoRes.orderOf, TopoRes.hasCycleOf]
    simp [hne]
  · rw [heq, simres_result]
    simp only [TopoRes.orderOf, TopoRes.hasCycleOf]
    simp [he]

theorem C6_witness :
    (simulateTopologicalSort 4 [(0, 1), (1, 2), (2, 0), (2, 3)]).result.orderOf.length = 4 ↔
      (simulateTopologicalSort 4 [(0, 1), (1, 2), (2, 0), (2, 3)]).result.hasCycleOf = false :=
  C6_topo_order_iff_no_cycle.1 4 [(0, 1), (1, 2), (2, 0), (2, 3)] (by decide)

/-- C7: `simulateIntervalsMerge` is idempotent — feeding its result back in
returns the same result. -/
theorem C7_merge_idempotent (intervals : List (Int × Int)) :
    (simulateIntervalsMerge (simulateIntervalsMerge intervals).result).result =
      (simulateIntervalsMerge intervals).result :=
  simulateIntervalsMerge_of_chain _
    (simulateIntervalsMerge_result_invariant intervals).1
    (simulateIntervalsMerge_result_invariant intervals).2

theorem C7_witness :
    (simulateIntervalsMerge
        (simulateIntervalsMerge [(1, 3), (2, 6), (8, 10), (15, 18)]).result).result =
      (simulateIntervalsMerge [(1, 3), (2, 6), (8, 10), (15, 18)]).result :=
  C7_merge_idempotent [(1, 3), (2, 6), (8, 10), (15, 18)]

/-- C8: for every `nums` and every `k > 0`,
`simulateHeapTopK(nums, k).result` has length `min k nums.length` and is
sorted in descending order. -/
theorem C8_heap_topk_length_sorted (nums : List Int) (k : Int) (hk : 0 < k) :
    ((simulateHeapTopK nums k).result.length : Int) = min k (nums.length : Int) ∧
      List.Sorted (fun a b : Int => b ≤ a) (simulateHeapTopK nums k).result :=
  simulateHeapTopK_spec nums k hk

theorem C8_witness :
    (0 : Int) < 3 ∧ (simulateHeapTopK [5, 1, 9, 3, 7, 2] 3).result.length = 3 := by
  refine ⟨by decide, ?_⟩
  have h := (C8_heap_topk_length_sorted [5, 1, 9, 3, 7, 2] 3 (by decide)).1
  norm_num at h
  omega

/-- C9: for every `nodeCount > 0` and edge list, an out-of-range query node
makes `simulateUnionFind` return `false` (it does not throw), the final
recorded step has action "invalid query nodes", and no connectivity-query
step is recorded. -/
theorem C9_invalid_query_nodes (nodeCount : Nat) (edges : List (Int × Int))
    (queryA queryB : Int) (hn : 0 < nodeCount)
    (hq : queryA < 0 ∨ (nodeCount : Int) ≤ queryA ∨ queryB < 0 ∨ (nodeCount : Int) ≤ queryB) :
    (simulateUnionFind nodeCount edges queryA queryB).result = false ∧
      ((simulateUnionFind nodeCount edges queryA queryB).steps.getLast?).map
        (fun s => s.action) = some "invalid query nodes" ∧
      (∀ s ∈ (simulateUnionFind nodeCount edges queryA queryB).steps,
        s.action ≠ "connectivity query") := by
  unfold simulateUnionFind
  rw [if_neg (by omega)]
  rcases he : ufEdges (List.range nodeCount) (List.replicate nodeCount 0) nodeCount 0 [] edges
    with ⟨p, r, steps⟩
  simp only [he]
  rw [if_pos hq]
  refine ⟨rfl, ?_, ?_⟩
  · rw [simres_steps, pushStep_getLast]
    rfl
  · rw [simres_steps]
    intro s hs
    unfold pushStep at hs
    rcases List.mem_append.mp hs with h1 | h1
    · have hact := ufEdges_actions edges (List.range nodeCount)
        (List.replicate nodeCount 0) nodeCount 0 [] (by intro s hs'; simp at hs')
      simp only [he] at hact
      exact hact s h1
    · simp only [List.mem_singleton] at h1
      subst h1
      show ("invalid query nodes" : String) ≠ "connectivity query"
      decide

theorem C9_witness :
    (simulateUnionFind 3 [(0, 1)] 5 0).result = false ∧
      ((simulateUnionFind 3 [(0, 1)] 5 0).steps.getLast?).map (fun s => s.action) =
        some "invalid query nodes" := by
  have h := C9_invalid_query_nodes 3 [(0, 1)] 5 0 (by decide) (by decide)
  exact ⟨h.1, h.2.1⟩

/-- C10: for every input list of intervals each with start ≤ end, the merge
result consists of intervals with start ≤ end, consecutive intervals are
disjoint and non-touching (earlier end strictly below later start), and the
starts are strictly ascending. -/
theorem C10_merge_output_invariant (intervals : List (Int × Int))
    (h : ∀ p ∈ intervals, p.1 ≤ p.2) :
    (∀ p ∈ (simulateIntervalsMerge intervals).result, p.1 ≤ p.2) ∧
      List.Chain' (fun a b => a.2 < b.1) (simulateIntervalsMerge intervals).result ∧
      List.Chain' (fun a b => a.1 < b.1) (simulateIntervalsMerge intervals).result := by
  have hok := simulateIntervalsMerge_result_ok intervals h
  have hinv := simulateIntervalsMerge_result_invariant intervals
  exact ⟨hok, hinv.2, chainLT_of_chain2 _ hok hinv.2⟩

theorem C10_witness :
    List.Chain' (fun a b : Int × Int => a.2 < b.1)
      (simulateIntervalsMerge [(1, 3), (2, 6), (8, 10), (15, 18)]).result :=
  (C10_merge_output_invariant [(1, 3), (2, 6), (8, 10), (15, 18)] (by decide)).2.1

end Claims

end AlgoStudio
